import Mathlib

/-!
# CSV_Parser (csv_parser.cpp): a shallow embedding and its verified properties

Conventions of the embedding.

* A `char` is a `Char`; `NUL` is the byte 0.
* The memory that starts at the pointer `s` of the parser is a `List Char`: the
  input text, its terminator and the bytes that lie behind the terminator. A
  read at an offset inside the list yields that byte. The list stands for a
  memory that continues with zero bytes: a read at or after the end of the list
  yields `NUL`. A list without `NUL` is therefore an input followed by zero
  bytes only. The code steps over the terminator after a field that ends on it
  (`s += len + 1`) and reads the byte it finds there; a statement about such a
  run writes the terminator and the bytes behind it into the list
  (`text ++ NUL :: junk`), and a statement that is to hold whatever lies behind
  the terminator is stated for every `junk`.
* A pointer into the buffer is an offset (`Nat`) into the list; `s += n` is
  `s + n`, and a function that only reads forward from its pointer argument
  receives the suffix `mem.drop s`.
* C strings that are passed around as values (a field text, a label, the
  format) are the lists of their characters before the terminator.
* `int` counters are unbounded: every one of them is bounded by the length of
  the input buffer, which fits the address space.
* An allocation of a non-negative number of bytes succeeds; a negative size is
  refused (see `malloc`). Ownership (`free`) is not modelled.
-/

namespace CSV_Parser

/-! ## Characters and C library functions -/

/-- The terminator byte. -/
def NUL : Char := Char.ofNat 0

/-- Carriage return. -/
def CR : Char := Char.ofNat 13

/-- Line feed. -/
def LF : Char := Char.ofNat 10

/-- Read `*(s + i)` in the memory `s`: the byte at offset `i` of the list, and a zero byte
at and after the end of the list (the memory continues with zero bytes). -/
def peek (s : List Char) (i : Nat) : Char := s.getD i NUL

/-- The C string stored in a buffer: the bytes before the first `NUL`. -/
def cstr (buf : List Char) : List Char := buf.takeWhile (fun c => c ≠ NUL)

/-- C `strcspn(s, reject)`: length of the initial segment of `s` without any byte of `reject`. -/
def strcspn : List Char → List Char → Nat
  | [], _ => 0
  | c :: cs, reject => if c = NUL ∨ c ∈ reject then 0 else strcspn cs reject + 1

/-- C `strndup(s, n)`: a copy of at most `n` bytes of `s`, stopping at the terminator. -/
def strndup (s : List Char) (n : Nat) : List Char := cstr (s.take n)

/-- C `strdup(s)` of a C string value. -/
def strdup (s : List Char) : List Char := cstr s

/-- C `strcmp`: the difference of the first differing bytes, 0 for equal strings. -/
def strcmp : List Char → List Char → Int
  | [], [] => 0
  | [], b :: _ => 0 - (b.toNat : Int)
  | a :: _, [] => (a.toNat : Int)
  | a :: as, b :: bs =>
    if a ≠ b then (a.toNat : Int) - (b.toNat : Int)
    else if a = NUL then 0
    else strcmp as bs

/-- The array `delim_chars = {CR, LF, delimiter, 0}` as the set of its bytes before the terminator. -/
def delim_chars (delimiter : Char) : List Char := [CR, LF, delimiter]

/-- The loop `while (*s == LF || *s == CR) s++`: the number of bytes it skips in the
memory `s`; it stops at the end of the list, where the memory continues with zero bytes. -/
def eolRun : List Char → Nat
  | [] => 0
  | c :: cs => if c = LF ∨ c = CR then eolRun cs + 1 else 0

/-- The cursor update repeated after every field:
`s += len + 1; while (*s == LF || *s == CR) s++;`. The byte at `s + len + 1` is read also
when the field ended on the terminator at `s + len`: the loop then runs over the bytes the
list holds behind the terminator. -/
def advance (mem : List Char) (s len : Nat) : Nat :=
  s + len + 1 + eolRun (mem.drop (s + len + 1))

/-! ## Numeric conversions of the C library -/

/-- C `isspace` in the C locale. -/
def isspace (c : Char) : Bool :=
  c = ' ' ∨ (9 ≤ c.toNat ∧ c.toNat ≤ 13)

/-- Value of a digit in the given base, if it is one. -/
def digitVal (base : Nat) (c : Char) : Option Nat :=
  let v :=
    if '0'.toNat ≤ c.toNat ∧ c.toNat ≤ '9'.toNat then c.toNat - '0'.toNat
    else if 'a'.toNat ≤ c.toNat ∧ c.toNat ≤ 'z'.toNat then c.toNat - 'a'.toNat + 10
    else if 'A'.toNat ≤ c.toNat ∧ c.toNat ≤ 'Z'.toNat then c.toNat - 'A'.toNat + 10
    else base
  if v < base then some v else none

/-- Accumulate the longest run of digits of the base. -/
def digits (base : Nat) : List Char → Nat → Nat
  | [], acc => acc
  | c :: cs, acc =>
    match digitVal base c with
    | some v => digits base cs (acc * base + v)
    | none => acc

/-- Skip leading white space. -/
def skipSpace : List Char → List Char
  | [] => []
  | c :: cs => if isspace c then skipSpace cs else c :: cs

/-- The number read by `strtol`-like functions before range handling:
white space, an optional sign, then digits of the base. -/
def signedNumber (base : Nat) (s : List Char) : Int :=
  match skipSpace s with
  | [] => 0
  | c :: cs =>
    if c = '-' then - (digits base cs 0 : Int)
    else if c = '+' then (digits base cs 0 : Int)
    else (digits base (c :: cs) 0 : Int)

/-- Conversion to a signed integer type of `w` bits (two's complement wrap). -/
def wrapSigned (w : Nat) (n : Int) : Int :=
  (n + 2 ^ (w - 1)) % 2 ^ w - 2 ^ (w - 1)

/-- C `atol` followed by the cast to `int32_t`. -/
def atol32 (s : List Char) : Int := wrapSigned 32 (signedNumber 10 s)

/-- C `atoi` followed by the cast to `int16_t`. -/
def atoi16 (s : List Char) : Int := wrapSigned 16 (signedNumber 10 s)

/-- C `atoi` followed by the cast to a signed `char`. -/
def atoi8 (s : List Char) : Int := wrapSigned 8 (signedNumber 10 s)

/-- Drop the optional `0x` / `0X` that `strtol` accepts in base 16. -/
def hexBody : List Char → List Char
  | a :: b :: c :: cs =>
    if a = '0' ∧ (b = 'x' ∨ b = 'X') ∧ (digitVal 16 c).isSome then c :: cs else a :: b :: c :: cs
  | cs => cs

/-- C `strtol(s, 0, 16)` for a 32-bit `long` (out-of-range values saturate), cast to `int32_t`. -/
def strtol16 (s : List Char) : Int :=
  let n : Int :=
    match skipSpace s with
    | [] => 0
    | c :: cs =>
      if c = '-' then - (digits 16 (hexBody cs) 0 : Int)
      else if c = '+' then (digits 16 (hexBody cs) 0 : Int)
      else (digits 16 (hexBody (c :: cs)) 0 : Int)
  if n < -(2 : Int) ^ 31 then -(2 : Int) ^ 31 else if (2 : Int) ^ 31 ≤ n then (2 : Int) ^ 31 - 1 else n

/-! ## The parser object -/

/-- The members set by the constructor's initializer list, plus the platform's pointer size. -/
structure Config where
  /-- Member `types`, a copy of the format string; `cols_count` is its length. -/
  types : List Char
  /-- Member `has_header`. -/
  has_header : Bool
  /-- Member `delimiter`. -/
  delimiter : Char
  /-- Member `quote_char`. -/
  quote_char : Char
  /-- The platform constant `sizeof(char*)`. -/
  sizeof_ptr : Nat

/-- Member `cols_count = strlen(fmt)`. -/
def Config.cols_count (p : Config) : Nat := p.types.length

/-- An element of a column's storage. -/
inductive Value where
  /-- Element of a `char**` column: an owned copy of the text. -/
  | str (v : List Char)
  /-- Element of a `float*` column: `(float)atof(text)`, kept as the text handed to `atof`. -/
  | f32 (text : List Char)
  /-- Element of an `int32_t*` column. -/
  | i32 (v : Int)
  /-- Element of an `int16_t*` column. -/
  | i16 (v : Int)
  /-- Element of a `char*` column of 8-bit numbers. -/
  | i8 (v : Int)
deriving DecidableEq, Repr

/-- The block that `malloc` returned for a column: which column it was allocated for,
and the requested number of bytes. -/
structure Block where
  /-- Column the block was allocated for (the identity of the pointer). -/
  col : Nat
  /-- Requested size `GetTypeSize(fmt[col]) * rows_count`. -/
  bytes : Int
deriving DecidableEq, Repr

/-- C `malloc(size)` for the block of column `col`, with the size computed in `int`.
A negative size converts to a `size_t` request of almost the whole address space, which
`malloc` refuses by returning the null pointer; every other request is taken to succeed. -/
def malloc (col : Nat) (bytes : Int) : Option Block :=
  if bytes < 0 then none else some ⟨col, bytes⟩

/-- Contents of the column blocks: `cells col row` is the element written at index `row`
of the block of column `col`, `none` while nothing was written there. -/
abbrev Cells := Nat → Nat → Option Value

/-- The constructed object. -/
structure Table where
  /-- The members of the initializer list. -/
  cfg : Config
  /-- Member `rows_count`. -/
  rows_count : Int
  /-- Member `keys`: one pointer per column, `none` is the null pointer. -/
  keys : List (Option (List Char))
  /-- Member `values`: one pointer per column, `none` is the null pointer. -/
  values : List (Option Block)
  /-- Contents of the blocks in `values`. -/
  cells : Cells

/-! ## RemoveEnclosingDoubleQuotes -/

/-- The loop `while (*++s) *(s-1) = *s;` on the buffer; returns the buffer and the final `s`. -/
def RemoveEnclosingDoubleQuotes.shift : Nat → List Char → Nat → List Char × Nat
  | 0, buf, s => (buf, s)
  | fuel + 1, buf, s =>
    if peek buf (s + 1) = NUL then (buf, s + 1)
    else RemoveEnclosingDoubleQuotes.shift fuel (buf.set s (peek buf (s + 1))) (s + 1)

/-- The method `RemoveEnclosingDoubleQuotes(s)`: the C string left in the buffer that held `val`.
When the buffer holds a single byte, `s - 2` lies before the buffer and the buffer
itself is not touched. -/
def RemoveEnclosingDoubleQuotes (quote_char : Char) (val : List Char) : List Char :=
  if peek val 0 = quote_char then
    let r := RemoveEnclosingDoubleQuotes.shift (val.length + 1) val 0
    if 2 ≤ r.2 then
      if peek r.1 (r.2 - 2) = quote_char then cstr (r.1.set (r.2 - 2) NUL) else cstr r.1
    else cstr r.1
  else cstr val

/-! ## ParseStringValue -/

/-- First loop of the quoted branch: counts the decoded length `len` and the bytes
added to `chars_occupied`. -/
def ParseStringValue.scan (quote_char : Char) : Nat → List Char → Nat → Nat → Nat × Nat
  | 0, _, len, occ => (len, occ)
  | fuel + 1, s, len, occ =>
    if peek s 0 = NUL then (len, occ)
    else if peek s 0 = quote_char ∧ peek s 1 ≠ quote_char then (len, occ)
    else
      let to_add := if peek s 0 = quote_char ∧ peek s 1 = quote_char then 2 else 1
      ParseStringValue.scan quote_char fuel (s.drop to_add) (len + 1) (occ + to_add)

/-- Second loop of the quoted branch: copies `len` bytes, stepping over the second
quote of every adjacent pair. -/
def ParseStringValue.copy (quote_char : Char) : Nat → List Char → List Char
  | 0, _ => []
  | len + 1, s =>
    peek s 0 ::
      ParseStringValue.copy quote_char len
        (if peek s 0 = quote_char ∧ peek s 1 = quote_char then s.drop 2 else s.drop 1)

/-- The method `ParseStringValue(s, delim_chars, &chars_occupied)`: the returned string and
the value left in `chars_occupied`. -/
def ParseStringValue (quote_char : Char) (s : List Char) (delims : List Char) :
    List Char × Nat :=
  if peek s 0 ≠ quote_char then
    (strndup s (strcspn s delims), strcspn s delims)
  else
    let r := ParseStringValue.scan quote_char (s.drop 1).length (s.drop 1) 0 2
    (cstr (ParseStringValue.copy quote_char r.1 (s.drop 1)), r.2)

/-! ## CountRows -/

/-- The field length computed in the body of the column loop of `CountRows`. -/
def CountRows.len (p : Config) (ty : Char) (count : Nat) (s : List Char) : Nat :=
  if ty = 's' ∨ (p.has_header = true ∧ count = 0) then
    (ParseStringValue p.quote_char s (delim_chars p.delimiter)).2
  else strcspn s (delim_chars p.delimiter)

/-- The column loop of `CountRows` over the remaining columns; returns the cursor. -/
def CountRows.cols (p : Config) (mem : List Char) (count : Nat) : List Char → Nat → Nat
  | [], s => s
  | ty :: tys, s =>
    CountRows.cols p mem count tys (advance mem s (CountRows.len p ty count (mem.drop s)))

/-- The outer loop of `CountRows`; returns `count` and the final cursor. The result is `none`
when `*(s-1)` would be read before the start of the buffer or when the fuel runs out. -/
def CountRows.loop (p : Config) (mem : List Char) : Nat → Nat → Nat → Option (Nat × Nat)
  | 0, _, _ => none
  | fuel + 1, s, count =>
    if peek mem s = NUL then some (count, s)
    else
      let s1 := CountRows.cols p mem count p.types s
      if s1 = 0 then none
      else if peek mem (s1 - 1) = NUL then some (count + 1, s1)
      else CountRows.loop p mem fuel s1 (count + 1)

/-- The method `CountRows(s)`: it returns `count - has_header`. -/
def CountRows (p : Config) (mem : List Char) : Option Int :=
  (CountRows.loop p mem (mem.length + 1) 0 0).map
    (fun r => (r.1 : Int) - (if p.has_header then 1 else 0))

/-! ## GetTypeSize, SaveNewValue -/

/-- The method `GetTypeSize(type_specifier)`. -/
def GetTypeSize (sizeof_ptr : Nat) (type_specifier : Char) : Int :=
  if type_specifier = 's' then sizeof_ptr
  else if type_specifier = 'f' then 4
  else if type_specifier = 'L' then 4
  else if type_specifier = 'd' then 2
  else if type_specifier = 'c' then 1
  else if type_specifier = 'x' then 4
  else if type_specifier = '-' then 0
  else 0

/-- The element that `SaveNewValue` computes from `val` for a type specifier;
`none` when the `switch` has no case for it. -/
def convert (type_specifier : Char) (val : List Char) : Option Value :=
  if type_specifier = 's' then some (Value.str (strdup val))
  else if type_specifier = 'f' then some (Value.f32 val)
  else if type_specifier = 'L' then some (Value.i32 (atol32 val))
  else if type_specifier = 'd' then some (Value.i16 (atoi16 val))
  else if type_specifier = 'c' then some (Value.i8 (atoi8 val))
  else if type_specifier = 'x' then some (Value.i32 (strtol16 val))
  else none

/-- The method `SaveNewValue(val, type_specifier, row, col)`: it writes element `row` of column `col`. -/
def SaveNewValue (cells : Cells) (val : List Char) (type_specifier : Char) (row col : Nat) :
    Cells :=
  match convert type_specifier val with
  | some v => fun c r => if c = col ∧ r = row then some v else cells c r
  | none => cells

/-! ## The constructor -/

/-- The first loop of the constructor (labels and allocation) over the remaining columns;
returns the entries of `keys` and `values` for these columns and the final cursor. -/
def headerLoop (p : Config) (mem : List Char) (rows_count : Int) :
    List Char → Nat → Nat → List (Option (List Char)) × List (Option Block) × Nat
  | [], _, s => ([], [], s)
  | ty :: tys, col, s =>
    let k := ParseStringValue p.quote_char (mem.drop s) (delim_chars p.delimiter)
    let rest := headerLoop p mem rows_count tys (col + 1) (advance mem s k.2)
    ((if ty = '-' ∨ p.has_header = false then none else some k.1) :: rest.1,
     (if ty ≠ '-' then malloc col (GetTypeSize p.sizeof_ptr ty * rows_count) else none)
       :: rest.2.1,
     rest.2.2)

/-- The text `val` and the length `val_len` computed for a field in the fill loop. -/
def fillVal (p : Config) (ty : Char) (s : List Char) : List Char × Nat :=
  if ty ≠ 's' then
    (RemoveEnclosingDoubleQuotes p.quote_char (strndup s (strcspn s (delim_chars p.delimiter))),
     strcspn s (delim_chars p.delimiter))
  else ParseStringValue p.quote_char s (delim_chars p.delimiter)

/-- The column loop of the fill pass for one row, over the remaining columns. -/
def fillCols (p : Config) (mem : List Char) (row : Nat) :
    List Char → Nat → Nat → Cells → Cells × Nat
  | [], _, s, cells => (cells, s)
  | ty :: tys, col, s, cells =>
    let v := fillVal p ty (mem.drop s)
    fillCols p mem row tys (col + 1) (advance mem s v.2) (SaveNewValue cells v.1 ty row col)

/-- The row loop of the fill pass: `n` rows starting at index `row`. -/
def fillRows (p : Config) (mem : List Char) : Nat → Nat → Nat → Cells → Cells × Nat
  | 0, _, s, cells => (cells, s)
  | n + 1, row, s, cells =>
    let r := fillCols p mem row p.types 0 s cells
    fillRows p mem n (row + 1) r.2 r.1

set_option linter.dupNamespace false in
/-- The constructor `CSV_Parser(s, fmt, has_header, delimiter, quote_char)`.
The result is `none` when `CountRows` yields no result. -/
def CSV_Parser (sizeof_ptr : Nat) (s fmt : List Char) (has_header : Bool)
    (delimiter quote_char : Char) : Option Table :=
  let p : Config := ⟨fmt, has_header, delimiter, quote_char, sizeof_ptr⟩
  match CountRows p s with
  | none => none
  | some rows_count =>
    let h := headerLoop p s rows_count fmt 0 0
    let start := if has_header then h.2.2 else 0
    let f := fillRows p s rows_count.toNat 0 start (fun _ _ => none)
    some ⟨p, rows_count, h.1, h.2.1, f.1⟩

/-! ## Accessors -/

/-- The method `GetColumnsCount()`. -/
def GetColumnsCount (t : Table) : Nat := t.cfg.cols_count

/-- The method `GetRowsCount()`. -/
def GetRowsCount (t : Table) : Int := t.rows_count

/-- The scan of `GetValues(const char * key)` over the remaining columns. -/
def GetValues.scan (key : List Char) : List (Option (List Char)) → List (Option Block) → Option Block
  | [], _ => none
  | _ :: _, [] => none
  | k :: ks, v :: vs =>
    match k with
    | some label => if strcmp label key = 0 then v else GetValues.scan key ks vs
    | none => GetValues.scan key ks vs

/-- The method `GetValues(const char * key)`; `none` is the null pointer. -/
def GetValues (t : Table) (key : List Char) : Option Block :=
  GetValues.scan key (t.keys.take t.cfg.cols_count) t.values

/-- Outcome of an indexed read of the array `values`. -/
inductive Lookup where
  /-- The call returned this pointer (`none` is the null pointer). -/
  | ptr (p : Option Block)
  /-- The call read `values[index]` outside the array. -/
  | outside (index : Int)
deriving DecidableEq, Repr

/-- The method `GetValues(int index)`: `index < cols_count ? values[index] : 0`. -/
def GetValuesAt (t : Table) (index : Int) : Lookup :=
  if index < (t.cfg.cols_count : Int) then
    (if 0 ≤ index ∧ index.toNat < t.values.length then Lookup.ptr (t.values.getD index.toNat none)
     else Lookup.outside index)
  else Lookup.ptr none

/-! # Inputs and auxiliary notions of the statements

The definitions below describe the inputs the statements quantify over and the values
the loops are shown to compute; they are not part of the program. -/

/-- The text `t` with every occurrence of the quote character doubled. -/
def esc (q : Char) : List Char → List Char
  | [] => []
  | c :: cs => if c = q then q :: q :: esc q cs else c :: esc q cs

/-! ## Well-formed inputs

The inputs of the table-level statements are written from a list of lines; a line is
a list of fields and a line ending. -/

/-- A field as it is written in the input. -/
inductive Field where
  /-- The text written as it is. -/
  | plain (t : List Char)
  /-- The text written between quote characters, with its quote characters doubled. -/
  | quoted (t : List Char)
deriving DecidableEq, Repr

/-- The text a field stands for. -/
def Field.text : Field → List Char
  | Field.plain t => t
  | Field.quoted t => t

/-- The bytes of a field in the input. -/
def Field.enc (q : Char) : Field → List Char
  | Field.plain t => t
  | Field.quoted t => q :: (esc q t ++ [q])

/-- A field the tokenizer can delimit: a plain field is not empty, holds no NUL, CR, LF or
delimiter and does not start with the quote character; a quoted field holds no NUL, and
the quote character is none of NUL, CR, LF and the delimiter. -/
def Field.ok (q d : Char) : Field → Prop
  | Field.plain t => t ≠ [] ∧ (∀ c ∈ t, c ≠ NUL ∧ c ≠ CR ∧ c ≠ LF ∧ c ≠ d) ∧ peek t 0 ≠ q
  | Field.quoted t => NUL ∉ t ∧ q ≠ NUL ∧ q ≠ CR ∧ q ≠ LF ∧ q ≠ d

/-- Decision procedure for `Field.ok`. -/
instance Field.ok.decidable (q d : Char) : ∀ f : Field, Decidable (f.ok q d)
  | Field.plain t =>
    inferInstanceAs (Decidable
      (t ≠ [] ∧ (∀ c ∈ t, c ≠ NUL ∧ c ≠ CR ∧ c ≠ LF ∧ c ≠ d) ∧ peek t 0 ≠ q))
  | Field.quoted t =>
    inferInstanceAs (Decidable (NUL ∉ t ∧ q ≠ NUL ∧ q ≠ CR ∧ q ≠ LF ∧ q ≠ d))

/-- A line of the input: its fields and the bytes of its line ending. -/
structure Line where
  /-- The fields of the line, in order. -/
  fields : List Field
  /-- The line ending as written (a run of CR and LF, possibly empty on the last line). -/
  ending : List Char
deriving DecidableEq, Repr

/-- The fields after the first one of a line, each preceded by the delimiter. -/
def renderMore (q d : Char) : List Field → List Char
  | [] => []
  | f :: fs => d :: (f.enc q ++ renderMore q d fs)

/-- The fields of a line joined by the delimiter. -/
def renderFields (q d : Char) : List Field → List Char
  | [] => []
  | f :: fs => f.enc q ++ renderMore q d fs

/-- The bytes of a line: its fields joined by the delimiter, then its ending. -/
def Line.render (q d : Char) (l : Line) : List Char :=
  renderFields q d l.fields ++ l.ending

/-- The input text made of the lines in order. -/
def renderDoc (q d : Char) : List Line → List Char
  | [] => []
  | l :: ls => l.render q d ++ renderDoc q d ls

/-- What may follow a field: the end of the input, or a byte of the delimiter set. -/
def FieldEnd (d : Char) (after : List Char) : Prop :=
  after = [] ∨ ∃ x rest, after = x :: rest ∧ (x = CR ∨ x = LF ∨ x = d)

/-! ## The cursor movement of the column loops -/

/-- The cursor movement shared by the three column loops: for every remaining column the
field length is measured by `lenAt` and the cursor is advanced over the field, one more
byte and the line-ending bytes that follow. -/
def walk (lenAt : Char → List Char → Nat) (mem : List Char) : List Char → Nat → Nat
  | [], s => s
  | ty :: tys, s => walk lenAt mem tys (advance mem s (lenAt ty (mem.drop s)))

/-- The fields of a line are matched with the columns, every field is well formed, and
`lenAt` measures every field exactly. -/
def Measured (lenAt : Char → List Char → Nat) (q d : Char) : List Field → List Char → Prop
  | [], [] => True
  | f :: fs, ty :: tys =>
    f.ok q d ∧ (∀ after, FieldEnd d after → lenAt ty (f.enc q ++ after) = (f.enc q).length) ∧
      Measured lenAt q d fs tys
  | _, _ => False

/-! ## Well-formed documents -/

/-- A line ending is a run of CR and LF bytes. -/
def IsEol (ending : List Char) : Prop := ∀ c ∈ ending, c = CR ∨ c = LF

/-- The fields of a line match the columns: as many fields as columns, every field well
formed, and a quoted field only in a text column or in the header line. -/
def LineFits (p : Config) (hdr : Bool) : List Field → List Char → Prop
  | [], [] => True
  | f :: fs, ty :: tys =>
    f.ok p.quote_char p.delimiter ∧ (∀ t, f = Field.quoted t → ty = 's' ∨ hdr = true) ∧
      LineFits p hdr fs tys
  | _, _ => False

/-- A well-formed document: every line fits the columns, every line ending is a run of CR
and LF, and only the last line may lack its ending. `hdr` tells whether the first line is
the header line. -/
def DocOK (p : Config) : Bool → List Line → Prop
  | _, [] => True
  | hdr, [l] => LineFits p hdr l.fields p.types ∧ IsEol l.ending
  | hdr, l :: l2 :: ls =>
    LineFits p hdr l.fields p.types ∧ IsEol l.ending ∧ l.ending ≠ [] ∧ DocOK p false (l2 :: ls)

/-- The distance the cursor travels over the lines: every line's fields, one more byte,
and the rest of the line ending. -/
def span (q d : Char) : List Line → Nat
  | [] => 0
  | l :: ls => (renderFields q d l.fields).length + 1 + (l.ending.length - 1) + span q d ls

/-! ## Inputs of plain fields -/

/-- A line of plain fields for the columns of `p`: exactly as many fields as columns, every
field non-empty and free of NUL, the quote character, the delimiter, CR and LF. -/
@[reducible] def PlainLine (p : Config) (l : List (List Char) × List Char) : Prop :=
  l.1.length = p.types.length ∧
    ∀ t ∈ l.1, t ≠ [] ∧
      ∀ c ∈ t, c ≠ NUL ∧ c ≠ p.quote_char ∧ c ≠ p.delimiter ∧ c ≠ CR ∧ c ≠ LF

/-- A document of plain lines, each given by its field texts and its line ending: every
line is ended by LF or CR LF, and the ending of the last line may be missing. -/
def PlainDoc (p : Config) : List (List (List Char) × List Char) → Prop
  | [] => True
  | [l] => PlainLine p l ∧ (l.2 = [LF] ∨ l.2 = [CR, LF] ∨ l.2 = [])
  | l :: l2 :: ls => PlainLine p l ∧ (l.2 = [LF] ∨ l.2 = [CR, LF]) ∧ PlainDoc p (l2 :: ls)

/-- Decision procedure for `PlainDoc`. -/
instance PlainDoc.decidable (p : Config) :
    ∀ lines : List (List (List Char) × List Char), Decidable (PlainDoc p lines)
  | [] => isTrue trivial
  | [l] => inferInstanceAs (Decidable (PlainLine p l ∧ (l.2 = [LF] ∨ l.2 = [CR, LF] ∨ l.2 = [])))
  | l :: l2 :: ls =>
    have := PlainDoc.decidable p (l2 :: ls)
    inferInstanceAs
      (Decidable (PlainLine p l ∧ (l.2 = [LF] ∨ l.2 = [CR, LF]) ∧ PlainDoc p (l2 :: ls)))

/-- The lines of a plain document. -/
def plainLines (lines : List (List (List Char) × List Char)) : List Line :=
  lines.map (fun l => ⟨l.1.map Field.plain, l.2⟩)

/-- The input text of a plain document. -/
def plainText (p : Config) (lines : List (List (List Char) × List Char)) : List Char :=
  renderDoc p.quote_char p.delimiter (plainLines lines)

/-! ## The fill pass and the header loop on well-formed lines -/

/-- The writes of the fill pass for one row: the texts `vs` of its fields are saved in the
columns from `col` on. -/
def writeRow (row : Nat) : List Char → List (List Char) → Nat → Cells → Cells
  | ty :: tys, v :: vs, col, cells =>
    writeRow row tys vs (col + 1) (SaveNewValue cells v ty row col)
  | _, _, _, cells => cells

/-- The writes of the fill pass for consecutive rows, starting at index `row`. -/
def writeRows (tys : List Char) : List (List (List Char)) → Nat → Cells → Cells
  | [], _, cells => cells
  | vs :: rows, row, cells => writeRows tys rows (row + 1) (writeRow row tys vs 0 cells)

/-- The labels the header loop stores for the fields of the first line. -/
def labels (p : Config) : List Char → List Field → List (Option (List Char))
  | ty :: tys, f :: fs =>
    (if ty = '-' ∨ p.has_header = false then none else some f.text) :: labels p tys fs
  | _, _ => []

/-- The pointers the header loop stores in `values` for the columns from `col` on. -/
def blocks (p : Config) (rows_count : Int) : List Char → Nat → List (Option Block)
  | [], _ => []
  | ty :: tys, col =>
    (if ty ≠ '-' then malloc col (GetTypeSize p.sizeof_ptr ty * rows_count) else none) ::
      blocks p rows_count tys (col + 1)

/-- The texts of the fields of a line. -/
def Line.texts (l : Line) : List (List Char) := l.fields.map Field.text

/-- The element of column `j` at row `r` after the rows `rows` were written from row 0 on:
the conversion of the text at position `j` of row `r` for the type of column `j`. -/
def cellOf (tys : List Char) (rows : List (List (List Char))) (j r : Nat) : Option Value :=
  (rows[r]?).bind fun vs => (tys[j]?).bind fun ty => (vs[j]?).bind fun v => convert ty v

/-! ## Tables built from quoted text cells -/

/-- The lines that serialise a matrix of texts: every cell written between quote
characters with its quote characters doubled, every row ended by LF. -/
def quotedLines (M : List (List (List Char))) : List Line :=
  M.map (fun row => ⟨row.map Field.quoted, [LF]⟩)

/-- The serialisation of a matrix of texts: the cells of a row joined by the delimiter,
every row ended by LF. -/
def quotedText (q d : Char) (M : List (List (List Char))) : List Char :=
  renderDoc q d (quotedLines M)

/-! ## Decimal literals -/

/-- The characters of the decimal digits `ds`, most significant first. -/
def digitChars (ds : List Nat) : List Char := ds.map (fun v => Char.ofNat (48 + v))

/-- The number written by the decimal digits `ds`, most significant first. -/
def digitsValue (ds : List Nat) : Nat := ds.foldl (fun acc v => acc * 10 + v) 0

/-- The text of a decimal integer literal: an optional minus sign, then the digits. -/
def literal (neg : Bool) (ds : List Nat) : List Char :=
  (if neg then ['-'] else []) ++ digitChars ds

/-- The value of a decimal integer literal. -/
def literalValue (neg : Bool) (ds : List Nat) : Int :=
  if neg then - (digitsValue ds : Int) else (digitsValue ds : Int)

/-! ## The field start positions of the passes -/

/-- The cursor positions at which a column loop starts its fields: the loop of `walk` with
the cursor recorded at the start of every field. -/
def walkStarts (lenAt : Char → List Char → Nat) (mem : List Char) : List Char → Nat → List Nat
  | [], _ => []
  | ty :: tys, s => s :: walkStarts lenAt mem tys (advance mem s (lenAt ty (mem.drop s)))

/-- The field start positions visited by `CountRows`: the loop of `CountRows.loop` with the
cursor recorded at the start of every field. -/
def CountRows.starts (p : Config) (mem : List Char) : Nat → Nat → Nat → List Nat
  | 0, _, _ => []
  | fuel + 1, s, count =>
    if peek mem s = NUL then []
    else
      walkStarts (fun ty sfx => CountRows.len p ty count sfx) mem p.types s ++
        (if CountRows.cols p mem count p.types s = 0 then []
         else if peek mem (CountRows.cols p mem count p.types s - 1) = NUL then []
         else CountRows.starts p mem fuel (CountRows.cols p mem count p.types s) (count + 1))

/-- The field start positions visited by the header loop of the constructor. -/
def headerStarts (p : Config) (mem : List Char) (s : Nat) : List Nat :=
  walkStarts (fun _ sfx => (ParseStringValue p.quote_char sfx (delim_chars p.delimiter)).2)
    mem p.types s

/-- The field start positions visited by `n` rows of the fill pass. -/
def fillStarts (p : Config) (mem : List Char) : Nat → Nat → List Nat
  | 0, _ => []
  | n + 1, s =>
    walkStarts (fun ty sfx => (fillVal p ty sfx).2) mem p.types s ++
      fillStarts p mem n (walk (fun ty sfx => (fillVal p ty sfx).2) mem p.types s)

/-- The field start positions visited by the constructor: the header loop followed by the
fill pass, or the fill pass alone restarted at the beginning without header. -/
def constructorStarts (p : Config) (mem : List Char) (rows_count : Int) : List Nat :=
  if p.has_header then
    headerStarts p mem 0 ++
      fillStarts p mem rows_count.toNat (headerLoop p mem rows_count p.types 0 0).2.2
  else fillStarts p mem rows_count.toNat 0

/-- The offsets at which the fields of a line start when the line starts at offset `s`. -/
def lineStarts (q : Char) : Nat → List Field → List Nat
  | _, [] => []
  | s, f :: fs => s :: lineStarts q (s + (f.enc q).length + 1) fs

/-- The offsets at which the fields of the lines start when the first line starts at
offset `s`. -/
def docStarts (q d : Char) : Nat → List Line → List Nat
  | _, [] => []
  | s, l :: ls => lineStarts q s l.fields ++ docStarts q d (s + span q d [l]) ls

/-- Whether the last line of a document lacks its line ending. -/
def lastEndingMissing : List Line → Bool
  | [] => false
  | [l] => decide (l.ending = [])
  | _ :: l2 :: ls => lastEndingMissing (l2 :: ls)

/-! ## Inserting a line-ending byte -/

/-- The cursors of two runs, one on an input and one on the same input with one more byte
inserted right behind offset `i`: equal up to `i`, shifted by one behind it. -/
def Shifted (i s s1 : Nat) : Prop := (s ≤ i ∧ s1 = s) ∨ (i < s ∧ s1 = s + 1)

/-- A field scanner stops at the byte `x`: on a text `u` without quote character followed
by `x`, its result does not depend on what follows `x`, and the length it reports does not
go beyond `u`. -/
def StopsAt (q x : Char) (g : List Char → List Char × Nat) : Prop :=
  ∀ u r r1 : List Char, q ∉ u →
    g (u ++ x :: r) = g (u ++ x :: r1) ∧ (g (u ++ x :: r)).2 ≤ u.length

/-! ## Inputs with empty fields -/

/-- A field text without NUL, CR, LF, delimiter and quote character. -/
def Clean (q d : Char) (t : List Char) : Prop :=
  ∀ c ∈ t, c ≠ NUL ∧ c ≠ CR ∧ c ≠ LF ∧ c ≠ d ∧ c ≠ q

/-- A field text with the byte that ends it: the delimiter or LF; an empty text is ended by
the delimiter. -/
def TokenAt (q d : Char) (tok : List Char × Char) : Prop :=
  Clean q d tok.1 ∧ (tok.2 = d ∨ tok.2 = LF) ∧ (tok.1 = [] → tok.2 = d)

/-- The bytes of a sequence of fields, each followed by the byte that ends it. -/
def renderToks : List (List Char × Char) → List Char
  | [] => []
  | tok :: toks => tok.1 ++ tok.2 :: renderToks toks

/-- The fields of a line with the bytes that end them: the delimiter between fields, LF
after the last field. -/
def rowTokens (d : Char) : List (List Char) → List (List Char × Char)
  | [] => []
  | [t] => [(t, LF)]
  | t :: t2 :: ts => (t, d) :: rowTokens d (t2 :: ts)

/-- The input text made of lines of delimiter-separated fields, every line ended by LF. -/
def delimitedText (d : Char) : List (List (List Char)) → List Char
  | [] => []
  | row :: rows => renderToks (rowTokens d row) ++ delimitedText d rows

/-- A line of fields for the columns `tys`: as many fields as columns, every field clean,
the last field not empty. -/
def RowFits (q d : Char) (tys : List Char) (row : List (List Char)) : Prop :=
  row.length = tys.length ∧ (∀ t ∈ row, Clean q d t) ∧ row.getLast? ≠ some []

/-! # Theorems -/

/-! ## Basic facts about reads and the C library functions -/

@[simp] theorem peek_nil (i : Nat) : peek [] i = NUL := by
  simp [peek]

@[simp] theorem peek_cons_zero (c : Char) (s : List Char) : peek (c :: s) 0 = c := by
  simp [peek]

@[simp] theorem peek_cons_succ (c : Char) (s : List Char) (i : Nat) :
    peek (c :: s) (i + 1) = peek s i := by
  simp [peek]

theorem peek_drop (s : List Char) (i j : Nat) : peek (s.drop i) j = peek s (i + j) := by
  simp [peek, List.getD_eq_getElem?_getD, List.getElem?_drop]

theorem peek_append_left (a b : List Char) (i : Nat) (h : i < a.length) :
    peek (a ++ b) i = peek a i := by
  simp [peek, List.getD_eq_getElem?_getD, List.getElem?_append_left h]

theorem peek_append_right (a b : List Char) (i : Nat) :
    peek (a ++ b) (a.length + i) = peek b i := by
  simp [peek, List.getD_eq_getElem?_getD, List.getElem?_append_right]

theorem peek_of_length_le (s : List Char) (i : Nat) (h : s.length ≤ i) : peek s i = NUL := by
  simp [peek, List.getD_eq_getElem?_getD, List.getElem?_eq_none h]

theorem cstr_of_not_mem (t : List Char) (h : NUL ∉ t) : cstr t = t := by
  induction t with
  | nil => rfl
  | cons c cs ih =>
    have hc : c ≠ NUL := fun e => h (by simp [e])
    have hcs : NUL ∉ cs := fun e => h (by simp [e])
    simp [cstr, List.takeWhile_cons, hc] at ih ⊢
    exact ih hcs

theorem cstr_append_nul (t rest : List Char) (h : NUL ∉ t) : cstr (t ++ NUL :: rest) = t := by
  induction t with
  | nil => simp [cstr]
  | cons c cs ih =>
    have hc : c ≠ NUL := fun e => h (by simp [e])
    have hcs : NUL ∉ cs := fun e => h (by simp [e])
    simp [cstr, List.takeWhile_cons, hc] at ih ⊢
    exact ih hcs

theorem esc_length_ge (q : Char) (t : List Char) : t.length ≤ (esc q t).length := by
  induction t with
  | nil => simp [esc]
  | cons c cs ih =>
    by_cases hc : c = q
    · simp [esc, hc]; omega
    · simp [esc, hc]; omega

/-! ## ParseStringValue on a quoted field -/

theorem scan_esc (q : Char) (t r : List Char) (ht : NUL ∉ t)
    (hr : ∀ c r1, r = c :: r1 → c ≠ q) :
    ∀ (fuel len occ : Nat), (esc q t).length + 1 ≤ fuel →
      ParseStringValue.scan q fuel (esc q t ++ q :: r) len occ
        = (len + t.length, occ + (esc q t).length) := by
  induction t with
  | nil =>
    intro fuel len occ hf
    obtain ⟨f, rfl⟩ : ∃ f, fuel = f + 1 := ⟨fuel - 1, by omega⟩
    by_cases hq : q = NUL
    · simp [ParseStringValue.scan, esc, hq]
    · have h1 : peek r 0 ≠ q := by
        cases r with
        | nil => simpa using fun e => hq e.symm
        | cons c r1 => simpa using hr c r1 rfl
      simp [ParseStringValue.scan, esc, hq, h1]
  | cons c cs ih =>
    intro fuel len occ hf
    have hc : c ≠ NUL := fun e => ht (by simp [e])
    have hcs : NUL ∉ cs := fun e => ht (by simp [e])
    obtain ⟨f, rfl⟩ : ∃ f, fuel = f + 1 := ⟨fuel - 1, by omega⟩
    by_cases hcq : c = q
    · subst hcq
      simp only [esc, if_true, List.cons_append, List.length_cons] at hf ⊢
      rw [ParseStringValue.scan]
      simp only [peek_cons_zero, peek_cons_succ, hc, if_false, ne_eq, not_true_eq_false,
        and_false, and_self, if_true, List.drop_succ_cons, List.drop_zero]
      rw [ih hcs f (len + 1) (occ + 2) (by omega)]
      simp only [Prod.mk.injEq]
      omega
    · simp only [esc, hcq, if_false, List.cons_append, List.length_cons] at hf ⊢
      rw [ParseStringValue.scan]
      simp only [peek_cons_zero, hc, if_false, hcq, false_and, List.drop_succ_cons,
        List.drop_zero]
      rw [ih hcs f (len + 1) (occ + 1) (by omega)]
      simp only [Prod.mk.injEq]
      omega

theorem copy_esc (q : Char) (t rest : List Char) :
    ParseStringValue.copy q t.length (esc q t ++ rest) = t := by
  induction t with
  | nil => simp [ParseStringValue.copy]
  | cons c cs ih =>
    by_cases hcq : c = q
    · subst hcq
      simp [esc, ParseStringValue.copy, ih]
    · simp [esc, ParseStringValue.copy, hcq, ih]

theorem ParseStringValue_quoted (q : Char) (t r delims : List Char) (ht : NUL ∉ t)
    (hr : ∀ c r1, r = c :: r1 → c ≠ q) :
    ParseStringValue q (q :: (esc q t ++ q :: r)) delims = (t, (esc q t).length + 2) := by
  have hs := scan_esc q t r ht hr (esc q t ++ q :: r).length 0 2 (by simp)
  simp only [ParseStringValue, peek_cons_zero, ne_eq, not_true_eq_false, if_false,
    List.drop_succ_cons, List.drop_zero, hs, zero_add, copy_esc, cstr_of_not_mem t ht,
    Prod.mk.injEq, true_and]
  omega

/-- C1: a quoted field `q + esc(t) + q + r`, with `t` free of NUL and `r` empty or starting
with a character other than `q`, is decoded by `ParseStringValue` to exactly `t`, and
`chars_occupied` is `length(esc(t)) + 2`. -/
theorem C1_quoted_field_round_trip (q : Char) (t r delims : List Char) (ht : NUL ∉ t)
    (hr : r = [] ∨ ∃ c r1, r = c :: r1 ∧ c ≠ q) :
    ParseStringValue q (q :: (esc q t ++ q :: r)) delims = (t, (esc q t).length + 2) := by
  apply ParseStringValue_quoted q t r delims ht
  intro c r1 h
  rcases hr with h0 | ⟨c0, r0, h0, hne⟩
  · simp [h0] at h
  · rw [h0] at h
    cases h
    exact hne

/-- Witness of C1: the field `"he said ""hi"""` decodes to `he said "hi"`, 16 bytes consumed. -/
theorem C1_quoted_field_round_trip_witness :
    NUL ∉ "he said \"hi\"".toList ∧
    ParseStringValue '"' "\"he said \"\"hi\"\"\"".toList (delim_chars ',')
      = ("he said \"hi\"".toList, 16) :=
  ⟨by decide,
   C1_quoted_field_round_trip '"' "he said \"hi\"".toList [] (delim_chars ',') (by decide)
     (Or.inl rfl)⟩

/-! ## Unquoted scanning -/

theorem strcspn_le_length (s delims : List Char) : strcspn s delims ≤ s.length := by
  induction s with
  | nil => simp [strcspn]
  | cons c cs ih =>
    by_cases h : c = NUL ∨ c ∈ delims
    · simp [strcspn, h]
    · simp only [strcspn, h, if_false, List.length_cons]
      omega

theorem take_strcspn (s delims : List Char) (hs : NUL ∉ s) :
    s.take (strcspn s delims) = s.takeWhile (fun c => decide (c ∉ delims)) := by
  induction s with
  | nil => simp [strcspn]
  | cons c cs ih =>
    have hc : c ≠ NUL := fun e => hs (by simp [e])
    have hcs : NUL ∉ cs := fun e => hs (by simp [e])
    by_cases h : c ∈ delims
    · simp [strcspn, h, List.takeWhile_cons]
    · simp [strcspn, h, hc, List.takeWhile_cons, ih hcs]

theorem not_mem_take_strcspn (s delims : List Char) :
    ∀ c ∈ s.take (strcspn s delims), c ≠ NUL ∧ c ∉ delims := by
  induction s with
  | nil => simp [strcspn]
  | cons a cs ih =>
    by_cases h : a = NUL ∨ a ∈ delims
    · simp [strcspn, h]
    · intro c hc
      simp only [strcspn, h, if_false, List.take_succ_cons, List.mem_cons] at hc
      rcases hc with rfl | hc
      · exact ⟨fun e => h (Or.inl e), fun e => h (Or.inr e)⟩
      · exact ih c hc

theorem peek_strcspn (s delims : List Char) :
    peek s (strcspn s delims) = NUL ∨ peek s (strcspn s delims) ∈ delims := by
  induction s with
  | nil => simp [strcspn]
  | cons a cs ih =>
    by_cases h : a = NUL ∨ a ∈ delims
    · simp [strcspn, h]
    · simp only [strcspn, h, if_false, peek_cons_succ]
      exact ih

theorem strndup_strcspn (s delims : List Char) :
    strndup s (strcspn s delims) = s.take (strcspn s delims) := by
  unfold strndup
  apply cstr_of_not_mem
  intro h
  exact (not_mem_take_strcspn s delims NUL h).1 rfl

theorem prefix_length_le_strcspn (s delims : List Char) :
    ∀ pre : List Char, pre <+: s → (∀ c ∈ pre, c ∉ delims) → NUL ∉ pre →
      pre.length ≤ strcspn s delims := by
  induction s with
  | nil =>
    intro pre hp _ _
    simp [List.prefix_nil.mp hp]
  | cons a cs ih =>
    intro pre hp hd hn
    cases pre with
    | nil => simp
    | cons b bs =>
      obtain ⟨rfl, hbs⟩ := List.cons_prefix_cons.mp hp
      have h : ¬ (b = NUL ∨ b ∈ delims) := by
        rintro (e | e)
        · exact hn (by simp [e])
        · exact hd b (by simp) e
      simp only [strcspn, h, if_false, List.length_cons]
      have := ih bs hbs (fun c hc => hd c (by simp [hc])) (fun e => hn (by simp [e]))
      omega

theorem ParseStringValue_unquoted (q : Char) (s delims : List Char) (hq : peek s 0 ≠ q) :
    ParseStringValue q s delims = (s.take (strcspn s delims), strcspn s delims) := by
  simp [ParseStringValue, hq, strndup_strcspn]

/-- C6: when the input text `s` does not start with the quote character (the empty text
included), `ParseStringValue` returns the longest prefix of `s` without CR, LF or the
delimiter, `chars_occupied` is the length of that prefix, and the byte at
`s[chars_occupied]` is a character of the delimiter set or the terminator. -/
theorem C6_unquoted_tokenization (q d : Char) (s : List Char) (hs : NUL ∉ s)
    (hq : peek s 0 ≠ q) :
    (ParseStringValue q s (delim_chars d)).1
        = s.takeWhile (fun c => decide (c ≠ CR ∧ c ≠ LF ∧ c ≠ d)) ∧
    (ParseStringValue q s (delim_chars d)).1 <+: s ∧
    (ParseStringValue q s (delim_chars d)).2 = (ParseStringValue q s (delim_chars d)).1.length ∧
    (∀ c ∈ (ParseStringValue q s (delim_chars d)).1, c ≠ CR ∧ c ≠ LF ∧ c ≠ d) ∧
    (∀ pre : List Char, pre <+: s → (∀ c ∈ pre, c ≠ CR ∧ c ≠ LF ∧ c ≠ d) →
      pre.length ≤ (ParseStringValue q s (delim_chars d)).2) ∧
    (peek s (ParseStringValue q s (delim_chars d)).2 = NUL ∨
      peek s (ParseStringValue q s (delim_chars d)).2 = CR ∨
      peek s (ParseStringValue q s (delim_chars d)).2 = LF ∨
      peek s (ParseStringValue q s (delim_chars d)).2 = d) := by
  rw [ParseStringValue_unquoted q s (delim_chars d) hq]
  refine ⟨?_, List.take_prefix _ _, ?_, ?_, ?_, ?_⟩
  · show s.take (strcspn s (delim_chars d)) = _
    rw [take_strcspn s _ hs]
    congr 1
    funext c
    simp [delim_chars]
  · simp [List.length_take, strcspn_le_length]
  · intro c hc
    have := (not_mem_take_strcspn s (delim_chars d) c hc).2
    simpa [delim_chars] using this
  · intro pre hp hd
    apply prefix_length_le_strcspn s (delim_chars d) pre hp
    · intro c hc
      have := hd c hc
      simp [delim_chars, this]
    · intro hn
      obtain ⟨t, rfl⟩ := hp
      exact hs (by simp [hn])
  · have := peek_strcspn s (delim_chars d)
    simpa [delim_chars] using this

/-- Witness of C6: the text `ab,cd` yields the field `ab` and `chars_occupied = 2`. -/
theorem C6_unquoted_tokenization_witness :
    (ParseStringValue '"' "ab,cd".toList (delim_chars ',')).1
        = "ab,cd".toList.takeWhile (fun c => decide (c ≠ CR ∧ c ≠ LF ∧ c ≠ ',')) ∧
    (ParseStringValue '"' "ab,cd".toList (delim_chars ',')).2 = 2 ∧
    peek "ab,cd".toList 2 = ',' :=
  ⟨(C6_unquoted_tokenization '"' ',' "ab,cd".toList (by decide) (by decide)).1,
   by decide, by decide⟩

/-! ## RemoveEnclosingDoubleQuotes -/

theorem shift_snoc (init : List Char) :
    ∀ (pre : List Char) (x l : Char) (fuel : Nat), NUL ∉ init → l ≠ NUL →
      init.length + 2 ≤ fuel →
      RemoveEnclosingDoubleQuotes.shift fuel (pre ++ x :: (init ++ [l])) pre.length
        = (pre ++ (init ++ [l, l]), pre.length + init.length + 2) := by
  induction init with
  | nil =>
    intro pre x l fuel _ hl hf
    obtain ⟨f, rfl⟩ : ∃ f, fuel = f + 2 := ⟨fuel - 2, by omega⟩
    have h1 : peek (pre ++ [x, l]) (pre.length + 1) = l := by
      rw [peek_append_right]; simp
    have h2 : peek (pre ++ [l, l]) (pre.length + 1 + 1) = NUL := by
      apply peek_of_length_le; simp
    have h3 : (pre ++ [x, l]).set pre.length l = pre ++ [l, l] := by
      rw [List.set_append_right _ _ (le_refl _)]; simp
    simp [RemoveEnclosingDoubleQuotes.shift, h1, h2, h3, hl]
  | cons y ys ih =>
    intro pre x l fuel hn hl hf
    have hy : y ≠ NUL := fun e => hn (by simp [e])
    have hys : NUL ∉ ys := fun e => hn (by simp [e])
    obtain ⟨f, rfl⟩ : ∃ f, fuel = f + 1 := ⟨fuel - 1, by omega⟩
    have h1 : peek (pre ++ x :: (y :: ys ++ [l])) (pre.length + 1) = y := by
      rw [peek_append_right]; simp
    have h3 : (pre ++ x :: (y :: ys ++ [l])).set pre.length y
        = (pre ++ [y]) ++ y :: (ys ++ [l]) := by
      rw [List.set_append_right _ _ (le_refl _)]; simp
    rw [RemoveEnclosingDoubleQuotes.shift]
    simp only [h1, hy, if_false, h3]
    have := ih (pre ++ [y]) y l f hys hl (by simp at hf ⊢; omega)
    simp only [List.length_append, List.length_singleton] at this
    rw [this]
    simp only [List.append_assoc, List.singleton_append, List.cons_append, List.length_cons,
      Prod.mk.injEq, true_and]
    exact ⟨by simp, by omega⟩

theorem RemoveEnclosingDoubleQuotes_not_quoted (q : Char) (val : List Char) (hv : NUL ∉ val)
    (hq : peek val 0 ≠ q) : RemoveEnclosingDoubleQuotes q val = val := by
  simp [RemoveEnclosingDoubleQuotes, hq, cstr_of_not_mem val hv]

theorem RemoveEnclosingDoubleQuotes_single (q : Char) (hq : q ≠ NUL) :
    RemoveEnclosingDoubleQuotes q [q] = [q] := by
  simp [RemoveEnclosingDoubleQuotes, RemoveEnclosingDoubleQuotes.shift, cstr, hq]

theorem RemoveEnclosingDoubleQuotes_snoc (q l : Char) (init : List Char)
    (hl : l ≠ NUL) (hn : NUL ∉ init) :
    RemoveEnclosingDoubleQuotes q (q :: (init ++ [l]))
      = if l = q then init else init ++ [l, l] := by
  have hs := shift_snoc init [] q l ((q :: (init ++ [l])).length + 1) hn hl (by simp)
  simp only [List.nil_append, List.length_nil, zero_add] at hs
  have hp : peek (init ++ [l, l]) init.length = l := by
    have := peek_append_right init [l, l] 0
    simpa using this
  have hset : (init ++ [l, l]).set init.length NUL = init ++ NUL :: [l] := by
    rw [List.set_append_right _ _ (le_refl _)]; simp
  unfold RemoveEnclosingDoubleQuotes
  simp only [peek_cons_zero, if_true, hs, Nat.le_add_left, Nat.add_sub_cancel, hp, hset]
  by_cases hlq : l = q
  · simp only [hlq, if_true]
    exact cstr_append_nul init [q] hn
  · simp only [hlq, if_false]
    apply cstr_of_not_mem
    intro h
    simp only [List.mem_append, List.mem_cons, List.mem_singleton, List.not_mem_nil,
      or_false, or_self] at h
    rcases h with h | h
    · exact hn h
    · exact hl h.symm

theorem RemoveEnclosingDoubleQuotes_enclosed (q : Char) (body : List Char) (hq : q ≠ NUL)
    (hn : NUL ∉ body) : RemoveEnclosingDoubleQuotes q (q :: (body ++ [q])) = body := by
  rw [RemoveEnclosingDoubleQuotes_snoc q q body hq hn]
  simp

/-! ## Scanning one well-formed field -/

theorem strcspn_append (t after delims : List Char) (ht : ∀ c ∈ t, c ≠ NUL ∧ c ∉ delims)
    (ha : after = [] ∨ ∃ x rest, after = x :: rest ∧ (x = NUL ∨ x ∈ delims)) :
    strcspn (t ++ after) delims = t.length := by
  induction t with
  | nil =>
    rcases ha with rfl | ⟨x, rest, rfl, hx⟩
    · simp [strcspn]
    · simp [strcspn, hx]
  | cons c cs ih =>
    have hc := ht c (by simp)
    have h : ¬ (c = NUL ∨ c ∈ delims) := by
      rintro (e | e)
      · exact hc.1 e
      · exact hc.2 e
    have e := ih (fun x hx => ht x (by simp [hx]))
    simp only [List.cons_append, strcspn, h, if_false, List.length_cons]
    exact congrArg (· + 1) e

theorem FieldEnd.strcspn_ok {d : Char} {after : List Char} (h : FieldEnd d after) :
    after = [] ∨ ∃ x rest, after = x :: rest ∧ (x = NUL ∨ x ∈ delim_chars d) := by
  rcases h with h | ⟨x, rest, h, hx⟩
  · exact Or.inl h
  · refine Or.inr ⟨x, rest, h, Or.inr ?_⟩
    simpa [delim_chars] using hx

theorem plain_clean {q d : Char} {t : List Char} (h : (Field.plain t).ok q d) :
    ∀ c ∈ t, c ≠ NUL ∧ c ∉ delim_chars d := by
  intro c hc
  have := h.2.1 c hc
  simp [delim_chars, this]

theorem plain_not_mem_nul {q d : Char} {t : List Char} (h : (Field.plain t).ok q d) :
    NUL ∉ t := fun hn => (h.2.1 NUL hn).1 rfl

theorem peek_append_of_ne_nil (t after : List Char) (h : t ≠ []) :
    peek (t ++ after) 0 = peek t 0 := by
  cases t with
  | nil => exact absurd rfl h
  | cons c cs => simp

/-- The quote-aware scan of a well-formed field returns its text and its length in the input. -/
theorem ParseStringValue_field (q d : Char) (f : Field) (after : List Char)
    (hf : f.ok q d) (ha : FieldEnd d after) :
    ParseStringValue q (f.enc q ++ after) (delim_chars d) = (f.text, (f.enc q).length) := by
  cases f with
  | plain t =>
    have hq : peek (t ++ after) 0 ≠ q := by
      rw [peek_append_of_ne_nil t after hf.1]; exact hf.2.2
    have hn := strcspn_append t after (delim_chars d) (plain_clean hf) ha.strcspn_ok
    simp [Field.enc, Field.text, ParseStringValue_unquoted q _ _ hq, hn]
  | quoted t =>
    obtain ⟨ht, hq0, hq1, hq2, hq3⟩ := hf
    have hr : ∀ c r1, after = c :: r1 → c ≠ q := by
      intro c r1 h
      rcases ha with h0 | ⟨x, rest, h0, hx⟩
      · simp [h0] at h
      · rw [h0] at h
        cases h
        rcases hx with rfl | rfl | rfl
        · exact fun e => hq1 e.symm
        · exact fun e => hq2 e.symm
        · exact fun e => hq3 e.symm
    have := ParseStringValue_quoted q t after (delim_chars d) ht hr
    simpa [Field.enc, Field.text] using this

/-- The delimiter-only scan of a plain field returns its length. -/
theorem strcspn_plain (q d : Char) (t after : List Char) (hf : (Field.plain t).ok q d)
    (ha : FieldEnd d after) : strcspn (t ++ after) (delim_chars d) = t.length :=
  strcspn_append t after (delim_chars d) (plain_clean hf) ha.strcspn_ok

/-- The fill pass reads the text of a well-formed field, whatever the column type, provided
a quoted field stands in a text column. -/
theorem fillVal_field (p : Config) (ty : Char) (f : Field) (after : List Char)
    (hf : f.ok p.quote_char p.delimiter) (ha : FieldEnd p.delimiter after)
    (hty : ∀ t, f = Field.quoted t → ty = 's') :
    fillVal p ty (f.enc p.quote_char ++ after) = (f.text, (f.enc p.quote_char).length) := by
  by_cases hs : ty = 's'
  · simp only [fillVal, hs, ne_eq, not_true_eq_false, if_false]
    exact ParseStringValue_field _ _ f after hf ha
  · cases f with
    | quoted t => exact absurd (hty t rfl) hs
    | plain t =>
      have hn := strcspn_plain _ _ t after hf ha
      simp only [fillVal, ne_eq, hs, not_false_eq_true, if_true, Field.enc, Field.text, hn,
        strndup, List.take_left']
      rw [cstr_of_not_mem t (plain_not_mem_nul hf),
        RemoveEnclosingDoubleQuotes_not_quoted _ t (plain_not_mem_nul hf) hf.2.2]

/-- The row counter measures the length of a well-formed field, provided a quoted field
stands in a text column or in the header line. -/
theorem CountRows_len_field (p : Config) (ty : Char) (count : Nat) (f : Field)
    (after : List Char) (hf : f.ok p.quote_char p.delimiter) (ha : FieldEnd p.delimiter after)
    (hty : ∀ t, f = Field.quoted t → ty = 's' ∨ (p.has_header = true ∧ count = 0)) :
    CountRows.len p ty count (f.enc p.quote_char ++ after) = (f.enc p.quote_char).length := by
  by_cases hs : ty = 's' ∨ (p.has_header = true ∧ count = 0)
  · simp only [CountRows.len, hs, if_true]
    rw [ParseStringValue_field _ _ f after hf ha]
  · cases f with
    | quoted t => exact absurd (hty t rfl) hs
    | plain t =>
      simp only [CountRows.len, hs, if_false, Field.enc]
      exact strcspn_plain _ _ t after hf ha

/-! ## The cursor movement of the column loops -/

theorem CountRows_cols_eq_walk (p : Config) (mem : List Char) (count : Nat) (tys : List Char) :
    ∀ s, CountRows.cols p mem count tys s
      = walk (fun ty sfx => CountRows.len p ty count sfx) mem tys s := by
  induction tys with
  | nil => intro s; rfl
  | cons ty tys ih => intro s; simp only [CountRows.cols, walk, ih]

theorem headerLoop_cursor (p : Config) (mem : List Char) (rows : Int) (tys : List Char) :
    ∀ col s, (headerLoop p mem rows tys col s).2.2
      = walk (fun _ sfx => (ParseStringValue p.quote_char sfx (delim_chars p.delimiter)).2)
          mem tys s := by
  induction tys with
  | nil => intro col s; rfl
  | cons ty tys ih => intro col s; simp only [headerLoop, walk, ih]

theorem fillCols_cursor (p : Config) (mem : List Char) (row : Nat) (tys : List Char) :
    ∀ col s cells, (fillCols p mem row tys col s cells).2
      = walk (fun ty sfx => (fillVal p ty sfx).2) mem tys s := by
  induction tys with
  | nil => intro col s cells; rfl
  | cons ty tys ih => intro col s cells; simp only [fillCols, walk, ih]

theorem enc_head (q d : Char) (f : Field) (hf : f.ok q d) :
    ∃ c cs, f.enc q = c :: cs ∧ c ≠ NUL ∧ c ≠ CR ∧ c ≠ LF := by
  cases f with
  | plain t =>
    cases t with
    | nil => exact absurd rfl hf.1
    | cons c cs =>
      have := hf.2.1 c (by simp)
      exact ⟨c, cs, rfl, this.1, this.2.1, this.2.2.1⟩
  | quoted t =>
    exact ⟨q, esc q t ++ [q], rfl, hf.2.1, hf.2.2.1, hf.2.2.2.1⟩

theorem eolRun_enc (q d : Char) (f : Field) (hf : f.ok q d) (rest : List Char) :
    eolRun (f.enc q ++ rest) = 0 := by
  obtain ⟨c, cs, h, _, h1, h2⟩ := enc_head q d f hf
  simp [h, eolRun, h1, h2]

theorem drop_pre_append (pre a rest : List Char) (n : Nat) (h : n = pre.length + a.length) :
    (pre ++ (a ++ rest)).drop n = rest := by
  subst h
  rw [← List.append_assoc, ← List.length_append]
  exact List.drop_left _ _

/-- After the fields of a line the cursor stands behind the first byte that follows them
and behind the line-ending bytes that come next. -/
theorem walk_line (lenAt : Char → List Char → Nat) (q d : Char) (mem : List Char) :
    ∀ (fs : List Field) (f : Field) (tys : List Char) (ty : Char) (pre tail : List Char),
      Measured lenAt q d (f :: fs) (ty :: tys) →
      mem = pre ++ (renderFields q d (f :: fs) ++ tail) →
      (tail = [] ∨ ∃ x rest, tail = x :: rest ∧ (x = CR ∨ x = LF)) →
      walk lenAt mem (ty :: tys) pre.length
        = pre.length + (renderFields q d (f :: fs)).length + 1 + eolRun (tail.drop 1) := by
  intro fs
  induction fs with
  | nil =>
    intro f tys ty pre tail hm hmem ht
    cases tys with
    | cons t2 tys => exact absurd hm.2.2 (by simp [Measured])
    | nil =>
      have hend : FieldEnd d tail := by
        rcases ht with h | ⟨x, rest, h, hx⟩
        · exact Or.inl h
        · exact Or.inr ⟨x, rest, h, by tauto⟩
      simp only [renderFields, renderMore, List.append_nil] at hmem ⊢
      have hd : mem.drop pre.length = f.enc q ++ tail := by
        rw [hmem]; exact List.drop_left _ _
      have hd2 : mem.drop (pre.length + (f.enc q).length + 1) = tail.drop 1 := by
        rw [hmem, ← List.drop_drop, drop_pre_append pre (f.enc q) tail _ rfl]
      simp only [walk, advance, hd, hm.2.1 tail hend, hd2]
  | cons g gs ih =>
    intro f tys ty pre tail hm hmem ht
    cases tys with
    | nil => exact absurd hm.2.2 (by simp [Measured])
    | cons t2 tys =>
      have hrf : renderFields q d (f :: g :: gs)
          = f.enc q ++ (d :: renderFields q d (g :: gs)) := by
        simp [renderFields, renderMore]
      have hmem1 : mem = pre ++ (f.enc q ++ (d :: (renderFields q d (g :: gs) ++ tail))) := by
        rw [hmem, hrf]; simp
      have hend : FieldEnd d (d :: (renderFields q d (g :: gs) ++ tail)) :=
        Or.inr ⟨d, _, rfl, Or.inr (Or.inr rfl)⟩
      have hd : mem.drop pre.length
          = f.enc q ++ (d :: (renderFields q d (g :: gs) ++ tail)) := by
        rw [hmem1]; exact List.drop_left _ _
      have hd2 : mem.drop (pre.length + (f.enc q).length + 1)
          = renderFields q d (g :: gs) ++ tail := by
        rw [hmem1, ← List.drop_drop, drop_pre_append pre (f.enc q) _ _ rfl]
        rfl
      have he : eolRun (renderFields q d (g :: gs) ++ tail) = 0 := by
        simp only [renderFields, List.append_assoc]
        exact eolRun_enc q d g hm.2.2.1 _
      have hmem2 : mem = (pre ++ (f.enc q ++ [d])) ++ (renderFields q d (g :: gs) ++ tail) := by
        rw [hmem1]; simp
      have hstep := ih g tys t2 (pre ++ (f.enc q ++ [d])) tail hm.2.2 hmem2 ht
      rw [walk]
      simp only [advance, hd, hm.2.1 _ hend, hd2, he, Nat.add_zero]
      have hl : (pre ++ (f.enc q ++ [d])).length = pre.length + (f.enc q).length + 1 := by
        simp; omega
      rw [hl] at hstep
      rw [hstep, hrf]
      simp only [List.length_append, List.length_cons]
      omega

/-! ## Well-formed documents and the row counter -/

theorem DocOK.head {p : Config} {hdr : Bool} {l : Line} {ls : List Line}
    (h : DocOK p hdr (l :: ls)) : LineFits p hdr l.fields p.types ∧ IsEol l.ending := by
  cases ls with
  | nil => exact h
  | cons l2 ls => exact ⟨h.1, h.2.1⟩

theorem DocOK.tail {p : Config} {hdr : Bool} {l : Line} {ls : List Line}
    (h : DocOK p hdr (l :: ls)) : DocOK p false ls := by
  cases ls with
  | nil => trivial
  | cons l2 ls => exact h.2.2.2

theorem DocOK.ending_ne_nil {p : Config} {hdr : Bool} {l l2 : Line} {ls : List Line}
    (h : DocOK p hdr (l :: l2 :: ls)) : l.ending ≠ [] := h.2.2.1

theorem LineFits.length_eq {p : Config} {hdr : Bool} :
    ∀ {fs : List Field} {tys : List Char}, LineFits p hdr fs tys → fs.length = tys.length
  | [], [], _ => rfl
  | _ :: _, _ :: _, h => by simp [LineFits.length_eq h.2.2]
  | [], _ :: _, h => absurd h (by simp [LineFits])
  | _ :: _, [], h => absurd h (by simp [LineFits])

theorem LineFits.measured_count {p : Config} {hdr : Bool} (count : Nat)
    (hh : hdr = true → p.has_header = true ∧ count = 0) :
    ∀ {fs : List Field} {tys : List Char}, LineFits p hdr fs tys →
      Measured (fun ty sfx => CountRows.len p ty count sfx) p.quote_char p.delimiter fs tys
  | [], [], _ => trivial
  | f :: _, ty :: _, h =>
    ⟨h.1, fun after ha => CountRows_len_field p ty count f after h.1 ha
        (fun t ht => (h.2.1 t ht).imp id hh),
      LineFits.measured_count count hh h.2.2⟩
  | [], _ :: _, h => absurd h (by simp [LineFits])
  | _ :: _, [], h => absurd h (by simp [LineFits])

theorem LineFits.measured_string {p : Config} {hdr : Bool} :
    ∀ {fs : List Field} {tys : List Char}, LineFits p hdr fs tys →
      Measured (fun _ sfx => (ParseStringValue p.quote_char sfx (delim_chars p.delimiter)).2)
        p.quote_char p.delimiter fs tys
  | [], [], _ => trivial
  | f :: _, _ :: _, h =>
    ⟨h.1, fun after ha => by
        show (ParseStringValue p.quote_char (f.enc p.quote_char ++ after) _).2 = _
        rw [ParseStringValue_field _ _ f after h.1 ha],
      LineFits.measured_string h.2.2⟩
  | [], _ :: _, h => absurd h (by simp [LineFits])
  | _ :: _, [], h => absurd h (by simp [LineFits])

theorem LineFits.measured_fill {p : Config} :
    ∀ {fs : List Field} {tys : List Char}, LineFits p false fs tys →
      Measured (fun ty sfx => (fillVal p ty sfx).2) p.quote_char p.delimiter fs tys
  | [], [], _ => trivial
  | f :: _, ty :: _, h =>
    ⟨h.1, fun after ha => by
        show (fillVal p ty (f.enc p.quote_char ++ after)).2 = _
        rw [fillVal_field p ty f after h.1 ha
          (fun t ht => (h.2.1 t ht).resolve_right (by simp))],
      LineFits.measured_fill h.2.2⟩
  | [], _ :: _, h => absurd h (by simp [LineFits])
  | _ :: _, [], h => absurd h (by simp [LineFits])

theorem eolRun_run (run rest : List Char) (hr : IsEol run)
    (hrest : rest = [] ∨ ∃ c cs, rest = c :: cs ∧ c ≠ CR ∧ c ≠ LF) :
    eolRun (run ++ rest) = run.length := by
  induction run with
  | nil =>
    rcases hrest with rfl | ⟨c, cs, rfl, h1, h2⟩
    · rfl
    · simp [eolRun, h1, h2]
  | cons x xs ih =>
    have hx : x = LF ∨ x = CR := (hr x (by simp)).symm
    simp only [List.cons_append, eolRun, hx, if_true, List.length_cons]
    exact congrArg (· + 1) (ih (fun c hc => hr c (by simp [hc])))

/-- A well-formed document is empty or starts with a byte that is none of NUL, CR, LF. -/
theorem renderDoc_head (p : Config) (hdr : Bool) (ls : List Line) (hp : p.types ≠ [])
    (h : DocOK p hdr ls) :
    ls = [] ∨ ∃ c cs, renderDoc p.quote_char p.delimiter ls = c :: cs ∧
      c ≠ NUL ∧ c ≠ CR ∧ c ≠ LF := by
  cases ls with
  | nil => exact Or.inl rfl
  | cons l ls =>
    right
    have hl := h.head.1
    cases hf : l.fields with
    | nil =>
      rw [hf] at hl
      cases hty : p.types with
      | nil => exact absurd hty hp
      | cons ty tys => rw [hty] at hl; exact absurd hl (by simp [LineFits])
    | cons f fs =>
      rw [hf] at hl
      cases hty : p.types with
      | nil => exact absurd hty hp
      | cons ty tys =>
        rw [hty] at hl
        obtain ⟨c, cs, he, h0, h1, h2⟩ := enc_head _ _ f hl.1
        exact ⟨c, cs ++ (renderMore p.quote_char p.delimiter fs ++ l.ending ++
          renderDoc p.quote_char p.delimiter ls),
          by simp [renderDoc, Line.render, renderFields, hf, he], h0, h1, h2⟩

/-- One line of a well-formed document moves the cursor of a column loop by the span of
the line. -/
theorem walk_doc_line (lenAt : Char → List Char → Nat) (p : Config) (hdr : Bool)
    (mem pre : List Char) (l : Line) (ls : List Line) (hp : p.types ≠ [])
    (hdoc : DocOK p hdr (l :: ls))
    (hm : Measured lenAt p.quote_char p.delimiter l.fields p.types)
    (hmem : mem = pre ++ renderDoc p.quote_char p.delimiter (l :: ls)) :
    walk lenAt mem p.types pre.length
      = pre.length + span p.quote_char p.delimiter [l] := by
  have hl := hdoc.head
  cases hf : l.fields with
  | nil =>
    rw [hf] at hm
    cases hty : p.types with
    | nil => exact absurd hty hp
    | cons ty tys => rw [hty] at hm; exact absurd hm (by simp [Measured])
  | cons f fs =>
    cases hty : p.types with
    | nil => exact absurd hty hp
    | cons ty tys =>
      rw [hf, hty] at hm
      have hmem1 : mem = pre ++ (renderFields p.quote_char p.delimiter (f :: fs)
          ++ (l.ending ++ renderDoc p.quote_char p.delimiter ls)) := by
        rw [hmem]; simp [renderDoc, Line.render, hf]
      have hrest := renderDoc_head p false ls hp hdoc.tail
      have htail : (l.ending ++ renderDoc p.quote_char p.delimiter ls) = [] ∨
          ∃ x rest, (l.ending ++ renderDoc p.quote_char p.delimiter ls) = x :: rest ∧
            (x = CR ∨ x = LF) := by
        cases he : l.ending with
        | nil =>
          cases ls with
          | nil => left; simp [renderDoc]
          | cons l2 ls => exact absurd he hdoc.ending_ne_nil
        | cons x run =>
          right
          exact ⟨x, run ++ renderDoc p.quote_char p.delimiter ls, by simp,
            hl.2 x (by simp [he])⟩
      have hw := walk_line lenAt p.quote_char p.delimiter mem fs f tys ty pre _ hm hmem1 htail
      rw [hw]
      have hrun : eolRun ((l.ending ++ renderDoc p.quote_char p.delimiter ls).drop 1)
          = l.ending.length - 1 := by
        cases he : l.ending with
        | nil =>
          cases ls with
          | nil => simp [renderDoc, eolRun]
          | cons l2 ls => exact absurd he hdoc.ending_ne_nil
        | cons x run =>
          simp only [List.cons_append, List.drop_succ_cons, List.drop_zero, List.length_cons,
            Nat.add_sub_cancel]
          apply eolRun_run
          · intro c hc; exact hl.2 c (by simp [he, hc])
          · rcases hrest with h | ⟨c, cs, h, _, h1, h2⟩
            · left; simp [h, renderDoc]
            · right; exact ⟨c, cs, h, h1, h2⟩
      rw [hrun]
      simp only [span, hf, Nat.add_zero]
      omega

theorem peek_mem_of_lt (l : List Char) (i : Nat) (h : i < l.length) : peek l i ∈ l := by
  simp only [peek, List.getD_eq_getElem?_getD, List.getElem?_eq_getElem h, Option.getD_some]
  exact List.getElem_mem h

theorem CR_ne_NUL : CR ≠ NUL := by decide

theorem LF_ne_NUL : LF ≠ NUL := by decide

theorem span_cons (q d : Char) (l : Line) (ls : List Line) :
    span q d (l :: ls) = span q d [l] + span q d ls := by
  simp [span]

theorem span_single_of_ending (q d : Char) (l : Line) (h : l.ending ≠ []) :
    span q d [l] = (l.render q d).length := by
  have : 0 < l.ending.length := List.length_pos.mpr h
  simp only [span, Line.render, List.length_append, Nat.add_zero]
  omega

theorem span_single_no_ending (q d : Char) (l : Line) (h : l.ending = []) :
    span q d [l] = (l.render q d).length + 1 := by
  simp [span, Line.render, h]

/-- The byte just before the cursor after a line with an ending is not the terminator. -/
theorem peek_before_line_end (q d : Char) (pre rest : List Char) (l : Line)
    (he : l.ending ≠ []) (hl : IsEol l.ending) :
    peek (pre ++ (l.render q d ++ rest)) (pre.length + (l.render q d).length - 1) ≠ NUL := by
  have hpos : 0 < l.ending.length := List.length_pos.mpr he
  have hidx : pre.length + (l.render q d).length - 1
      = pre.length + ((renderFields q d l.fields).length + (l.ending.length - 1)) := by
    simp only [Line.render, List.length_append]; omega
  rw [hidx, peek_append_right]
  simp only [Line.render, List.append_assoc]
  rw [peek_append_right, peek_append_left _ _ _ (by omega)]
  have hm := peek_mem_of_lt l.ending (l.ending.length - 1) (by omega)
  rcases hl _ hm with h | h
  · rw [h]; exact CR_ne_NUL
  · rw [h]; exact LF_ne_NUL

/-- The outer loop of `CountRows` on a well-formed document counts one row per line and
stops behind the document. -/
theorem CountRows_loop_doc (p : Config) (hp : p.types ≠ []) :
    ∀ (ls : List Line) (hdr : Bool) (pre : List Char) (count fuel : Nat) (mem : List Char),
      DocOK p hdr ls → (hdr = true → p.has_header = true ∧ count = 0) → ls.length < fuel →
      mem = pre ++ renderDoc p.quote_char p.delimiter ls →
      CountRows.loop p mem fuel pre.length count
        = some (count + ls.length, pre.length + span p.quote_char p.delimiter ls) := by
  intro ls
  induction ls with
  | nil =>
    intro hdr pre count fuel mem _ _ hfuel hmem
    obtain ⟨f, rfl⟩ : ∃ f, fuel = f + 1 := ⟨fuel - 1, by simp at hfuel; omega⟩
    have h0 : peek mem pre.length = NUL := by
      apply peek_of_length_le; simp [hmem, renderDoc]
    simp [CountRows.loop, h0, span]
  | cons l ls ih =>
    intro hdr pre count fuel mem hdoc hh hfuel hmem
    obtain ⟨f, rfl⟩ : ∃ f, fuel = f + 1 := ⟨fuel - 1, by simp at hfuel; omega⟩
    have hstart : peek mem pre.length ≠ NUL := by
      rcases renderDoc_head p hdr (l :: ls) hp hdoc with h | ⟨c, cs, h, h0, _, _⟩
      · exact absurd h (by simp)
      · rw [hmem, h]
        have := peek_append_right pre (c :: cs) 0
        simp only [Nat.add_zero, peek_cons_zero] at this
        rw [this]; exact h0
    have hwalk := walk_doc_line (fun ty sfx => CountRows.len p ty count sfx) p hdr mem pre l ls
      hp hdoc (hdoc.head.1.measured_count count hh) hmem
    rw [CountRows.loop]
    simp only [hstart, if_false, CountRows_cols_eq_walk, hwalk]
    by_cases he : l.ending = []
    · have hls : ls = [] := by
        cases ls with
        | nil => rfl
        | cons l2 ls => exact absurd he hdoc.ending_ne_nil
      subst hls
      have hsp := span_single_no_ending p.quote_char p.delimiter l he
      have hlen : mem.length = pre.length + (l.render p.quote_char p.delimiter).length := by
        simp [hmem, renderDoc]
      have hz : peek mem (pre.length + span p.quote_char p.delimiter [l] - 1) = NUL := by
        apply peek_of_length_le; rw [hsp, hlen]; omega
      have hne : pre.length + span p.quote_char p.delimiter [l] ≠ 0 := by rw [hsp]; omega
      simp [hne, hz]
    · have hsp := span_single_of_ending p.quote_char p.delimiter l he
      have hnz : peek mem (pre.length + span p.quote_char p.delimiter [l] - 1) ≠ NUL := by
        rw [hsp, hmem]
        exact peek_before_line_end _ _ pre _ l he hdoc.head.2
      have hne : pre.length + span p.quote_char p.delimiter [l] ≠ 0 := by
        have : 0 < l.ending.length := List.length_pos.mpr he
        rw [hsp]; simp only [Line.render, List.length_append]; omega
      have hmem2 : mem = (pre ++ l.render p.quote_char p.delimiter)
          ++ renderDoc p.quote_char p.delimiter ls := by
        rw [hmem]; simp [renderDoc]
      have hrec := ih false (pre ++ l.render p.quote_char p.delimiter) (count + 1) f mem
        hdoc.tail (by simp) (by simp at hfuel; omega) hmem2
      have hl2 : (pre ++ l.render p.quote_char p.delimiter).length
          = pre.length + span p.quote_char p.delimiter [l] := by
        rw [hsp]; simp
      rw [hl2] at hrec
      simp only [hne, if_false, hnz, hrec, Option.some.injEq, Prod.mk.injEq]
      rw [span_cons p.quote_char p.delimiter l ls]
      simp only [List.length_cons]
      omega

theorem DocOK.single {p : Config} {hdr : Bool} {l : Line} {ls : List Line}
    (h : DocOK p hdr (l :: ls)) : DocOK p hdr [l] := h.head

theorem render_line_pos (p : Config) (hdr : Bool) (l : Line) (ls : List Line)
    (hp : p.types ≠ []) (h : DocOK p hdr (l :: ls)) :
    0 < (l.render p.quote_char p.delimiter).length := by
  rcases renderDoc_head p hdr [l] hp h.single with h0 | ⟨c, cs, h0, _⟩
  · exact absurd h0 (by simp)
  · have : l.render p.quote_char p.delimiter = c :: cs := by
      simpa [renderDoc] using h0
    simp [this]

theorem length_le_renderDoc (p : Config) (hp : p.types ≠ []) :
    ∀ (ls : List Line) (hdr : Bool), DocOK p hdr ls →
      ls.length ≤ (renderDoc p.quote_char p.delimiter ls).length := by
  intro ls
  induction ls with
  | nil => intro _ _; simp
  | cons l ls ih =>
    intro hdr h
    have h1 := render_line_pos p hdr l ls hp h
    have h2 := ih false h.tail
    simp only [renderDoc, List.length_cons, List.length_append]
    omega

/-- The row counter `CountRows` on a well-formed document of `R` lines returns `R - has_header`. -/
theorem CountRows_doc (p : Config) (hp : p.types ≠ []) (ls : List Line)
    (hdoc : DocOK p p.has_header ls) :
    CountRows p (renderDoc p.quote_char p.delimiter ls)
      = some ((ls.length : Int) - (if p.has_header then 1 else 0)) := by
  have hlen := length_le_renderDoc p hp ls _ hdoc
  have h := CountRows_loop_doc p hp ls p.has_header [] 0
    ((renderDoc p.quote_char p.delimiter ls).length + 1)
    (renderDoc p.quote_char p.delimiter ls) hdoc (fun e => ⟨e, rfl⟩) (by omega) (by simp)
  simp only [List.length_nil, Nat.zero_add] at h
  simp [CountRows, h]

/-! ## The row count of plain documents -/

theorem plain_fits (p : Config) (hdr : Bool) :
    ∀ (ts : List (List Char)) (tys : List Char), ts.length = tys.length →
      (∀ t ∈ ts, t ≠ [] ∧
        ∀ c ∈ t, c ≠ NUL ∧ c ≠ p.quote_char ∧ c ≠ p.delimiter ∧ c ≠ CR ∧ c ≠ LF) →
      LineFits p hdr (ts.map Field.plain) tys
  | [], [], _, _ => trivial
  | t :: ts, ty :: tys, hl, h => by
    have ht := h t (by simp)
    refine ⟨⟨ht.1, fun c hc => ?_, ?_⟩, (fun t0 e => by cases e),
      plain_fits p hdr ts tys (by simpa using hl) (fun x hx => h x (by simp [hx]))⟩
    · have := ht.2 c hc
      exact ⟨this.1, this.2.2.2.1, this.2.2.2.2, this.2.2.1⟩
    · cases t with
      | nil => exact absurd rfl ht.1
      | cons c cs => simpa using (ht.2 c (by simp)).2.1
  | [], _ :: _, hl, _ => by simp at hl
  | _ :: _, [], hl, _ => by simp at hl

theorem isEol_of_ending {e : List Char} (h : e = [LF] ∨ e = [CR, LF] ∨ e = []) : IsEol e := by
  intro c hc
  rcases h with rfl | rfl | rfl
  · simp at hc; exact Or.inr hc
  · simp at hc; rcases hc with rfl | rfl
    · exact Or.inl rfl
    · exact Or.inr rfl
  · simp at hc

theorem PlainDoc.docOK (p : Config) :
    ∀ (lines : List (List (List Char) × List Char)) (hdr : Bool), PlainDoc p lines →
      DocOK p hdr (plainLines lines)
  | [], _, _ => trivial
  | [l], hdr, h =>
    ⟨plain_fits p hdr l.1 p.types h.1.1 h.1.2, isEol_of_ending h.2⟩
  | l :: l2 :: ls, hdr, h => by
    have hrec := PlainDoc.docOK p (l2 :: ls) false h.2.2
    refine ⟨plain_fits p hdr l.1 p.types h.1.1 h.1.2,
      isEol_of_ending (h.2.1.elim Or.inl (fun e => Or.inr (Or.inl e))), ?_, hrec⟩
    rcases h.2.1 with e | e <;> simp [e]

/-- On an input of `R ≥ 1` lines, each of exactly `C ≥ 1` non-empty fields without
quote character, delimiter, CR, LF (and NUL), joined by the delimiter, every line ended by
LF or CR LF and the last ending optional, `CountRows` returns `R - 1` with a header and
`R` without, provided the bytes behind the input are zero: when the last ending is missing
the cursor steps over the terminator and the byte behind it is read. -/
theorem CountRows_plain_zero_behind (p : Config) (lines : List (List (List Char) × List Char))
    (hC : 1 ≤ p.types.length) (_hR : 1 ≤ lines.length) (hdoc : PlainDoc p lines) :
    CountRows p (plainText p lines)
      = some (if p.has_header = true then (lines.length : Int) - 1 else (lines.length : Int)) := by
  have hp : p.types ≠ [] := by
    intro h; rw [h] at hC; simp at hC
  have h := CountRows_doc p hp (plainLines lines) (hdoc.docOK p lines p.has_header)
  rw [plainText, h]
  cases p.has_header <;> simp [plainLines]

/-! ## The fill pass and the header loop on well-formed lines -/

theorem headerLoop_values (p : Config) (mem : List Char) (rows : Int) (tys : List Char) :
    ∀ col s, (headerLoop p mem rows tys col s).2.1 = blocks p rows tys col := by
  induction tys with
  | nil => intro col s; rfl
  | cons ty tys ih => intro col s; simp only [headerLoop, blocks, ih]

/-- Between two fields of a line: what the scanner sees at the first one, and where the
cursor stands after it. -/
theorem step_mid (q d : Char) (mem pre tail : List Char) (f g : Field) (gs : List Field)
    (hg : g.ok q d) (hmem : mem = pre ++ (renderFields q d (f :: g :: gs) ++ tail)) :
    mem.drop pre.length = f.enc q ++ (d :: (renderFields q d (g :: gs) ++ tail)) ∧
    FieldEnd d (d :: (renderFields q d (g :: gs) ++ tail)) ∧
    advance mem pre.length (f.enc q).length = (pre ++ (f.enc q ++ [d])).length ∧
    mem = (pre ++ (f.enc q ++ [d])) ++ (renderFields q d (g :: gs) ++ tail) := by
  have hrf : renderFields q d (f :: g :: gs) = f.enc q ++ (d :: renderFields q d (g :: gs)) := by
    simp [renderFields, renderMore]
  have hmem1 : mem = pre ++ (f.enc q ++ (d :: (renderFields q d (g :: gs) ++ tail))) := by
    rw [hmem, hrf]; simp
  have hd2 : mem.drop (pre.length + (f.enc q).length + 1)
      = renderFields q d (g :: gs) ++ tail := by
    rw [hmem1, ← List.drop_drop, drop_pre_append pre (f.enc q) _ _ rfl]
    rfl
  have he : eolRun (renderFields q d (g :: gs) ++ tail) = 0 := by
    simp only [renderFields, List.append_assoc]
    exact eolRun_enc q d g hg _
  refine ⟨?_, Or.inr ⟨d, _, rfl, Or.inr (Or.inr rfl)⟩, ?_, ?_⟩
  · rw [hmem1]; exact List.drop_left _ _
  · simp only [advance, hd2, he, Nat.add_zero, List.length_append, List.length_cons,
      List.length_nil]
    omega
  · rw [hmem1]; simp

/-- At the last field of a line: what the scanner sees. -/
theorem step_last (q d : Char) (mem pre tail : List Char) (f : Field)
    (hmem : mem = pre ++ (renderFields q d [f] ++ tail)) :
    mem.drop pre.length = f.enc q ++ tail := by
  rw [hmem]
  simp only [renderFields, renderMore, List.append_nil]
  exact List.drop_left _ _

theorem tail_fieldEnd (d : Char) (tail : List Char)
    (ht : tail = [] ∨ ∃ x rest, tail = x :: rest ∧ (x = CR ∨ x = LF)) : FieldEnd d tail := by
  rcases ht with h | ⟨x, rest, h, hx⟩
  · exact Or.inl h
  · exact Or.inr ⟨x, rest, h, by tauto⟩

/-- The fill pass over the fields of a line saves the text of every field in its column. -/
theorem fillCols_line (p : Config) (mem : List Char) (row : Nat) :
    ∀ (fs : List Field) (f : Field) (tys : List Char) (ty : Char) (pre tail : List Char)
      (col : Nat) (cells : Cells),
      LineFits p false (f :: fs) (ty :: tys) →
      mem = pre ++ (renderFields p.quote_char p.delimiter (f :: fs) ++ tail) →
      (tail = [] ∨ ∃ x rest, tail = x :: rest ∧ (x = CR ∨ x = LF)) →
      (fillCols p mem row (ty :: tys) col pre.length cells).1
        = writeRow row (ty :: tys) ((f :: fs).map Field.text) col cells := by
  intro fs
  induction fs with
  | nil =>
    intro f tys ty pre tail col cells hfit hmem ht
    cases tys with
    | cons t2 tys => exact absurd hfit.2.2 (by simp [LineFits])
    | nil =>
      have hd := step_last _ _ mem pre tail f hmem
      have hv := fillVal_field p ty f tail hfit.1 (tail_fieldEnd _ tail ht)
        (fun t e => (hfit.2.1 t e).resolve_right (by simp))
      simp [fillCols, writeRow, hd, hv]
  | cons g gs ih =>
    intro f tys ty pre tail col cells hfit hmem ht
    cases tys with
    | nil => exact absurd hfit.2.2 (by simp [LineFits])
    | cons t2 tys =>
      obtain ⟨hd, hend, hadv, hmem2⟩ := step_mid _ _ mem pre tail f g gs hfit.2.2.1 hmem
      have hv := fillVal_field p ty f _ hfit.1 hend
        (fun t e => (hfit.2.1 t e).resolve_right (by simp))
      rw [fillCols]
      simp only [hd, hv, hadv]
      rw [ih g tys t2 (pre ++ (f.enc p.quote_char ++ [p.delimiter])) tail (col + 1) _
        hfit.2.2 hmem2 ht]
      simp [writeRow]

/-- The header loop over the fields of a line stores the text of every field as a label. -/
theorem headerLoop_line (p : Config) (mem : List Char) (rows : Int) (hdr : Bool) :
    ∀ (fs : List Field) (f : Field) (tys : List Char) (ty : Char) (pre tail : List Char)
      (col : Nat),
      LineFits p hdr (f :: fs) (ty :: tys) →
      mem = pre ++ (renderFields p.quote_char p.delimiter (f :: fs) ++ tail) →
      (tail = [] ∨ ∃ x rest, tail = x :: rest ∧ (x = CR ∨ x = LF)) →
      (headerLoop p mem rows (ty :: tys) col pre.length).1 = labels p (ty :: tys) (f :: fs) := by
  intro fs
  induction fs with
  | nil =>
    intro f tys ty pre tail col hfit hmem ht
    cases tys with
    | cons t2 tys => exact absurd hfit.2.2 (by simp [LineFits])
    | nil =>
      have hd := step_last _ _ mem pre tail f hmem
      have hv := ParseStringValue_field _ _ f tail hfit.1 (tail_fieldEnd _ tail ht)
      simp [headerLoop, labels, hd, hv]
  | cons g gs ih =>
    intro f tys ty pre tail col hfit hmem ht
    cases tys with
    | nil => exact absurd hfit.2.2 (by simp [LineFits])
    | cons t2 tys =>
      obtain ⟨hd, hend, hadv, hmem2⟩ := step_mid _ _ mem pre tail f g gs hfit.2.2.1 hmem
      have hv := ParseStringValue_field _ _ f _ hfit.1 hend
      rw [headerLoop]
      simp only [hd, hv, hadv]
      rw [ih g tys t2 (pre ++ (f.enc p.quote_char ++ [p.delimiter])) tail (col + 1)
        hfit.2.2 hmem2 ht]
      simp [labels]

theorem doc_line_tail (p : Config) (hdr : Bool) (l : Line) (ls : List Line)
    (hdoc : DocOK p hdr (l :: ls)) :
    (l.ending ++ renderDoc p.quote_char p.delimiter ls) = [] ∨
      ∃ x rest, (l.ending ++ renderDoc p.quote_char p.delimiter ls) = x :: rest ∧
        (x = CR ∨ x = LF) := by
  cases he : l.ending with
  | nil =>
    cases ls with
    | nil => left; simp [renderDoc]
    | cons l2 ls => exact absurd he hdoc.ending_ne_nil
  | cons x run =>
    right
    exact ⟨x, run ++ renderDoc p.quote_char p.delimiter ls, by simp,
      hdoc.head.2 x (by simp [he])⟩

theorem LineFits.cons_of_types {p : Config} {hdr : Bool} {fs : List Field} {ty : Char}
    {tys : List Char} (h : LineFits p hdr fs (ty :: tys)) : ∃ f fs1, fs = f :: fs1 := by
  cases fs with
  | nil => exact absurd h (by simp [LineFits])
  | cons f fs1 => exact ⟨f, fs1, rfl⟩

theorem renderDoc_cons_fields (q d : Char) (pre : List Char) (l : Line) (ls : List Line) :
    pre ++ renderDoc q d (l :: ls)
      = pre ++ (renderFields q d l.fields ++ (l.ending ++ renderDoc q d ls)) := by
  simp [renderDoc, Line.render]

/-- The column loop of the fill pass on one line of a well-formed document. -/
theorem fillCols_doc_line (p : Config) (hp : p.types ≠ []) (mem pre : List Char) (l : Line)
    (ls : List Line) (row : Nat) (cells : Cells) (hdoc : DocOK p false (l :: ls))
    (hmem : mem = pre ++ renderDoc p.quote_char p.delimiter (l :: ls)) :
    fillCols p mem row p.types 0 pre.length cells
      = (writeRow row p.types l.texts 0 cells, pre.length + span p.quote_char p.delimiter [l]) := by
  have hcur := fillCols_cursor p mem row p.types 0 pre.length cells
  rw [walk_doc_line _ p false mem pre l ls hp hdoc hdoc.head.1.measured_fill hmem] at hcur
  have hfit := hdoc.head.1
  cases hty : p.types with
  | nil => exact absurd hty hp
  | cons ty tys =>
    rw [hty] at hfit hcur
    obtain ⟨f, fs, hf⟩ := hfit.cons_of_types
    rw [hf] at hfit
    have hmem1 := hmem
    rw [renderDoc_cons_fields, hf] at hmem1
    have h1 := fillCols_line p mem row fs f tys ty pre _ 0 cells hfit hmem1
      (doc_line_tail p false l ls hdoc)
    apply Prod.ext
    · simp only [h1, Line.texts, hf]
    · exact hcur

/-- The row loop of the fill pass on a well-formed document without header line. -/
theorem fillRows_doc (p : Config) (hp : p.types ≠ []) (mem : List Char) :
    ∀ (ls : List Line) (pre : List Char) (row : Nat) (cells : Cells),
      DocOK p false ls → mem = pre ++ renderDoc p.quote_char p.delimiter ls →
      fillRows p mem ls.length row pre.length cells
        = (writeRows p.types (ls.map Line.texts) row cells,
           pre.length + span p.quote_char p.delimiter ls) := by
  intro ls
  induction ls with
  | nil => intro pre row cells _ _; simp [fillRows, writeRows, span]
  | cons l ls ih =>
    intro pre row cells hdoc hmem
    have hline := fillCols_doc_line p hp mem pre l ls row cells hdoc hmem
    simp only [List.length_cons, fillRows, hline, List.map_cons, writeRows]
    cases ls with
    | nil => simp [fillRows, writeRows]
    | cons l2 ls =>
      have he := hdoc.ending_ne_nil
      have hsp := span_single_of_ending p.quote_char p.delimiter l he
      have hmem2 : mem = (pre ++ l.render p.quote_char p.delimiter)
          ++ renderDoc p.quote_char p.delimiter (l2 :: ls) := by
        rw [hmem]; simp [renderDoc]
      have hrec := ih (pre ++ l.render p.quote_char p.delimiter) (row + 1)
        (writeRow row p.types l.texts 0 cells) hdoc.tail hmem2
      have hl2 : (pre ++ l.render p.quote_char p.delimiter).length
          = pre.length + span p.quote_char p.delimiter [l] := by
        rw [hsp]; simp
      rw [hl2] at hrec
      rw [hrec, span_cons p.quote_char p.delimiter l (l2 :: ls)]
      simp only [List.map_cons, Prod.mk.injEq, true_and]
      omega

/-- The header loop on the first line of a well-formed document. -/
theorem headerLoop_doc (p : Config) (hp : p.types ≠ []) (mem pre : List Char) (rows : Int)
    (hdr : Bool) (l : Line) (ls : List Line) (hdoc : DocOK p hdr (l :: ls))
    (hmem : mem = pre ++ renderDoc p.quote_char p.delimiter (l :: ls)) :
    headerLoop p mem rows p.types 0 pre.length
      = (labels p p.types l.fields, blocks p rows p.types 0,
         pre.length + span p.quote_char p.delimiter [l]) := by
  have hcur := headerLoop_cursor p mem rows p.types 0 pre.length
  rw [walk_doc_line _ p hdr mem pre l ls hp hdoc hdoc.head.1.measured_string hmem] at hcur
  have hval := headerLoop_values p mem rows p.types 0 pre.length
  have hfit := hdoc.head.1
  cases hty : p.types with
  | nil => exact absurd hty hp
  | cons ty tys =>
    rw [hty] at hfit hcur hval
    obtain ⟨f, fs, hf⟩ := hfit.cons_of_types
    rw [hf] at hfit
    have hmem1 := hmem
    rw [renderDoc_cons_fields, hf] at hmem1
    have h1 := headerLoop_line p mem rows hdr fs f tys ty pre _ 0 hfit hmem1
      (doc_line_tail p hdr l ls hdoc)
    apply Prod.ext
    · simp only [h1, hf]
    · apply Prod.ext
      · exact hval
      · exact hcur

/-- The table the constructor builds from a well-formed document: `R - has_header` rows,
the labels of the first line, one block per used column, and the texts of the data lines
converted cell by cell. -/
theorem CSV_Parser_doc (sz : Nat) (fmt : List Char) (hh : Bool) (d q : Char) (l : Line)
    (ls : List Line) (hp : fmt ≠ []) (hdoc : DocOK ⟨fmt, hh, d, q, sz⟩ hh (l :: ls)) :
    ∃ t, CSV_Parser sz (renderDoc q d (l :: ls)) fmt hh d q = some t ∧
      t.cfg = ⟨fmt, hh, d, q, sz⟩ ∧
      t.rows_count = ((l :: ls).length : Int) - (if hh then 1 else 0) ∧
      t.keys = labels ⟨fmt, hh, d, q, sz⟩ fmt l.fields ∧
      t.values = blocks ⟨fmt, hh, d, q, sz⟩ t.rows_count fmt 0 ∧
      t.cells = writeRows fmt ((if hh then ls else l :: ls).map Line.texts) 0
        (fun _ _ => none) := by
  have hcount := CountRows_doc ⟨fmt, hh, d, q, sz⟩ hp (l :: ls) hdoc
  have hhead := fun rows => headerLoop_doc ⟨fmt, hh, d, q, sz⟩ hp (renderDoc q d (l :: ls)) []
    rows hh l ls hdoc (by simp)
  simp only [List.length_nil, Nat.zero_add] at hhead
  cases hh with
  | false =>
    have hdoc2 : DocOK ⟨fmt, false, d, q, sz⟩ false (l :: ls) := hdoc
    have hfill := fillRows_doc ⟨fmt, false, d, q, sz⟩ hp (renderDoc q d (l :: ls)) (l :: ls) []
      0 (fun _ _ => none) hdoc2 (by simp)
    simp only [List.length_nil, Nat.zero_add] at hfill
    refine ⟨⟨⟨fmt, false, d, q, sz⟩, ((l :: ls).length : Int),
      labels ⟨fmt, false, d, q, sz⟩ fmt l.fields,
      blocks ⟨fmt, false, d, q, sz⟩ ((l :: ls).length : Int) fmt 0,
      writeRows fmt ((l :: ls).map Line.texts) 0 (fun _ _ => none)⟩, ?_, rfl, ?_, rfl, rfl, ?_⟩
    · simp only [CSV_Parser, hcount, hhead]
      simp only [Bool.false_eq_true, if_false, Int.sub_zero, Int.toNat_ofNat, hfill]
    · simp
    · simp
  | true =>
    have hdoc2 : DocOK ⟨fmt, true, d, q, sz⟩ false ls := hdoc.tail
    refine ⟨⟨⟨fmt, true, d, q, sz⟩, (ls.length : Int),
      labels ⟨fmt, true, d, q, sz⟩ fmt l.fields,
      blocks ⟨fmt, true, d, q, sz⟩ (ls.length : Int) fmt 0,
      writeRows fmt (ls.map Line.texts) 0 (fun _ _ => none)⟩, ?_, rfl, ?_, rfl, rfl, ?_⟩
    · by_cases he : l.ending = []
      · have hls : ls = [] := by
          cases ls with
          | nil => rfl
          | cons l2 ls => exact absurd he hdoc.ending_ne_nil
        subst hls
        simp only [CSV_Parser, hcount, hhead]
        simp [fillRows, writeRows]
      · have hsp := span_single_of_ending q d l he
        have hfill := fillRows_doc ⟨fmt, true, d, q, sz⟩ hp (renderDoc q d (l :: ls)) ls
          (l.render q d) 0 (fun _ _ => none) hdoc2 (by simp [renderDoc])
        simp only [CSV_Parser, hcount, hhead]
        simp only [if_true, hsp, List.length_cons, Nat.cast_add, Nat.cast_one,
          Int.add_sub_cancel, Int.toNat_ofNat, hfill]
    · simp
    · simp

/-! ## The contents of the cells after the fill pass -/

theorem SaveNewValue_apply (cells : Cells) (val : List Char) (ty : Char) (row col j r : Nat) :
    SaveNewValue cells val ty row col j r
      = if j = col ∧ r = row then (convert ty val).orElse (fun _ => cells j r)
        else cells j r := by
  unfold SaveNewValue
  cases h : convert ty val with
  | none => simp
  | some v => simp

theorem writeRow_apply (row : Nat) :
    ∀ (tys : List Char) (vs : List (List Char)) (col : Nat) (cells : Cells) (j r : Nat),
      writeRow row tys vs col cells j r
        = if r = row ∧ col ≤ j then
            (((tys[j - col]?).bind fun ty => (vs[j - col]?).bind fun v => convert ty v).orElse
              (fun _ => cells j r))
          else cells j r := by
  intro tys
  induction tys with
  | nil => intro vs col cells j r; simp [writeRow]
  | cons ty tys ih =>
    intro vs col cells j r
    cases vs with
    | nil => simp [writeRow]
    | cons v vs =>
      rw [writeRow, ih vs (col + 1) _ j r, SaveNewValue_apply]
      by_cases hr : r = row
      · by_cases h1 : col + 1 ≤ j
        · have h2 : col ≤ j := by omega
          have h3 : j ≠ col := by omega
          have h4 : j - col = (j - (col + 1)) + 1 := by omega
          simp [hr, h1, h2, h3, h4]
        · by_cases h2 : j = col
          · subst h2
            simp [hr]
          · have h3 : ¬ col ≤ j := by omega
            simp [hr, h1, h2, h3]
      · simp [hr]

theorem writeRows_apply (tys : List Char) :
    ∀ (rows : List (List (List Char))) (row0 : Nat) (cells : Cells) (j r : Nat),
      writeRows tys rows row0 cells j r
        = if row0 ≤ r then (cellOf tys rows j (r - row0)).orElse (fun _ => cells j r)
          else cells j r := by
  intro rows
  induction rows with
  | nil => intro row0 cells j r; simp [writeRows, cellOf]
  | cons vs rows ih =>
    intro row0 cells j r
    rw [writeRows, ih (row0 + 1) _ j r, writeRow_apply]
    by_cases h1 : row0 + 1 ≤ r
    · have h2 : row0 ≤ r := by omega
      have h3 : r ≠ row0 := by omega
      have h4 : r - row0 = (r - (row0 + 1)) + 1 := by omega
      simp [h1, h2, h3, h4, cellOf]
    · by_cases h2 : r = row0
      · subst h2
        simp [cellOf]
      · have h3 : ¬ row0 ≤ r := by omega
        simp [h1, h2, h3]

theorem writeRows_none (tys : List Char) (rows : List (List (List Char))) (j r : Nat) :
    writeRows tys rows 0 (fun _ _ => none) j r = cellOf tys rows j r := by
  rw [writeRows_apply]
  simp

/-! ## Tables built from plain documents -/

theorem plainLines_texts (lines : List (List (List Char) × List Char)) :
    (plainLines lines).map Line.texts = lines.map Prod.fst := by
  induction lines with
  | nil => rfl
  | cons l ls ih =>
    have h : (l.1.map Field.plain).map Field.text = l.1 := by
      induction l.1 with
      | nil => rfl
      | cons t ts iht => simp [Field.text, iht]
    simp only [plainLines, List.map_cons, Line.texts] at ih ⊢
    rw [h, ih]

/-- The table built from a plain document: the row count, and every cell as the
conversion of its field. -/
theorem plain_table (sz : Nat) (fmt : List Char) (hh : Bool) (d q : Char)
    (lines : List (List (List Char) × List Char)) (hC : 1 ≤ fmt.length)
    (hR : 1 ≤ lines.length) (hdoc : PlainDoc ⟨fmt, hh, d, q, sz⟩ lines) :
    ∃ t, CSV_Parser sz (plainText ⟨fmt, hh, d, q, sz⟩ lines) fmt hh d q = some t ∧
      t.cfg = ⟨fmt, hh, d, q, sz⟩ ∧
      t.rows_count = (lines.length : Int) - (if hh then 1 else 0) ∧
      t.values = blocks ⟨fmt, hh, d, q, sz⟩ t.rows_count fmt 0 ∧
      ∀ j r, t.cells j r
        = cellOf fmt ((lines.drop (if hh then 1 else 0)).map Prod.fst) j r := by
  have hp : fmt ≠ [] := by
    intro h; rw [h] at hC; simp at hC
  cases lines with
  | nil => simp at hR
  | cons l0 rest =>
    have hd := hdoc.docOK ⟨fmt, hh, d, q, sz⟩ (l0 :: rest) hh
    obtain ⟨t, ht, hcfg, hrows, _, hvals, hcells⟩ :=
      CSV_Parser_doc sz fmt hh d q _ _ hp hd
    refine ⟨t, ht, hcfg, ?_, hvals, ?_⟩
    · rw [hrows]; simp [plainLines]
    · intro j r
      rw [hcells, writeRows_none]
      have h1 := plainLines_texts (l0 :: rest)
      have h2 := plainLines_texts rest
      simp only [plainLines, List.map_cons] at h1 h2
      cases hh with
      | false => simp only [Bool.false_eq_true, if_false, List.drop_zero, h1, List.map_cons]
      | true => simp only [if_true, List.drop_succ_cons, List.drop_zero, h2]

theorem convert_typed (ty : Char) (text : List Char)
    (hty : ty = 's' ∨ ty = 'f' ∨ ty = 'L' ∨ ty = 'd' ∨ ty = 'c' ∨ ty = 'x') :
    ∃ v, convert ty text = some v := by
  rcases hty with rfl | rfl | rfl | rfl | rfl | rfl <;> simp [convert]

theorem cellOf_eq (tys : List Char) (rows : List (List (List Char))) (j r : Nat) (ty : Char)
    (vs : List (List Char)) (v : List Char) (h1 : rows[r]? = some vs) (h2 : tys[j]? = some ty)
    (h3 : vs[j]? = some v) : cellOf tys rows j r = convert ty v := by
  simp [cellOf, h1, h2, h3]

/-- C3: on a well-formed input (`R ≥ 1` lines of exactly `C ≥ 1` non-empty plain fields)
the constructor succeeds and the element at data row `r` of every typed column `j` is the
conversion, for the column's type, of field `j` of physical line `r + h`, where `h` is 1
with a header and 0 without. -/
theorem C3_cell_placement_well_formed (sz : Nat) (fmt : List Char) (hh : Bool) (d q : Char)
    (lines : List (List (List Char) × List Char)) (hC : 1 ≤ fmt.length)
    (hR : 1 ≤ lines.length) (hdoc : PlainDoc ⟨fmt, hh, d, q, sz⟩ lines) :
    ∃ t, CSV_Parser sz (plainText ⟨fmt, hh, d, q, sz⟩ lines) fmt hh d q = some t ∧
      ∀ (j r : Nat) (ty : Char) (l : List (List Char) × List Char) (text : List Char),
        fmt[j]? = some ty →
        (ty = 's' ∨ ty = 'f' ∨ ty = 'L' ∨ ty = 'd' ∨ ty = 'c' ∨ ty = 'x') →
        lines[r + (if hh then 1 else 0)]? = some l → l.1[j]? = some text →
        ∃ v, convert ty text = some v ∧ t.cells j r = some v := by
  obtain ⟨t, ht, _, _, _, hcells⟩ := plain_table sz fmt hh d q lines hC hR hdoc
  refine ⟨t, ht, ?_⟩
  intro j r ty l text hj hty hl htext
  obtain ⟨v, hv⟩ := convert_typed ty text hty
  refine ⟨v, hv, ?_⟩
  rw [hcells, cellOf_eq fmt _ j r ty l.1 text ?_ hj htext, hv]
  rw [List.getElem?_map, List.getElem?_drop, Nat.add_comm, hl]
  rfl

/-- Witness of C3: `a,b / 1,2 / 3,4` with format `LL` and a header stores column 0 = [1, 3]
and column 1 = [2, 4]. -/
theorem C3_cell_placement_well_formed_witness :
    ∃ t, CSV_Parser 4 "a,b\n1,2\n3,4\n".toList "LL".toList true ',' '"' = some t ∧
      t.cells 0 0 = some (Value.i32 1) ∧ t.cells 0 1 = some (Value.i32 3) ∧
      t.cells 1 0 = some (Value.i32 2) ∧ t.cells 1 1 = some (Value.i32 4) := by
  obtain ⟨t, ht, hc⟩ := C3_cell_placement_well_formed 4 "LL".toList true ',' '"'
    [(["a".toList, "b".toList], [LF]), (["1".toList, "2".toList], [LF]),
     (["3".toList, "4".toList], [LF])] (by decide) (by decide) (by decide)
  refine ⟨t, ht, ?_, ?_, ?_, ?_⟩
  · obtain ⟨v, hv, h⟩ := hc 0 0 'L' (["1".toList, "2".toList], [LF]) "1".toList rfl
      (by decide) rfl rfl
    rw [h, ← hv]; decide
  · obtain ⟨v, hv, h⟩ := hc 0 1 'L' (["3".toList, "4".toList], [LF]) "3".toList rfl
      (by decide) rfl rfl
    rw [h, ← hv]; decide
  · obtain ⟨v, hv, h⟩ := hc 1 0 'L' (["1".toList, "2".toList], [LF]) "2".toList rfl
      (by decide) rfl rfl
    rw [h, ← hv]; decide
  · obtain ⟨v, hv, h⟩ := hc 1 1 'L' (["3".toList, "4".toList], [LF]) "4".toList rfl
      (by decide) rfl rfl
    rw [h, ← hv]; decide

/-! ## Tables built from quoted text cells -/

theorem quotedLines_texts (M : List (List (List Char))) :
    (quotedLines M).map Line.texts = M := by
  induction M with
  | nil => rfl
  | cons row rows ih =>
    have h : (row.map Field.quoted).map Field.text = row := by
      induction row with
      | nil => rfl
      | cons t ts iht => simp [Field.text, iht]
    simp only [quotedLines, List.map_cons, Line.texts] at ih ⊢
    rw [h, ih]

theorem quoted_fits (p : Config) (hq : p.quote_char ≠ NUL ∧ p.quote_char ≠ CR ∧
    p.quote_char ≠ LF ∧ p.quote_char ≠ p.delimiter) :
    ∀ (row : List (List Char)), (∀ cell ∈ row, NUL ∉ cell) →
      LineFits p false (row.map Field.quoted) (List.replicate row.length 's')
  | [], _ => trivial
  | cell :: row, h =>
    ⟨⟨h cell (by simp), hq⟩, fun _ _ => Or.inl rfl,
      quoted_fits p hq row (fun c hc => h c (by simp [hc]))⟩

theorem quoted_docOK (p : Config) (C : Nat) (hty : p.types = List.replicate C 's')
    (hq : p.quote_char ≠ NUL ∧ p.quote_char ≠ CR ∧ p.quote_char ≠ LF ∧
      p.quote_char ≠ p.delimiter) :
    ∀ (M : List (List (List Char))), (∀ row ∈ M, row.length = C) →
      (∀ row ∈ M, ∀ cell ∈ row, NUL ∉ cell) → DocOK p false (quotedLines M)
  | [], _, _ => trivial
  | [row], hl, hn => by
    have h := quoted_fits p hq row (hn row (by simp))
    rw [hl row (by simp), ← hty] at h
    exact ⟨h, fun c hc => Or.inr (by simpa using hc)⟩
  | row :: row2 :: rows, hl, hn => by
    have h := quoted_fits p hq row (hn row (by simp))
    rw [hl row (by simp), ← hty] at h
    exact ⟨h, fun c hc => Or.inr (by simpa using hc), by simp,
      quoted_docOK p C hty hq (row2 :: rows) (fun r hr => hl r (by simp [hr]))
        (fun r hr => hn r (by simp [hr]))⟩

/-- C4: for an `R x C` matrix `M` of NUL-free texts (`R ≥ 1`, `C ≥ 1`), with a delimiter
and a quote character that are distinct and neither CR, LF nor NUL, the parser built with
the format `s` repeated `C` times and no header from the serialisation of `M` has
`rows_count = R` and the text `M[r][j]` at row `r` of column `j`. -/
theorem C4_text_table_round_trip (sz : Nat) (M : List (List (List Char))) (C : Nat)
    (d q : Char) (hC : 1 ≤ C) (hR : 1 ≤ M.length) (hrows : ∀ row ∈ M, row.length = C)
    (hnul : ∀ row ∈ M, ∀ cell ∈ row, NUL ∉ cell) (hdq : d ≠ q)
    (_hd : d ≠ CR ∧ d ≠ LF ∧ d ≠ NUL) (hq : q ≠ CR ∧ q ≠ LF ∧ q ≠ NUL) :
    ∃ t, CSV_Parser sz (quotedText q d M) (List.replicate C 's') false d q = some t ∧
      t.rows_count = (M.length : Int) ∧
      ∀ (r j : Nat) (row : List (List Char)) (cell : List Char),
        M[r]? = some row → row[j]? = some cell → t.cells j r = some (Value.str cell) := by
  have hp : List.replicate C 's' ≠ [] := by
    intro h
    have := congrArg List.length h
    simp at this; omega
  have hdoc := quoted_docOK ⟨List.replicate C 's', false, d, q, sz⟩ C rfl
    ⟨hq.2.2, hq.1, hq.2.1, fun e => hdq e.symm⟩ M hrows hnul
  cases hM : M with
  | nil => rw [hM] at hR; simp at hR
  | cons row rows =>
    rw [hM] at hdoc
    obtain ⟨t, ht, _, hcount, _, _, hcells⟩ :=
      CSV_Parser_doc sz (List.replicate C 's') false d q _ _ hp hdoc
    refine ⟨t, ht, ?_, ?_⟩
    · rw [hcount]; simp [quotedLines]
    · intro r j row1 cell hr hj
      have hjC : j < C := by
        have h1 := hrows row1 (by rw [hM]; exact List.getElem?_mem hr)
        have h2 := (List.getElem?_eq_some.mp hj).1
        omega
      have ht1 := quotedLines_texts (row :: rows)
      simp only [quotedLines, List.map_cons] at ht1
      rw [hcells, writeRows_none]
      simp only [Bool.false_eq_true, if_false, List.map_cons, ht1]
      rw [cellOf_eq (List.replicate C 's') (row :: rows) j r 's' row1 cell hr
        (by simp [List.getElem?_replicate, hjC]) hj]
      have hn : NUL ∉ cell :=
        hnul row1 (by rw [hM]; exact List.getElem?_mem hr) cell (List.getElem?_mem hj)
      simp [convert, strdup, cstr_of_not_mem cell hn]

/-- Witness of C4: a 2 x 2 matrix with cells that hold the delimiter, the quote character,
a line feed and the empty text. -/
theorem C4_text_table_round_trip_witness :
    ∃ t, CSV_Parser 4 "\"a,\"\"b\",\"\"\n\"c\nd\",\"x\"\n".toList "ss".toList false ',' '"'
        = some t ∧
      t.rows_count = 2 ∧
      t.cells 0 0 = some (Value.str "a,\"b".toList) ∧ t.cells 1 0 = some (Value.str []) ∧
      t.cells 0 1 = some (Value.str "c\nd".toList) ∧ t.cells 1 1 = some (Value.str "x".toList) := by
  obtain ⟨t, ht, hr, hc⟩ := C4_text_table_round_trip 4
    [["a,\"b".toList, []], ["c\nd".toList, "x".toList]] 2 ',' '"' (by decide) (by decide)
    (by decide) (by decide) (by decide) (by decide) (by decide)
  exact ⟨t, ht, hr, hc 0 0 _ _ rfl rfl, hc 0 1 _ _ rfl rfl, hc 1 0 _ _ rfl rfl,
    hc 1 1 _ _ rfl rfl⟩

/-! ## Facts that hold for every input -/

theorem advance_gt (mem : List Char) (s len : Nat) : s < advance mem s len := by
  unfold advance; omega

theorem walk_ge (lenAt : Char → List Char → Nat) (mem : List Char) :
    ∀ (tys : List Char) (s : Nat), s + tys.length ≤ walk lenAt mem tys s := by
  intro tys
  induction tys with
  | nil => intro s; simp [walk]
  | cons ty tys ih =>
    intro s
    have h1 := advance_gt mem s (lenAt ty (mem.drop s))
    have h2 := ih (advance mem s (lenAt ty (mem.drop s)))
    simp only [walk, List.length_cons]
    omega

/-- With at least one column the outer loop of `CountRows` ends within the fuel. -/
theorem CountRows_loop_total (p : Config) (hp : p.types ≠ []) (mem : List Char) :
    ∀ (fuel s count : Nat), 1 ≤ fuel → mem.length + 1 ≤ s + fuel →
      ∃ r, CountRows.loop p mem fuel s count = some r := by
  intro fuel
  induction fuel with
  | zero => intro s count h; omega
  | succ f ih =>
    intro s count _ hlen
    rw [CountRows.loop]
    by_cases h0 : peek mem s = NUL
    · exact ⟨(count, s), by simp [h0]⟩
    · have hs : s < mem.length := by
        by_contra hge
        exact h0 (peek_of_length_le mem s (by omega))
      have hpos : 0 < p.types.length := List.length_pos.mpr hp
      have hw := walk_ge (fun ty sfx => CountRows.len p ty count sfx) mem p.types s
      rw [← CountRows_cols_eq_walk] at hw
      have hne : CountRows.cols p mem count p.types s ≠ 0 := by omega
      simp only [h0, if_false, hne]
      by_cases h1 : peek mem (CountRows.cols p mem count p.types s - 1) = NUL
      · exact ⟨(count + 1, CountRows.cols p mem count p.types s), by simp [h1]⟩
      · simp only [h1, if_false]
        exact ih _ _ (by omega) (by omega)

/-- With at least one column `CountRows` returns a result for every input. -/
theorem CountRows_total (p : Config) (hp : p.types ≠ []) (mem : List Char) :
    ∃ n, CountRows p mem = some n := by
  obtain ⟨r, hr⟩ := CountRows_loop_total p hp mem (mem.length + 1) 0 0 (by omega) (by omega)
  exact ⟨(r.1 : Int) - (if p.has_header then 1 else 0), by simp [CountRows, hr]⟩

/-- With at least one column the constructor builds a table from every input: the members
of the initializer list, the result of `CountRows`, the labels and pointers of the header
loop, and the cells of the fill pass. -/
theorem CSV_Parser_total (sz : Nat) (s fmt : List Char) (hh : Bool) (d q : Char)
    (hp : fmt ≠ []) :
    ∃ t rows, CSV_Parser sz s fmt hh d q = some t ∧
      CountRows ⟨fmt, hh, d, q, sz⟩ s = some rows ∧
      t.cfg = ⟨fmt, hh, d, q, sz⟩ ∧ t.rows_count = rows ∧
      t.keys = (headerLoop ⟨fmt, hh, d, q, sz⟩ s rows fmt 0 0).1 ∧
      t.values = blocks ⟨fmt, hh, d, q, sz⟩ rows fmt 0 ∧
      t.cells = (fillRows ⟨fmt, hh, d, q, sz⟩ s rows.toNat 0
        (if hh then (headerLoop ⟨fmt, hh, d, q, sz⟩ s rows fmt 0 0).2.2 else 0)
        (fun _ _ => none)).1 := by
  obtain ⟨rows, hrows⟩ := CountRows_total ⟨fmt, hh, d, q, sz⟩ hp s
  refine ⟨⟨⟨fmt, hh, d, q, sz⟩, rows, (headerLoop ⟨fmt, hh, d, q, sz⟩ s rows fmt 0 0).1,
    (headerLoop ⟨fmt, hh, d, q, sz⟩ s rows fmt 0 0).2.1,
    (fillRows ⟨fmt, hh, d, q, sz⟩ s rows.toNat 0
        (if hh then (headerLoop ⟨fmt, hh, d, q, sz⟩ s rows fmt 0 0).2.2 else 0)
        (fun _ _ => none)).1⟩, rows, ?_, hrows, rfl, rfl, rfl, ?_, rfl⟩
  · simp only [CSV_Parser, hrows]
  · exact headerLoop_values _ _ _ _ _ _

theorem not_mem_cstr (buf : List Char) : NUL ∉ cstr buf := by
  intro h
  have := List.mem_takeWhile_imp h
  simp at this

theorem ParseStringValue_not_mem_nul (q : Char) (s delims : List Char) :
    NUL ∉ (ParseStringValue q s delims).1 := by
  unfold ParseStringValue
  by_cases h : peek s 0 ≠ q
  · rw [if_pos h]; exact not_mem_cstr _
  · rw [if_neg h]; exact not_mem_cstr _

/-- The entry of `keys` for a column: null for an unused column or without header,
otherwise a text without NUL. -/
theorem headerLoop_keys_get (p : Config) (mem : List Char) (rows : Int) :
    ∀ (tys : List Char) (col s i : Nat) (ty : Char), tys[i]? = some ty →
      ∃ k, NUL ∉ k ∧ (headerLoop p mem rows tys col s).1[i]?
        = some (if ty = '-' ∨ p.has_header = false then none else some k) := by
  intro tys
  induction tys with
  | nil => intro col s i ty h; simp at h
  | cons t0 tys ih =>
    intro col s i ty h
    cases i with
    | zero =>
      simp only [List.getElem?_cons_zero, Option.some.injEq] at h
      subst h
      exact ⟨_, ParseStringValue_not_mem_nul p.quote_char (mem.drop s) (delim_chars p.delimiter),
        by simp [headerLoop]⟩
    | succ i =>
      simp only [List.getElem?_cons_succ] at h
      obtain ⟨k, hk, hget⟩ := ih (col + 1)
        (advance mem s (ParseStringValue p.quote_char (mem.drop s)
          (delim_chars p.delimiter)).2) i ty h
      exact ⟨k, hk, by simpa [headerLoop] using hget⟩

theorem headerLoop_keys_length (p : Config) (mem : List Char) (rows : Int) :
    ∀ (tys : List Char) (col s : Nat), (headerLoop p mem rows tys col s).1.length = tys.length := by
  intro tys
  induction tys with
  | nil => intro col s; rfl
  | cons t0 tys ih => intro col s; simp [headerLoop, ih]

theorem blocks_length (p : Config) (rows : Int) :
    ∀ (tys : List Char) (col : Nat), (blocks p rows tys col).length = tys.length := by
  intro tys
  induction tys with
  | nil => intro col; rfl
  | cons t0 tys ih => intro col; simp [blocks, ih]

/-- The entry of `values` for a column: null for an unused column, otherwise the block
allocated for this column. -/
theorem blocks_get (p : Config) (rows : Int) :
    ∀ (tys : List Char) (col i : Nat) (ty : Char), tys[i]? = some ty →
      (blocks p rows tys col)[i]?
        = some (if ty ≠ '-' then malloc (col + i) (GetTypeSize p.sizeof_ptr ty * rows)
            else none) := by
  intro tys
  induction tys with
  | nil => intro col i ty h; simp at h
  | cons t0 tys ih =>
    intro col i ty h
    cases i with
    | zero =>
      simp only [List.getElem?_cons_zero, Option.some.injEq] at h
      subst h
      simp [blocks]
    | succ i =>
      simp only [List.getElem?_cons_succ] at h
      have := ih (col + 1) i ty h
      simp only [blocks, List.getElem?_cons_succ, this]
      have e : col + 1 + i = col + (i + 1) := by omega
      rw [e]

/-- The fill pass never writes a cell of an unused column. -/
theorem fillCols_unused (p : Config) (mem : List Char) (row c r : Nat) :
    ∀ (tys : List Char) (col s : Nat) (cells : Cells),
      (col ≤ c → tys[c - col]? = some '-') →
      (fillCols p mem row tys col s cells).1 c r = cells c r := by
  intro tys
  induction tys with
  | nil => intro col s cells _; rfl
  | cons ty tys ih =>
    intro col s cells h
    rw [fillCols, ih]
    · rw [SaveNewValue_apply]
      by_cases hc : c = col ∧ r = row
      · have h0 := h (by omega)
        have hz : c - col = 0 := by omega
        rw [hz] at h0
        simp only [List.getElem?_cons_zero, Option.some.injEq] at h0
        subst h0
        simp [convert]
      · simp [hc]
    · intro hle
      have h0 := h (by omega)
      have hz : c - col = (c - (col + 1)) + 1 := by omega
      rw [hz] at h0
      simpa using h0

theorem fillRows_unused (p : Config) (mem : List Char) (c r : Nat)
    (hc : p.types[c]? = some '-') :
    ∀ (n row s : Nat) (cells : Cells), (fillRows p mem n row s cells).1 c r = cells c r := by
  intro n
  induction n with
  | zero => intro row s cells; rfl
  | succ n ih =>
    intro row s cells
    rw [fillRows, ih]
    exact fillCols_unused p mem row c r p.types 0 s cells (fun _ => by simpa using hc)

/-! ## Lookups -/

theorem toNat_eq_imp (a b : Char) (h : a.toNat = b.toNat) : a = b := by
  rw [← Char.ofNat_toNat a, ← Char.ofNat_toNat b, h]

theorem strcmp_eq_zero_iff :
    ∀ (a b : List Char), NUL ∉ a → NUL ∉ b → (strcmp a b = 0 ↔ a = b)
  | [], [], _, _ => by simp [strcmp]
  | [], b :: bs, _, hb => by
    have hb0 : b ≠ NUL := fun e => hb (by simp [e])
    have : b.toNat ≠ 0 := fun e => hb0 (toNat_eq_imp b NUL (by rw [e]; rfl))
    simp only [strcmp, reduceCtorEq, iff_false]
    omega
  | a :: as, [], ha, _ => by
    have ha0 : a ≠ NUL := fun e => ha (by simp [e])
    have : a.toNat ≠ 0 := fun e => ha0 (toNat_eq_imp a NUL (by rw [e]; rfl))
    simp only [strcmp, reduceCtorEq, iff_false]
    omega
  | a :: as, b :: bs, ha, hb => by
    have ha0 : a ≠ NUL := fun e => ha (by simp [e])
    by_cases hab : a = b
    · subst hab
      have ih := strcmp_eq_zero_iff as bs (fun e => ha (by simp [e])) (fun e => hb (by simp [e]))
      simp [strcmp, ha0, ih]
    · have : a.toNat ≠ b.toNat := fun e => hab (toNat_eq_imp a b e)
      simp only [strcmp, ne_eq, hab, not_false_eq_true, if_true, List.cons.injEq, false_and,
        iff_false]
      omega

/-- The scan of `GetValues(key)` returns the pointer of the first column whose label
equals the key. -/
theorem scan_first (key : List Char) (hkey : NUL ∉ key) :
    ∀ (ks : List (Option (List Char))) (vs : List (Option Block)) (c : Nat),
      (∀ k, some k ∈ ks → NUL ∉ k) → ks.length = vs.length →
      ks[c]? = some (some key) → (∀ c1 : Nat, c1 < c → ks[c1]? ≠ some (some key)) →
      GetValues.scan key ks vs = vs.getD c none := by
  intro ks
  induction ks with
  | nil => intro vs c _ _ h; simp at h
  | cons k ks ih =>
    intro vs c hn hlen hc hfirst
    cases vs with
    | nil => simp at hlen
    | cons v vs =>
      cases c with
      | zero =>
        simp only [List.getElem?_cons_zero, Option.some.injEq] at hc
        subst hc
        simp [GetValues.scan, (strcmp_eq_zero_iff key key hkey hkey).mpr rfl]
      | succ c =>
        have h0 := hfirst 0 (by omega)
        simp only [List.getElem?_cons_zero, ne_eq, Option.some.injEq] at h0
        have hrec := ih vs c (fun x hx => hn x (by simp [hx])) (by simpa using hlen)
          (by simpa using hc)
          (fun c1 hc1 => by simpa using hfirst (c1 + 1) (by omega))
        cases k with
        | none => simpa [GetValues.scan] using hrec
        | some label =>
          have hne : strcmp label key ≠ 0 := by
            rw [Ne, strcmp_eq_zero_iff label key (hn label (by simp)) hkey]
            exact fun e => h0 (by rw [e])
          simpa [GetValues.scan, hne] using hrec

/-- The scan of `GetValues(key)` returns null when no label equals the key. -/
theorem scan_none (key : List Char) (hkey : NUL ∉ key) :
    ∀ (ks : List (Option (List Char))) (vs : List (Option Block)),
      (∀ k, some k ∈ ks → NUL ∉ k) → (∀ c : Nat, ks[c]? ≠ some (some key)) →
      GetValues.scan key ks vs = none := by
  intro ks
  induction ks with
  | nil => intro vs _ _; simp [GetValues.scan]
  | cons k ks ih =>
    intro vs hn hno
    cases vs with
    | nil => simp [GetValues.scan]
    | cons v vs =>
      have h0 := hno 0
      simp only [List.getElem?_cons_zero, ne_eq, Option.some.injEq] at h0
      have hrec := ih vs (fun x hx => hn x (by simp [hx]))
        (fun c => by simpa using hno (c + 1))
      cases k with
      | none => simpa [GetValues.scan] using hrec
      | some label =>
        have hne : strcmp label key ≠ 0 := by
          rw [Ne, strcmp_eq_zero_iff label key (hn label (by simp)) hkey]
          exact fun e => h0 (by rw [e])
        simpa [GetValues.scan, hne] using hrec

/-- Among the columns whose label equals the key there is a first one. -/
theorem exists_first (ks : List (Option (List Char))) (key : List Char) (c : Nat)
    (h : ks[c]? = some (some key)) :
    ∃ c0 : Nat, ks[c0]? = some (some key) ∧
      ∀ c1 : Nat, c1 < c0 → ks[c1]? ≠ some (some key) := by
  induction c using Nat.strong_induction_on with
  | _ c ih =>
    by_cases hex : ∃ c1, c1 < c ∧ ks[c1]? = some (some key)
    · obtain ⟨c1, hlt, h1⟩ := hex
      exact ih c1 hlt h1
    · exact ⟨c, h, fun c1 hlt h1 => hex ⟨c1, hlt, h1⟩⟩

theorem GetValuesAt_of_ge (t : Table) (index : Int) (h : (t.cfg.cols_count : Int) ≤ index) :
    GetValuesAt t index = Lookup.ptr none := by
  have : ¬ index < (t.cfg.cols_count : Int) := by omega
  simp [GetValuesAt, this]

theorem GetValuesAt_of_lt (t : Table) (c : Nat) (h : c < t.cfg.cols_count)
    (hlen : t.values.length = t.cfg.cols_count) :
    GetValuesAt t (c : Int) = Lookup.ptr (t.values.getD c none) := by
  have h1 : (c : Int) < (t.cfg.cols_count : Int) := by omega
  have h2 : c < t.values.length := by omega
  simp [GetValuesAt, h1, h2]

theorem GetValuesAt_of_neg (t : Table) (index : Int) (h : index < 0) :
    GetValuesAt t index = Lookup.outside index := by
  have h1 : index < (t.cfg.cols_count : Int) := by omega
  have h2 : ¬ 0 ≤ index := by omega
  simp [GetValuesAt, h1, h2]

/-! ## Lookup by label -/

/-- What a constructed table consists of. -/
theorem CSV_Parser_eq_some (sz : Nat) (s fmt : List Char) (hh : Bool) (d q : Char) (t : Table)
    (ht : CSV_Parser sz s fmt hh d q = some t) :
    t.cfg = ⟨fmt, hh, d, q, sz⟩ ∧
    CountRows ⟨fmt, hh, d, q, sz⟩ s = some t.rows_count ∧
    t.keys = (headerLoop ⟨fmt, hh, d, q, sz⟩ s t.rows_count fmt 0 0).1 ∧
    t.values = blocks ⟨fmt, hh, d, q, sz⟩ t.rows_count fmt 0 ∧
    t.cells = (fillRows ⟨fmt, hh, d, q, sz⟩ s t.rows_count.toNat 0
      (if hh then (headerLoop ⟨fmt, hh, d, q, sz⟩ s t.rows_count fmt 0 0).2.2 else 0)
      (fun _ _ => none)).1 := by
  unfold CSV_Parser at ht
  cases hc : CountRows ⟨fmt, hh, d, q, sz⟩ s with
  | none => simp [hc] at ht
  | some rows =>
    simp only [hc, Option.some.injEq] at ht
    subst ht
    exact ⟨rfl, rfl, rfl, headerLoop_values _ _ _ _ _ _, rfl⟩

theorem GetTypeSize_nonneg (sz : Nat) (ty : Char) : 0 ≤ GetTypeSize sz ty := by
  unfold GetTypeSize
  split_ifs <;> simp

theorem malloc_of_nonneg (col : Nat) (bytes : Int) (h : 0 ≤ bytes) :
    malloc col bytes = some ⟨col, bytes⟩ := by
  simp [malloc, Int.not_lt.mpr h]

/-- The labels of a constructed table hold no NUL, and when the row count is not negative
a column with a label has a block of its own. -/
theorem table_keys_values (sz : Nat) (s fmt : List Char) (hh : Bool) (d q : Char) (t : Table)
    (ht : CSV_Parser sz s fmt hh d q = some t) :
    t.cfg.cols_count = fmt.length ∧ t.keys.length = fmt.length ∧
    t.values.length = fmt.length ∧
    (∀ k, some k ∈ t.keys → NUL ∉ k) ∧
    (0 ≤ t.rows_count → ∀ (c : Nat) (k : List Char), t.keys[c]? = some (some k) →
      ∃ b, t.values[c]? = some (some b) ∧ b.col = c) := by
  obtain ⟨hcfg, _, hkeys, hvals, _⟩ := CSV_Parser_eq_some sz s fmt hh d q t ht
  have hlen : t.keys.length = fmt.length := by
    rw [hkeys]; exact headerLoop_keys_length _ _ _ _ _ _
  have hget : ∀ (c : Nat) (k : List Char), t.keys[c]? = some (some k) →
      NUL ∉ k ∧ (0 ≤ t.rows_count → ∃ b, t.values[c]? = some (some b) ∧ b.col = c) := by
    intro c k hk
    have hc : c < fmt.length := by
      rw [← hlen]; exact (List.getElem?_eq_some.mp hk).1
    have hty : fmt[c]? = some fmt[c] := List.getElem?_eq_getElem hc
    obtain ⟨k1, hk1, hg⟩ := headerLoop_keys_get ⟨fmt, hh, d, q, sz⟩ s t.rows_count fmt 0 0 c
      fmt[c] hty
    rw [← hkeys, hk] at hg
    have hb := blocks_get ⟨fmt, hh, d, q, sz⟩ t.rows_count fmt 0 c fmt[c] hty
    rw [← hvals] at hb
    by_cases hcond : fmt[c] = '-' ∨ hh = false
    · simp [hcond] at hg
    · have hne : fmt[c] ≠ '-' := fun e => hcond (Or.inl e)
      simp only [hcond, if_false, Option.some.injEq] at hg
      subst hg
      refine ⟨hk1, fun h0 => ?_⟩
      simp only [ne_eq, hne, not_false_eq_true, if_true, Nat.zero_add] at hb
      rw [malloc_of_nonneg _ _ (Int.mul_nonneg (GetTypeSize_nonneg sz _) h0)] at hb
      exact ⟨_, hb, rfl⟩
  refine ⟨by rw [hcfg]; rfl, hlen, by rw [hvals]; exact blocks_length _ _ _ _, ?_, ?_⟩
  · intro k hk
    obtain ⟨c, hc⟩ := List.mem_iff_getElem?.mp hk
    exact (hget c k hc).1
  · intro h0 c k hk
    exact (hget c k hk).2 h0

/-- On every constructed table `GetValues(key)` returns the entry of `values` of the first
column whose label is present and equal to the key, whatever labels later columns carry,
and null when no column has such a label. When the row count is not negative that entry
is the block of the column, so that the result is null exactly when no label matches. -/
theorem GetValues_first_match (sz : Nat) (s fmt : List Char) (hh : Bool) (d q : Char)
    (t : Table) (key : List Char) (ht : CSV_Parser sz s fmt hh d q = some t)
    (hkey : NUL ∉ key) :
    (∀ c : Nat, t.keys[c]? = some (some key) →
      (∀ c1 : Nat, c1 < c → t.keys[c1]? ≠ some (some key)) →
      GetValues t key = t.values.getD c none) ∧
    ((∀ c : Nat, t.keys[c]? ≠ some (some key)) → GetValues t key = none) ∧
    (0 ≤ t.rows_count →
      (∀ c : Nat, t.keys[c]? = some (some key) →
        (∀ c1 : Nat, c1 < c → t.keys[c1]? ≠ some (some key)) →
        ∃ b, GetValues t key = some b ∧ t.values[c]? = some (some b) ∧ b.col = c) ∧
      (GetValues t key = none ↔ ∀ c : Nat, t.keys[c]? ≠ some (some key))) := by
  obtain ⟨hcols, hklen, hvlen, hnul, hblk⟩ := table_keys_values sz s fmt hh d q t ht
  have htake : t.keys.take t.cfg.cols_count = t.keys := by
    rw [hcols, ← hklen]; exact List.take_length _
  have hget : ∀ c : Nat, t.keys[c]? = some (some key) →
      (∀ c1 : Nat, c1 < c → t.keys[c1]? ≠ some (some key)) →
      GetValues t key = t.values.getD c none := by
    intro c hc hmin
    unfold GetValues
    rw [htake, scan_first key hkey t.keys t.values c hnul (by rw [hklen, hvlen]) hc hmin]
  have hnone : (∀ c : Nat, t.keys[c]? ≠ some (some key)) → GetValues t key = none := by
    intro hno
    unfold GetValues
    rw [htake]
    exact scan_none key hkey t.keys t.values hnul hno
  refine ⟨hget, hnone, fun h0 => ?_⟩
  have hfirst : ∀ c : Nat, t.keys[c]? = some (some key) →
      (∀ c1 : Nat, c1 < c → t.keys[c1]? ≠ some (some key)) →
      ∃ b, GetValues t key = some b ∧ t.values[c]? = some (some b) ∧ b.col = c := by
    intro c hc hmin
    obtain ⟨b, hb, hcol⟩ := hblk h0 c key hc
    refine ⟨b, ?_, hb, hcol⟩
    rw [hget c hc hmin]
    simp [List.getD_eq_getElem?_getD, hb]
  refine ⟨hfirst, ?_, hnone⟩
  intro hn c hc
  obtain ⟨c0, h0c, hmin⟩ := exists_first t.keys key c hc
  obtain ⟨b, hb, _⟩ := hfirst c0 h0c hmin
  rw [hn] at hb
  cases hb

/-- C7 fails on the code: on the empty input with a header and the format `L` the row count
is -1, the label of column 0 is the empty text and the request of `4 * -1` bytes for its
block is refused, so the pointer of column 0 is null. `GetValues("")` finds the label of
column 0 and returns that null pointer, although a present label equals the key. This is
so whatever lies behind the terminator of the empty input. -/
theorem C7_matching_label_null_storage :
    (CSV_Parser 4 [] "L".toList true ',' '"').map (fun t => (t.rows_count, t.keys))
      = some (-1, [some []]) ∧
    (CSV_Parser 4 [] "L".toList true ',' '"').map (fun t => (t.values, GetValues t []))
      = some ([none], none) ∧
    ∀ junk : List Char,
      (CSV_Parser 4 (NUL :: junk) "L".toList true ',' '"').map
          (fun t => (t.rows_count, t.keys)) = some (-1, [some []]) ∧
      (CSV_Parser 4 (NUL :: junk) "L".toList true ',' '"').map
          (fun t => (t.values, GetValues t [])) = some ([none], none) := by
  refine ⟨by decide, by decide, fun junk => ⟨rfl, rfl⟩⟩

/-! ## Quoted numeric fields -/

/-- The delimiter-only scan of the fill pass on a field written between quote characters:
it reads the text between them. -/
theorem fillVal_enclosed (p : Config) (ty : Char) (body after : List Char) (hty : ty ≠ 's')
    (hq : p.quote_char ≠ NUL ∧ p.quote_char ≠ CR ∧ p.quote_char ≠ LF ∧
      p.quote_char ≠ p.delimiter)
    (hbody : ∀ c ∈ body, c ≠ NUL ∧ c ≠ CR ∧ c ≠ LF ∧ c ≠ p.delimiter)
    (ha : FieldEnd p.delimiter after) :
    fillVal p ty (p.quote_char :: (body ++ [p.quote_char]) ++ after)
      = (body, body.length + 2) := by
  have hclean : ∀ c ∈ p.quote_char :: (body ++ [p.quote_char]),
      c ≠ NUL ∧ c ∉ delim_chars p.delimiter := by
    intro c hc
    simp only [List.mem_cons, List.mem_append, List.mem_singleton, List.not_mem_nil,
      or_false] at hc
    rcases hc with rfl | hc | rfl
    · simp [delim_chars, hq]
    · have := hbody c hc
      simp [delim_chars, this]
    · simp [delim_chars, hq]
  have hn := strcspn_append _ after (delim_chars p.delimiter) hclean ha.strcspn_ok
  have hnul : NUL ∉ p.quote_char :: (body ++ [p.quote_char]) :=
    fun h => (hclean NUL h).1 rfl
  have hb : NUL ∉ body := fun h => (hbody NUL h).1 rfl
  simp only [fillVal, ne_eq, hty, not_false_eq_true, if_true, hn, strndup, List.take_left']
  rw [cstr_of_not_mem _ hnul, RemoveEnclosingDoubleQuotes_enclosed _ body hq.1 hb]
  simp

/-- The delimiter-only scan of the fill pass on a bare text that does not start with the
quote character: it reads the text. -/
theorem fillVal_bare (p : Config) (ty : Char) (body after : List Char) (hty : ty ≠ 's')
    (hbody : ∀ c ∈ body, c ≠ NUL ∧ c ≠ CR ∧ c ≠ LF ∧ c ≠ p.delimiter)
    (hstart : peek body 0 ≠ p.quote_char) (ha : FieldEnd p.delimiter after) :
    fillVal p ty (body ++ after) = (body, body.length) := by
  have hclean : ∀ c ∈ body, c ≠ NUL ∧ c ∉ delim_chars p.delimiter := by
    intro c hc
    have := hbody c hc
    simp [delim_chars, this]
  have hn := strcspn_append _ after (delim_chars p.delimiter) hclean ha.strcspn_ok
  have hb : NUL ∉ body := fun h => (hbody NUL h).1 rfl
  simp only [fillVal, ne_eq, hty, not_false_eq_true, if_true, hn, strndup, List.take_left']
  rw [cstr_of_not_mem _ hb, RemoveEnclosingDoubleQuotes_not_quoted _ body hb hstart]

/-- C5 as stated fails: with the body `"1"` (free of NUL, delimiter, CR and LF) in an
Int16 column, the field `""1""` stores 0 while the bare field `"1"` stores 1. -/
theorem C5_counterexample :
    (CSV_Parser 4 "\"\"1\"\"\n".toList "d".toList false ',' '"').map (fun t => t.cells 0 0)
      = some (some (Value.i16 0)) ∧
    (CSV_Parser 4 "\"1\"\n".toList "d".toList false ',' '"').map (fun t => t.cells 0 0)
      = some (some (Value.i16 1)) := by
  decide

/-- C5 (amended): `RemoveEnclosingDoubleQuotes` applied to quote + body + quote leaves
exactly the body, for every body free of NUL; and in the fill pass a non-text column
whose field is quote + body + quote, the body free of NUL, delimiter, CR and LF and not
starting with the quote character, the quote character being none of NUL, CR, LF and the
delimiter, stores the same value as for the bare field body. Moreover the input
`x / "1" / "2"` with format `d` and a header gives 2 rows with the values 1 and 2. -/
theorem C5_quoted_numeric_dequoted :
    (∀ (q : Char) (body : List Char), q ≠ NUL → NUL ∉ body →
      RemoveEnclosingDoubleQuotes q (q :: (body ++ [q])) = body) ∧
    (∀ (p : Config) (ty : Char) (body after : List Char) (cells : Cells) (row col : Nat),
      ty ≠ 's' →
      (p.quote_char ≠ NUL ∧ p.quote_char ≠ CR ∧ p.quote_char ≠ LF ∧
        p.quote_char ≠ p.delimiter) →
      (∀ c ∈ body, c ≠ NUL ∧ c ≠ CR ∧ c ≠ LF ∧ c ≠ p.delimiter) →
      peek body 0 ≠ p.quote_char → FieldEnd p.delimiter after →
      (fillVal p ty (p.quote_char :: (body ++ [p.quote_char]) ++ after)).1 = body ∧
      (fillVal p ty (body ++ after)).1 = body ∧
      SaveNewValue cells
          (fillVal p ty (p.quote_char :: (body ++ [p.quote_char]) ++ after)).1 ty row col
        = SaveNewValue cells (fillVal p ty (body ++ after)).1 ty row col) ∧
    (CSV_Parser 4 "x\n\"1\"\n\"2\"\n".toList "d".toList true ',' '"').map
        (fun t => (t.rows_count, t.cells 0 0, t.cells 0 1))
      = some (2, some (Value.i16 1), some (Value.i16 2)) := by
  refine ⟨fun q body hq hb => RemoveEnclosingDoubleQuotes_enclosed q body hq hb, ?_, by decide⟩
  intro p ty body after cells row col hty hq hbody hstart ha
  rw [fillVal_enclosed p ty body after hty hq hbody ha,
    fillVal_bare p ty body after hty hbody hstart ha]
  exact ⟨rfl, rfl, rfl⟩

/-- Witness of C5 (amended): the body `12` between quotes, in an Int16 column. -/
theorem C5_quoted_numeric_dequoted_witness :
    RemoveEnclosingDoubleQuotes '"' "\"12\"".toList = "12".toList ∧
    (fillVal ⟨"d".toList, true, ',', '"', 4⟩ 'd' "\"12\"\n".toList).1 = "12".toList ∧
    (fillVal ⟨"d".toList, true, ',', '"', 4⟩ 'd' "12\n".toList).1 = "12".toList :=
  ⟨C5_quoted_numeric_dequoted.1 '"' "12".toList (by decide) (by decide),
   (C5_quoted_numeric_dequoted.2.1 ⟨"d".toList, true, ',', '"', 4⟩ 'd' "12".toList [LF]
      (fun _ _ => none) 0 0 (by decide) (by decide) (by decide) (by decide)
      (Or.inr ⟨LF, [], rfl, Or.inr (Or.inl rfl)⟩)).1,
   (C5_quoted_numeric_dequoted.2.1 ⟨"d".toList, true, ',', '"', 4⟩ 'd' "12".toList [LF]
      (fun _ _ => none) 0 0 (by decide) (by decide) (by decide) (by decide)
      (Or.inr ⟨LF, [], rfl, Or.inr (Or.inl rfl)⟩)).2.1⟩

/-! ## Lookup by index -/

/-- C8 fails on the code for a negative index: the guard `index < cols_count` holds, and
`GetValues(-1)` reads `values[-1]`, outside the array. -/
theorem C8_negative_index_reads_outside :
    (CSV_Parser 4 "a\n1\n".toList "L".toList true ',' '"').map (fun t => GetValuesAt t (-1))
      = some (Lookup.outside (-1)) := by
  decide

/-! ## Unused columns and labels -/

/-- C9: in every table built by the constructor a column whose specifier is `-` has a null
label and null storage (`GetValues(index)` returns null for it, with or without header) and
none of its cells is ever written; and on a well-formed input every typed column `k`
stores, row by row, the conversions of the fields found at position `k` of the lines, so
the fields of unused columns are consumed in every row. -/
theorem C9_unused_columns :
    (∀ (sz : Nat) (s fmt : List Char) (hh : Bool) (d q : Char) (c : Nat),
      fmt[c]? = some '-' →
      ∃ t, CSV_Parser sz s fmt hh d q = some t ∧
        t.keys[c]? = some none ∧ t.values[c]? = some none ∧
        GetValuesAt t (c : Int) = Lookup.ptr none ∧ ∀ r, t.cells c r = none) ∧
    (∀ (sz : Nat) (fmt : List Char) (hh : Bool) (d q : Char)
      (lines : List (List (List Char) × List Char)),
      1 ≤ fmt.length → 1 ≤ lines.length → PlainDoc ⟨fmt, hh, d, q, sz⟩ lines →
      ∃ t, CSV_Parser sz (plainText ⟨fmt, hh, d, q, sz⟩ lines) fmt hh d q = some t ∧
        ∀ (k r : Nat) (ty : Char) (l : List (List Char) × List Char) (text : List Char),
          fmt[k]? = some ty →
          (ty = 's' ∨ ty = 'f' ∨ ty = 'L' ∨ ty = 'd' ∨ ty = 'c' ∨ ty = 'x') →
          lines[r + (if hh then 1 else 0)]? = some l → l.1[k]? = some text →
          ∃ v, convert ty text = some v ∧ t.cells k r = some v) := by
  constructor
  · intro sz s fmt hh d q c hc
    have hp : fmt ≠ [] := by
      intro h; rw [h] at hc; simp at hc
    obtain ⟨t, rows, ht, _, hcfg, hrows, hkeys, hvals, hcells⟩ :=
      CSV_Parser_total sz s fmt hh d q hp
    obtain ⟨hcols, _, hvlen, _, _⟩ := table_keys_values sz s fmt hh d q t ht
    have hclt : c < fmt.length := (List.getElem?_eq_some.mp hc).1
    obtain ⟨k, _, hk⟩ := headerLoop_keys_get ⟨fmt, hh, d, q, sz⟩ s rows fmt 0 0 c '-' hc
    have hb := blocks_get ⟨fmt, hh, d, q, sz⟩ rows fmt 0 c '-' hc
    have hv : t.values[c]? = some none := by
      rw [hvals, hb]; simp
    refine ⟨t, ht, ?_, hv, ?_, ?_⟩
    · rw [hkeys, hk]; simp
    · rw [GetValuesAt_of_lt t c (by omega) (by omega)]
      simp [List.getD_eq_getElem?_getD, hv]
    · intro r
      rw [hcells]
      exact fillRows_unused ⟨fmt, hh, d, q, sz⟩ s c r hc _ _ _ _
  · intro sz fmt hh d q lines hC hR hdoc
    obtain ⟨t, ht, _, _, _, hcells⟩ := plain_table sz fmt hh d q lines hC hR hdoc
    refine ⟨t, ht, ?_⟩
    intro k r ty l text hk hty hl htext
    obtain ⟨v, hv⟩ := convert_typed ty text hty
    refine ⟨v, hv, ?_⟩
    rw [hcells, cellOf_eq fmt _ k r ty l.1 text ?_ hk htext, hv]
    rw [List.getElem?_map, List.getElem?_drop, Nat.add_comm, hl]
    rfl

/-- Witness of C9: with the format `L-L` the middle column has no label and no storage,
and the outer columns hold the first and the third field of every line. -/
theorem C9_unused_columns_witness :
    ∃ t, CSV_Parser 4 "a,b,c\n1,2,3\n4,5,6\n".toList "L-L".toList true ',' '"' = some t ∧
      t.keys[1]? = some none ∧ t.values[1]? = some none ∧
      GetValuesAt t 1 = Lookup.ptr none ∧
      t.cells 0 0 = some (Value.i32 1) ∧ t.cells 0 1 = some (Value.i32 4) ∧
      t.cells 2 0 = some (Value.i32 3) ∧ t.cells 2 1 = some (Value.i32 6) := by
  obtain ⟨t, ht, hk, hv, hg, _⟩ := C9_unused_columns.1 4 "a,b,c\n1,2,3\n4,5,6\n".toList
    "L-L".toList true ',' '"' 1 (by decide)
  obtain ⟨t2, ht2, hc⟩ := C9_unused_columns.2 4 "L-L".toList true ',' '"'
    [(["a".toList, "b".toList, "c".toList], [LF]), (["1".toList, "2".toList, "3".toList], [LF]),
     (["4".toList, "5".toList, "6".toList], [LF])] (by decide) (by decide) (by decide)
  have he : t2 = t := by
    have h : some t2 = some t := by rw [← ht2, ← ht]; rfl
    exact Option.some.inj h
  subst he
  refine ⟨t2, ht, hk, hv, hg, ?_, ?_, ?_, ?_⟩
  · obtain ⟨v, hv, h⟩ := hc 0 0 'L' (["1".toList, "2".toList, "3".toList], [LF]) "1".toList rfl
      (by decide) rfl rfl
    rw [h, ← hv]; decide
  · obtain ⟨v, hv, h⟩ := hc 0 1 'L' (["4".toList, "5".toList, "6".toList], [LF]) "4".toList rfl
      (by decide) rfl rfl
    rw [h, ← hv]; decide
  · obtain ⟨v, hv, h⟩ := hc 2 0 'L' (["1".toList, "2".toList, "3".toList], [LF]) "3".toList rfl
      (by decide) rfl rfl
    rw [h, ← hv]; decide
  · obtain ⟨v, hv, h⟩ := hc 2 1 'L' (["4".toList, "5".toList, "6".toList], [LF]) "6".toList rfl
      (by decide) rfl rfl
    rw [h, ← hv]; decide

/-- The fill pass never writes a cell of a column for whose specifier `SaveNewValue` has no
case. -/
theorem fillCols_no_case (p : Config) (mem : List Char) (row c r : Nat) (ty : Char)
    (hty : ∀ v, convert ty v = none) :
    ∀ (tys : List Char) (col s : Nat) (cells : Cells),
      (col ≤ c → tys[c - col]? = some ty) →
      (fillCols p mem row tys col s cells).1 c r = cells c r := by
  intro tys
  induction tys with
  | nil => intro col s cells _; rfl
  | cons t0 tys ih =>
    intro col s cells h
    rw [fillCols, ih]
    · rw [SaveNewValue_apply]
      by_cases hc : c = col ∧ r = row
      · have h0 := h (by omega)
        have hz : c - col = 0 := by omega
        rw [hz] at h0
        simp only [List.getElem?_cons_zero, Option.some.injEq] at h0
        subst h0
        simp [hty]
      · simp [hc]
    · intro hle
      have h0 := h (by omega)
      have hz : c - col = (c - (col + 1)) + 1 := by omega
      rw [hz] at h0
      simpa using h0

theorem fillRows_no_case (p : Config) (mem : List Char) (c r : Nat) (ty : Char)
    (hty : ∀ v, convert ty v = none) (hc : p.types[c]? = some ty) :
    ∀ (n row s : Nat) (cells : Cells), (fillRows p mem n row s cells).1 c r = cells c r := by
  intro n
  induction n with
  | zero => intro row s cells; rfl
  | succ n ih =>
    intro row s cells
    rw [fillRows, ih]
    exact fillCols_no_case p mem row c r ty hty p.types 0 s cells (fun _ => by simpa using hc)

/-- C13: `GetTypeSize` returns the pointer size for `s`, 4 for `f`, 4 for `L`, 2 for `d`,
1 for `c`, 4 for `x` and 0 for `-`; and in every table the constructor builds, the storage of
a column `c` whose specifier is not `-` is what `malloc` returned for the request of
`GetTypeSize(fmt[c]) * rows_count` bytes: a block of exactly that size whenever the row
count is not negative. -/
theorem C13_schema_widths :
    (∀ sz : Nat, GetTypeSize sz 's' = sz ∧ GetTypeSize sz 'f' = 4 ∧ GetTypeSize sz 'L' = 4 ∧
      GetTypeSize sz 'd' = 2 ∧ GetTypeSize sz 'c' = 1 ∧ GetTypeSize sz 'x' = 4 ∧
      GetTypeSize sz '-' = 0) ∧
    (∀ (sz : Nat) (s fmt : List Char) (hh : Bool) (d q : Char) (c : Nat) (ty : Char),
      fmt[c]? = some ty → ty ≠ '-' →
      ∃ t, CSV_Parser sz s fmt hh d q = some t ∧
        t.values[c]? = some (malloc c (GetTypeSize sz ty * t.rows_count)) ∧
        (0 ≤ t.rows_count →
          t.values[c]? = some (some ⟨c, GetTypeSize sz ty * t.rows_count⟩))) := by
  constructor
  · intro sz
    simp [GetTypeSize]
  · intro sz s fmt hh d q c ty hc hty
    have hp : fmt ≠ [] := by
      intro h; rw [h] at hc; simp at hc
    obtain ⟨t, rows, ht, _, _, hrows, _, hvals, _⟩ := CSV_Parser_total sz s fmt hh d q hp
    have hv : t.values[c]? = some (malloc c (GetTypeSize sz ty * t.rows_count)) := by
      rw [hvals, blocks_get ⟨fmt, hh, d, q, sz⟩ rows fmt 0 c ty hc, hrows]
      simp [hty]
    refine ⟨t, ht, hv, fun h0 => ?_⟩
    rw [hv, malloc_of_nonneg _ _ (Int.mul_nonneg (GetTypeSize_nonneg sz ty) h0)]

/-- Witness of C13: with the format `Ld` and two data rows the blocks have 8 and 4 bytes. -/
theorem C13_schema_widths_witness :
    ∃ t, CSV_Parser 4 "a,b\n1,2\n3,4\n".toList "Ld".toList true ',' '"' = some t ∧
      t.rows_count = 2 ∧
      t.values[0]? = some (some ⟨0, 8⟩) ∧ t.values[1]? = some (some ⟨1, 4⟩) := by
  obtain ⟨t, ht, _, h0⟩ := C13_schema_widths.2 4 "a,b\n1,2\n3,4\n".toList "Ld".toList true ','
    '"' 0 'L' rfl (by decide)
  obtain ⟨t1, ht1, _, h1⟩ := C13_schema_widths.2 4 "a,b\n1,2\n3,4\n".toList "Ld".toList true ','
    '"' 1 'd' rfl (by decide)
  have he : t1 = t := Option.some.inj (by rw [← ht1, ← ht])
  subst he
  have hr : t1.rows_count = 2 := by
    have h2 := (CSV_Parser_eq_some 4 _ _ true ',' '"' t1 ht).2.1
    have h3 : CountRows ⟨"Ld".toList, true, ',', '"', 4⟩ "a,b\n1,2\n3,4\n".toList = some 2 := by
      decide
    rw [h3] at h2
    exact (Option.some.inj h2).symm
  rw [hr] at h0 h1
  exact ⟨t1, ht, hr, h0 (by decide), h1 (by decide)⟩

/-- C16 as stated fails: with the format `z` the constructor does not fail; it builds a
table whose single column has a block of 0 bytes and no stored value. -/
theorem C16_counterexample :
    (CSV_Parser 4 "a\n1\n".toList "z".toList true ',' '"').map
        (fun t => (t.rows_count, t.values, t.cells 0 0))
      = some (1, [some ⟨0, 0⟩], none) := by
  decide

/-- C16 (amended): for every format holding a character outside `s f L d c x -` and every
input the constructor does not fail; the column of that character is given a block of
`GetTypeSize = 0` bytes and no value is ever stored in it. -/
theorem C16_invalid_schema_zero_size (sz : Nat) (s fmt : List Char) (hh : Bool) (d q : Char)
    (c : Nat) (ty : Char) (hc : fmt[c]? = some ty)
    (hty : ty ≠ 's' ∧ ty ≠ 'f' ∧ ty ≠ 'L' ∧ ty ≠ 'd' ∧ ty ≠ 'c' ∧ ty ≠ 'x' ∧ ty ≠ '-') :
    ∃ t, CSV_Parser sz s fmt hh d q = some t ∧
      GetTypeSize sz ty = 0 ∧ t.values[c]? = some (some ⟨c, 0⟩) ∧ ∀ r, t.cells c r = none := by
  have hp : fmt ≠ [] := by
    intro h; rw [h] at hc; simp at hc
  obtain ⟨t, rows, ht, _, _, hrows, _, hvals, hcells⟩ := CSV_Parser_total sz s fmt hh d q hp
  have hsize : GetTypeSize sz ty = 0 := by
    simp [GetTypeSize, hty]
  have hconv : ∀ v, convert ty v = none := by
    intro v; simp [convert, hty]
  refine ⟨t, ht, hsize, ?_, ?_⟩
  · rw [hvals, blocks_get ⟨fmt, hh, d, q, sz⟩ rows fmt 0 c ty hc, hsize]
    simp [hty.2.2.2.2.2.2, malloc]
  · intro r
    rw [hcells]
    exact fillRows_no_case ⟨fmt, hh, d, q, sz⟩ s c r ty hconv hc _ _ _ _

/-- Witness of C16 (amended): the format `Lz` on a two-line input. -/
theorem C16_invalid_schema_zero_size_witness :
    ∃ t, CSV_Parser 4 "a,b\n1,2\n".toList "Lz".toList true ',' '"' = some t ∧
      GetTypeSize 4 'z' = 0 ∧ t.values[1]? = some (some ⟨1, 0⟩) ∧ ∀ r, t.cells 1 r = none :=
  C16_invalid_schema_zero_size 4 "a,b\n1,2\n".toList "Lz".toList true ',' '"' 1 'z' rfl
    (by decide)

/-! ## De-quoting without a closing quote -/

/-- C17 fails on the code: a field with a leading quote and no trailing quote keeps its
last character twice (`"1` becomes `11`), a field that is the single quote character is
left as it is, and the Int16 column of the input `"1` stores 11. -/
theorem C17_dequote_leading_quote_only :
    RemoveEnclosingDoubleQuotes '"' "\"1".toList = "11".toList ∧
    RemoveEnclosingDoubleQuotes '"' "\"".toList = "\"".toList ∧
    (CSV_Parser 4 "\"1\n".toList "d".toList false ',' '"').map (fun t => t.cells 0 0)
      = some (some (Value.i16 11)) := by
  decide

/-! ## The sign of the row count -/

theorem CountRows_loop_count_ge (p : Config) (mem : List Char) :
    ∀ (fuel s count : Nat) (r : Nat × Nat), CountRows.loop p mem fuel s count = some r →
      count ≤ r.1 ∧ (peek mem s ≠ NUL → count + 1 ≤ r.1) := by
  intro fuel
  induction fuel with
  | zero => intro s count r h; simp [CountRows.loop] at h
  | succ f ih =>
    intro s count r h
    rw [CountRows.loop] at h
    by_cases h0 : peek mem s = NUL
    · simp only [h0, if_true, Option.some.injEq] at h
      subst h
      exact ⟨le_refl _, fun hn => absurd h0 hn⟩
    · simp only [h0, if_false] at h
      by_cases h1 : CountRows.cols p mem count p.types s = 0
      · simp [h1] at h
      · simp only [h1, if_false] at h
        by_cases h2 : peek mem (CountRows.cols p mem count p.types s - 1) = NUL
        · simp only [h2, if_true, Option.some.injEq] at h
          subst h
          exact ⟨by simp, fun _ => le_refl _⟩
        · simp only [h2, if_false] at h
          have := (ih _ _ r h).1
          exact ⟨by omega, fun _ => this⟩

/-- For an input that is not empty `CountRows` returns no negative value. -/
theorem CountRows_nonneg (p : Config) (mem : List Char) (n : Int)
    (h : CountRows p mem = some n) (hne : peek mem 0 ≠ NUL) : 0 ≤ n := by
  unfold CountRows at h
  cases hl : CountRows.loop p mem (mem.length + 1) 0 0 with
  | none => simp [hl] at h
  | some r =>
    simp only [hl, Option.map_some', Option.some.injEq] at h
    have := (CountRows_loop_count_ge p mem _ 0 0 r hl).2 hne
    subst h
    cases p.has_header
    · simp
    · simp only [if_true]; omega

/-- C19 fails on the code: for the empty input with a header `CountRows` returns -1, and
the constructor requests a block of `4 * -1` bytes for an Int32 column, a request that
`malloc` refuses. -/
theorem C19_negative_row_count :
    CountRows ⟨"L".toList, true, ',', '"', 4⟩ [] = some (-1) ∧
    (CSV_Parser 4 [] "L".toList true ',' '"').map (fun t => (GetRowsCount t, t.values))
      = some (-1, [none]) ∧
    GetTypeSize 4 'L' * (-1) = -4 ∧ malloc 0 (GetTypeSize 4 'L' * (-1)) = none := by
  decide

/-! ## Termination of the row counter -/

theorem CountRows_loop_bound (p : Config) (hp : p.types ≠ []) (mem : List Char) :
    ∀ (fuel s count : Nat) (r : Nat × Nat), CountRows.loop p mem fuel s count = some r →
      r.1 ≤ count + (mem.length - s) := by
  intro fuel
  induction fuel with
  | zero => intro s count r h; simp [CountRows.loop] at h
  | succ f ih =>
    intro s count r h
    rw [CountRows.loop] at h
    by_cases h0 : peek mem s = NUL
    · simp only [h0, if_true, Option.some.injEq] at h
      subst h
      simp
    · have hs : s < mem.length := by
        by_contra hge
        exact h0 (peek_of_length_le mem s (by omega))
      have hpos : 0 < p.types.length := List.length_pos.mpr hp
      have hw := walk_ge (fun ty sfx => CountRows.len p ty count sfx) mem p.types s
      rw [← CountRows_cols_eq_walk] at hw
      simp only [h0, if_false] at h
      by_cases h1 : CountRows.cols p mem count p.types s = 0
      · simp [h1] at h
      · simp only [h1, if_false] at h
        by_cases h2 : peek mem (CountRows.cols p mem count p.types s - 1) = NUL
        · simp only [h2, if_true, Option.some.injEq] at h
          subst h
          show count + 1 ≤ count + (mem.length - s)
          omega
        · simp only [h2, if_false] at h
          have := ih _ _ r h
          omega

theorem CountRows_loop_exit (p : Config) (mem : List Char) :
    ∀ (fuel s count : Nat) (r : Nat × Nat), CountRows.loop p mem fuel s count = some r →
      peek mem r.2 = NUL ∨ (r.2 ≠ 0 ∧ peek mem (r.2 - 1) = NUL) := by
  intro fuel
  induction fuel with
  | zero => intro s count r h; simp [CountRows.loop] at h
  | succ f ih =>
    intro s count r h
    rw [CountRows.loop] at h
    by_cases h0 : peek mem s = NUL
    · simp only [h0, if_true, Option.some.injEq] at h
      subst h
      exact Or.inl h0
    · simp only [h0, if_false] at h
      by_cases h1 : CountRows.cols p mem count p.types s = 0
      · simp [h1] at h
      · simp only [h1, if_false] at h
        by_cases h2 : peek mem (CountRows.cols p mem count p.types s - 1) = NUL
        · simp only [h2, if_true, Option.some.injEq] at h
          subst h
          exact Or.inr ⟨h1, h2⟩
        · simp only [h2, if_false] at h
          exact ih _ _ r h

theorem length_le_of_peek_nul (mem : List Char) (hn : NUL ∉ mem) (i : Nat)
    (h : peek mem i = NUL) : mem.length ≤ i := by
  by_contra hlt
  have := peek_mem_of_lt mem i (by omega)
  rw [h] at this
  exact hn this

/-- With at least one column, every field advances the cursor by at least one byte and
every iteration of the outer loop of `CountRows` by at least `cols_count` bytes; when the
memory holds the input and zero bytes behind it, the loop ends within `length(input) + 1`
evaluations of its condition, with the cursor at or behind the terminator, and the number
of counted rows is at most `length(input)`. -/
theorem CountRows_returns_zero_behind (p : Config) (mem : List Char) (hC : 1 ≤ p.cols_count)
    (hn : NUL ∉ mem) :
    (∀ s len : Nat, s + len + 1 ≤ advance mem s len) ∧
    (∀ s count : Nat, s + p.cols_count ≤ CountRows.cols p mem count p.types s) ∧
    ∃ count s, CountRows.loop p mem (mem.length + 1) 0 0 = some (count, s) ∧
      mem.length ≤ s ∧ count ≤ mem.length ∧
      CountRows p mem = some ((count : Int) - (if p.has_header then 1 else 0)) := by
  have hp : p.types ≠ [] := by
    intro h; simp [Config.cols_count, h] at hC
  refine ⟨fun s len => by unfold advance; omega, ?_, ?_⟩
  · intro s count
    rw [CountRows_cols_eq_walk]
    exact walk_ge _ mem p.types s
  · obtain ⟨r, hr⟩ := CountRows_loop_total p hp mem (mem.length + 1) 0 0 (by omega) (by omega)
    have hb := CountRows_loop_bound p hp mem _ 0 0 r hr
    have he := CountRows_loop_exit p mem _ 0 0 r hr
    refine ⟨r.1, r.2, hr, ?_, by simpa using hb, by simp [CountRows, hr]⟩
    rcases he with h | ⟨h1, h2⟩
    · exact length_le_of_peek_nul mem hn _ h
    · have := length_le_of_peek_nul mem hn _ h2
      omega

/-! ## Integer coercion -/

theorem digitVal_digit : ∀ v : Nat, v < 10 → digitVal 10 (Char.ofNat (48 + v)) = some v := by
  decide

theorem digit_not_space : ∀ v : Nat, v < 10 →
    isspace (Char.ofNat (48 + v)) = false ∧ Char.ofNat (48 + v) ≠ '-' ∧
      Char.ofNat (48 + v) ≠ '+' := by
  decide

theorem digits_digitChars (ds : List Nat) (hd : ∀ v ∈ ds, v < 10) :
    ∀ acc : Nat, digits 10 (digitChars ds) acc = ds.foldl (fun a v => a * 10 + v) acc := by
  induction ds with
  | nil => intro acc; rfl
  | cons v vs ih =>
    intro acc
    have hv := digitVal_digit v (hd v (by simp))
    simp only [digitChars, List.map_cons, digits, hv, List.foldl_cons]
    exact ih (fun x hx => hd x (by simp [hx])) _

theorem signedNumber_literal (neg : Bool) (ds : List Nat) (hne : ds ≠ [])
    (hd : ∀ v ∈ ds, v < 10) : signedNumber 10 (literal neg ds) = literalValue neg ds := by
  have hdig := digits_digitChars ds hd 0
  cases neg with
  | true =>
    have hs : skipSpace ('-' :: digitChars ds) = '-' :: digitChars ds := by
      have : isspace '-' = false := by decide
      simp [skipSpace, this]
    simp only [literal, if_true, List.singleton_append, signedNumber, hs, hdig, literalValue,
      digitsValue]
  | false =>
    cases ds with
    | nil => exact absurd rfl hne
    | cons v vs =>
      obtain ⟨h1, h2, h3⟩ := digit_not_space v (hd v (by simp))
      have hs : skipSpace (digitChars (v :: vs)) = digitChars (v :: vs) := by
        simp [digitChars, skipSpace, h1]
      have hshape : digitChars (v :: vs) = Char.ofNat (48 + v) :: digitChars vs := rfl
      simp only [literal, Bool.false_eq_true, if_false, List.nil_append, signedNumber, hs]
      rw [hshape]
      simp only [h2, h3, if_false]
      rw [← hshape, hdig]
      simp [literalValue, digitsValue]

theorem wrapSigned_of_range (w : Nat) (n : Int) (hw : 1 ≤ w)
    (h1 : -(2 : Int) ^ (w - 1) ≤ n) (h2 : n < (2 : Int) ^ (w - 1)) : wrapSigned w n = n := by
  have hpow : (2 : Int) ^ w = 2 * 2 ^ (w - 1) := by
    obtain ⟨k, rfl⟩ : ∃ k, w = k + 1 := ⟨w - 1, by omega⟩
    simp [pow_succ, mul_comm]
  unfold wrapSigned
  rw [Int.emod_eq_of_lt (by omega) (by omega)]
  omega

/-- C14: for a field text that is a decimal integer literal of value `n` with
`-2^31 ≤ n < 2^31`, `SaveNewValue` stores `n` in an `L` column, `n` wrapped modulo `2^16`
into `[-32768, 32767]` in a `d` column and `n` wrapped modulo `2^8` into `[-128, 127]` in a
`c` column; a value inside the range of the column is stored unchanged, and the write
takes place whatever the value is. -/
theorem C14_integer_coercion (neg : Bool) (ds : List Nat) (cells : Cells) (row col : Nat)
    (hne : ds ≠ []) (hd : ∀ v ∈ ds, v < 10)
    (hlo : -(2 : Int) ^ 31 ≤ literalValue neg ds) (hhi : literalValue neg ds < (2 : Int) ^ 31) :
    SaveNewValue cells (literal neg ds) 'L' row col col row
        = some (Value.i32 (literalValue neg ds)) ∧
    (∃ m : Int, SaveNewValue cells (literal neg ds) 'd' row col col row = some (Value.i16 m) ∧
      -32768 ≤ m ∧ m ≤ 32767 ∧ (m - literalValue neg ds) % 65536 = 0 ∧
      (-32768 ≤ literalValue neg ds → literalValue neg ds ≤ 32767 → m = literalValue neg ds)) ∧
    (∃ m : Int, SaveNewValue cells (literal neg ds) 'c' row col col row = some (Value.i8 m) ∧
      -128 ≤ m ∧ m ≤ 127 ∧ (m - literalValue neg ds) % 256 = 0 ∧
      (-128 ≤ literalValue neg ds → literalValue neg ds ≤ 127 → m = literalValue neg ds)) := by
  have hnum := signedNumber_literal neg ds hne hd
  refine ⟨?_, ⟨wrapSigned 16 (literalValue neg ds), ?_, ?_⟩,
    ⟨wrapSigned 8 (literalValue neg ds), ?_, ?_⟩⟩
  · rw [SaveNewValue_apply]
    simp only [convert, atol32, hnum]
    rw [wrapSigned_of_range 32 _ (by omega) (by simpa using hlo) (by simpa using hhi)]
    simp
  · rw [SaveNewValue_apply]
    simp [convert, atoi16, hnum]
  · simp only [wrapSigned]
    norm_num
    omega
  · rw [SaveNewValue_apply]
    simp [convert, atoi8, hnum]
  · simp only [wrapSigned]
    norm_num
    omega

/-- Witness of C14: the literal `70000` is stored as 70000, 4464 and 112; the literal `-5`
is stored as -5 in all three widths. -/
theorem C14_integer_coercion_witness :
    SaveNewValue (fun _ _ => none) "70000".toList 'L' 0 0 0 0 = some (Value.i32 70000) ∧
    SaveNewValue (fun _ _ => none) "70000".toList 'd' 0 0 0 0 = some (Value.i16 4464) ∧
    SaveNewValue (fun _ _ => none) "70000".toList 'c' 0 0 0 0 = some (Value.i8 112) ∧
    SaveNewValue (fun _ _ => none) "-5".toList 'L' 0 0 0 0 = some (Value.i32 (-5)) ∧
    SaveNewValue (fun _ _ => none) "-5".toList 'd' 0 0 0 0 = some (Value.i16 (-5)) ∧
    SaveNewValue (fun _ _ => none) "-5".toList 'c' 0 0 0 0 = some (Value.i8 (-5)) :=
  ⟨(C14_integer_coercion false [7, 0, 0, 0, 0] (fun _ _ => none) 0 0 (by decide) (by decide)
      (by decide) (by decide)).1,
   by decide, by decide,
   (C14_integer_coercion true [5] (fun _ _ => none) 0 0 (by decide) (by decide)
      (by decide) (by decide)).1,
   by decide, by decide⟩

/-! ## Quoted fields without a closing quote -/

theorem scan_esc_open (q : Char) (t : List Char) (ht : NUL ∉ t) :
    ∀ (fuel len occ : Nat), (esc q t).length ≤ fuel →
      ParseStringValue.scan q fuel (esc q t) len occ
        = (len + t.length, occ + (esc q t).length) := by
  induction t with
  | nil =>
    intro fuel len occ _
    cases fuel with
    | zero => simp [ParseStringValue.scan, esc]
    | succ f => simp [ParseStringValue.scan, esc]
  | cons c cs ih =>
    intro fuel len occ hf
    have hc : c ≠ NUL := fun e => ht (by simp [e])
    have hcs : NUL ∉ cs := fun e => ht (by simp [e])
    by_cases hcq : c = q
    · subst hcq
      simp only [esc, if_true, List.length_cons] at hf ⊢
      obtain ⟨f, rfl⟩ : ∃ f, fuel = f + 1 := ⟨fuel - 1, by omega⟩
      rw [ParseStringValue.scan]
      simp only [peek_cons_zero, peek_cons_succ, hc, if_false, ne_eq, not_true_eq_false,
        and_false, and_self, if_true, List.drop_succ_cons, List.drop_zero]
      rw [ih hcs f (len + 1) (occ + 2) (by omega)]
      simp only [Prod.mk.injEq]
      omega
    · simp only [esc, hcq, if_false, List.length_cons] at hf ⊢
      obtain ⟨f, rfl⟩ : ∃ f, fuel = f + 1 := ⟨fuel - 1, by omega⟩
      rw [ParseStringValue.scan]
      simp only [peek_cons_zero, hc, if_false, hcq, false_and, List.drop_succ_cons,
        List.drop_zero]
      rw [ih hcs f (len + 1) (occ + 1) (by omega)]
      simp only [Prod.mk.injEq]
      omega

/-- The quote-aware scan of a quoted field that runs into the terminator. -/
theorem ParseStringValue_open (q : Char) (t delims : List Char) (ht : NUL ∉ t) :
    ParseStringValue q (q :: esc q t) delims = (t, (esc q t).length + 2) := by
  have hs := scan_esc_open q t ht (esc q t).length 0 2 (le_refl _)
  have hc := copy_esc q t []
  simp only [List.append_nil] at hc
  simp only [ParseStringValue, peek_cons_zero, ne_eq, not_true_eq_false, if_false,
    List.drop_succ_cons, List.drop_zero, hs, zero_add, hc, cstr_of_not_mem t ht,
    Prod.mk.injEq, true_and]
  omega

theorem walkStarts_line (lenAt : Char → List Char → Nat) (q d : Char) (mem : List Char) :
    ∀ (fs : List Field) (f : Field) (tys : List Char) (ty : Char) (pre tail : List Char),
      Measured lenAt q d (f :: fs) (ty :: tys) →
      mem = pre ++ (renderFields q d (f :: fs) ++ tail) →
      (tail = [] ∨ ∃ x rest, tail = x :: rest ∧ (x = CR ∨ x = LF)) →
      walkStarts lenAt mem (ty :: tys) pre.length = lineStarts q pre.length (f :: fs) := by
  intro fs
  induction fs with
  | nil =>
    intro f tys ty pre tail hm _ _
    cases tys with
    | cons t2 tys => exact absurd hm.2.2 (by simp [Measured])
    | nil => simp [walkStarts, lineStarts]
  | cons g gs ih =>
    intro f tys ty pre tail hm hmem ht
    cases tys with
    | nil => exact absurd hm.2.2 (by simp [Measured])
    | cons t2 tys =>
      obtain ⟨hd, hend, hadv, hmem2⟩ := step_mid q d mem pre tail f g gs hm.2.2.1 hmem
      have hstep := ih g tys t2 (pre ++ (f.enc q ++ [d])) tail hm.2.2 hmem2 ht
      have hl : (pre ++ (f.enc q ++ [d])).length = pre.length + (f.enc q).length + 1 := by
        simp; omega
      rw [walkStarts, hd, hm.2.1 _ hend, hadv, hstep, hl]
      rfl

theorem walkStarts_doc_line (lenAt : Char → List Char → Nat) (p : Config) (hdr : Bool)
    (mem pre : List Char) (l : Line) (ls : List Line) (hp : p.types ≠ [])
    (hdoc : DocOK p hdr (l :: ls))
    (hm : Measured lenAt p.quote_char p.delimiter l.fields p.types)
    (hmem : mem = pre ++ renderDoc p.quote_char p.delimiter (l :: ls)) :
    walkStarts lenAt mem p.types pre.length = lineStarts p.quote_char pre.length l.fields := by
  have hfit := hdoc.head.1
  cases hty : p.types with
  | nil => exact absurd hty hp
  | cons ty tys =>
    rw [hty] at hfit hm
    obtain ⟨f, fs, hf⟩ := hfit.cons_of_types
    rw [hf] at hm
    have hmem1 := hmem
    rw [renderDoc_cons_fields, hf] at hmem1
    rw [hf]
    exact walkStarts_line lenAt _ _ mem fs f tys ty pre _ hm hmem1
      (doc_line_tail p hdr l ls hdoc)

/-- The row counter starts its fields at the field offsets of a well-formed document. -/
theorem CountRows_starts_doc (p : Config) (hp : p.types ≠ []) :
    ∀ (ls : List Line) (hdr : Bool) (pre : List Char) (count fuel : Nat) (mem : List Char),
      DocOK p hdr ls → (hdr = true → p.has_header = true ∧ count = 0) → ls.length < fuel →
      mem = pre ++ renderDoc p.quote_char p.delimiter ls →
      CountRows.starts p mem fuel pre.length count
        = docStarts p.quote_char p.delimiter pre.length ls := by
  intro ls
  induction ls with
  | nil =>
    intro hdr pre count fuel mem _ _ hfuel hmem
    obtain ⟨f, rfl⟩ : ∃ f, fuel = f + 1 := ⟨fuel - 1, by simp at hfuel; omega⟩
    have h0 : peek mem pre.length = NUL := by
      apply peek_of_length_le; simp [hmem, renderDoc]
    simp [CountRows.starts, h0, docStarts]
  | cons l ls ih =>
    intro hdr pre count fuel mem hdoc hh hfuel hmem
    obtain ⟨f, rfl⟩ : ∃ f, fuel = f + 1 := ⟨fuel - 1, by simp at hfuel; omega⟩
    have hstart : peek mem pre.length ≠ NUL := by
      rcases renderDoc_head p hdr (l :: ls) hp hdoc with h | ⟨c, cs, h, h0, _, _⟩
      · exact absurd h (by simp)
      · rw [hmem, h]
        have := peek_append_right pre (c :: cs) 0
        simp only [Nat.add_zero, peek_cons_zero] at this
        rw [this]; exact h0
    have hm := hdoc.head.1.measured_count count hh
    have hwalk := walk_doc_line (fun ty sfx => CountRows.len p ty count sfx) p hdr mem pre l ls
      hp hdoc hm hmem
    have hws := walkStarts_doc_line (fun ty sfx => CountRows.len p ty count sfx) p hdr mem pre
      l ls hp hdoc hm hmem
    rw [CountRows.starts]
    simp only [hstart, if_false, CountRows_cols_eq_walk, hwalk, hws, docStarts]
    congr 1
    by_cases he : l.ending = []
    · have hls : ls = [] := by
        cases ls with
        | nil => rfl
        | cons l2 ls => exact absurd he hdoc.ending_ne_nil
      subst hls
      have hsp := span_single_no_ending p.quote_char p.delimiter l he
      have hlen : mem.length = pre.length + (l.render p.quote_char p.delimiter).length := by
        simp [hmem, renderDoc]
      have hz : peek mem (pre.length + span p.quote_char p.delimiter [l] - 1) = NUL := by
        apply peek_of_length_le; rw [hsp, hlen]; omega
      have hne : pre.length + span p.quote_char p.delimiter [l] ≠ 0 := by rw [hsp]; omega
      simp [hne, hz, docStarts]
    · have hsp := span_single_of_ending p.quote_char p.delimiter l he
      have hnz : peek mem (pre.length + span p.quote_char p.delimiter [l] - 1) ≠ NUL := by
        rw [hsp, hmem]
        exact peek_before_line_end _ _ pre _ l he hdoc.head.2
      have hne : pre.length + span p.quote_char p.delimiter [l] ≠ 0 := by
        have : 0 < l.ending.length := List.length_pos.mpr he
        rw [hsp]; simp only [Line.render, List.length_append]; omega
      have hmem2 : mem = (pre ++ l.render p.quote_char p.delimiter)
          ++ renderDoc p.quote_char p.delimiter ls := by
        rw [hmem]; simp [renderDoc]
      have hrec := ih false (pre ++ l.render p.quote_char p.delimiter) (count + 1) f mem
        hdoc.tail (by simp) (by simp at hfuel; omega) hmem2
      have hl2 : (pre ++ l.render p.quote_char p.delimiter).length
          = pre.length + span p.quote_char p.delimiter [l] := by
        rw [hsp]; simp
      rw [hl2] at hrec
      simp only [hne, if_false, hnz, hrec]

/-- The fill pass starts its fields at the field offsets of a well-formed document. -/
theorem fillStarts_doc (p : Config) (hp : p.types ≠ []) (mem : List Char) :
    ∀ (ls : List Line) (pre : List Char),
      DocOK p false ls → mem = pre ++ renderDoc p.quote_char p.delimiter ls →
      fillStarts p mem ls.length pre.length
        = docStarts p.quote_char p.delimiter pre.length ls := by
  intro ls
  induction ls with
  | nil => intro pre _ _; simp [fillStarts, docStarts]
  | cons l ls ih =>
    intro pre hdoc hmem
    have hm := hdoc.head.1.measured_fill
    have hwalk := walk_doc_line (fun ty sfx => (fillVal p ty sfx).2) p false mem pre l ls
      hp hdoc hm hmem
    have hws := walkStarts_doc_line (fun ty sfx => (fillVal p ty sfx).2) p false mem pre
      l ls hp hdoc hm hmem
    simp only [List.length_cons, fillStarts, hwalk, hws, docStarts]
    congr 1
    cases ls with
    | nil => simp [fillStarts, docStarts]
    | cons l2 ls =>
      have he := hdoc.ending_ne_nil
      have hsp := span_single_of_ending p.quote_char p.delimiter l he
      have hmem2 : mem = (pre ++ l.render p.quote_char p.delimiter)
          ++ renderDoc p.quote_char p.delimiter (l2 :: ls) := by
        rw [hmem]; simp [renderDoc]
      have hrec := ih (pre ++ l.render p.quote_char p.delimiter) hdoc.tail hmem2
      have hl2 : (pre ++ l.render p.quote_char p.delimiter).length
          = pre.length + span p.quote_char p.delimiter [l] := by
        rw [hsp]; simp
      rw [hl2] at hrec
      exact hrec

theorem span_eq_length (p : Config) :
    ∀ (ls : List Line) (hdr : Bool), DocOK p hdr ls →
      span p.quote_char p.delimiter ls
        = (renderDoc p.quote_char p.delimiter ls).length
          + (if lastEndingMissing ls = true then 1 else 0) := by
  intro ls
  induction ls with
  | nil => intro _ _; simp [span, renderDoc, lastEndingMissing]
  | cons l ls ih =>
    intro hdr hdoc
    cases ls with
    | nil =>
      by_cases he : l.ending = []
      · rw [span_single_no_ending _ _ l he]
        simp [renderDoc, lastEndingMissing, he]
      · rw [span_single_of_ending _ _ l he]
        simp [renderDoc, lastEndingMissing, he]
    | cons l2 ls =>
      have hrec := ih false hdoc.tail
      rw [span_cons, span_single_of_ending _ _ l hdoc.ending_ne_nil, hrec]
      simp only [renderDoc, lastEndingMissing, List.length_append]
      omega

theorem DocOK.fields_length {p : Config} :
    ∀ {ls : List Line} {hdr : Bool}, DocOK p hdr ls →
      ∀ l ∈ ls, l.texts.length = p.types.length := by
  intro ls
  induction ls with
  | nil => intro _ _ l hl; simp at hl
  | cons l0 ls ih =>
    intro hdr hdoc l hl
    rcases List.mem_cons.mp hl with rfl | hl
    · simp [Line.texts, hdoc.head.1.length_eq]
    · exact ih hdoc.tail l hl

theorem cellOf_isSome (tys : List Char) (rows : List (List (List Char))) (j r : Nat) (ty : Char)
    (hrows : ∀ vs ∈ rows, vs.length = tys.length) (hj : tys[j]? = some ty)
    (hty : ty = 's' ∨ ty = 'f' ∨ ty = 'L' ∨ ty = 'd' ∨ ty = 'c' ∨ ty = 'x') :
    (cellOf tys rows j r).isSome = true ↔ r < rows.length := by
  have hjlt : j < tys.length := (List.getElem?_eq_some.mp hj).1
  constructor
  · intro h
    by_contra hge
    have : rows[r]? = none := List.getElem?_eq_none (by omega)
    simp [cellOf, this] at h
  · intro hr
    have h1 : rows[r]? = some rows[r] := List.getElem?_eq_getElem hr
    have hlen := hrows rows[r] (List.getElem_mem hr)
    have h3 : (rows[r])[j]? = some (rows[r])[j] := List.getElem?_eq_getElem (by omega)
    obtain ⟨v, hv⟩ := convert_typed ty (rows[r])[j] hty
    rw [cellOf_eq tys rows j r ty rows[r] _ h1 hj h3, hv]
    rfl

/-- On every non-empty well-formed input, with zero bytes behind it, the constructor
(header loop followed by the fill pass, or the fill pass alone from the start without
header) starts its fields at the same positions, in the same order, as `CountRows`; the
fill pass writes exactly `rows_count` rows in every typed column; and its cursor after the
last row is the position at which `CountRows` stopped: the end of the input when the last
line has its ending, one byte behind the terminator when that ending is missing. -/
theorem passes_agree_zero_behind (sz : Nat) (fmt : List Char) (hh : Bool) (d q : Char)
    (l : Line) (ls : List Line) (hp : fmt ≠ [])
    (hdoc : DocOK ⟨fmt, hh, d, q, sz⟩ hh (l :: ls)) :
    ∃ t count cur,
      CSV_Parser sz (renderDoc q d (l :: ls)) fmt hh d q = some t ∧
      CountRows.loop ⟨fmt, hh, d, q, sz⟩ (renderDoc q d (l :: ls))
        ((renderDoc q d (l :: ls)).length + 1) 0 0 = some (count, cur) ∧
      t.rows_count = (count : Int) - (if hh then 1 else 0) ∧
      constructorStarts ⟨fmt, hh, d, q, sz⟩ (renderDoc q d (l :: ls)) t.rows_count
        = CountRows.starts ⟨fmt, hh, d, q, sz⟩ (renderDoc q d (l :: ls))
            ((renderDoc q d (l :: ls)).length + 1) 0 0 ∧
      (∀ (j r : Nat) (ty : Char), fmt[j]? = some ty →
        (ty = 's' ∨ ty = 'f' ∨ ty = 'L' ∨ ty = 'd' ∨ ty = 'c' ∨ ty = 'x') →
        ((t.cells j r).isSome = true ↔ (r : Int) < t.rows_count)) ∧
      (fillRows ⟨fmt, hh, d, q, sz⟩ (renderDoc q d (l :: ls)) t.rows_count.toNat 0
          (if hh then
            (headerLoop ⟨fmt, hh, d, q, sz⟩ (renderDoc q d (l :: ls)) t.rows_count fmt 0 0).2.2
           else 0)
          (fun _ _ => none)).2 = cur ∧
      cur = (renderDoc q d (l :: ls)).length
        + (if lastEndingMissing (l :: ls) = true then 1 else 0) := by
  have hlen : (l :: ls).length ≤ (renderDoc q d (l :: ls)).length :=
    length_le_renderDoc ⟨fmt, hh, d, q, sz⟩ hp (l :: ls) hh hdoc
  have hloop := CountRows_loop_doc ⟨fmt, hh, d, q, sz⟩ hp (l :: ls) hh [] 0
    ((renderDoc q d (l :: ls)).length + 1) (renderDoc q d (l :: ls)) hdoc
    (fun e => ⟨e, rfl⟩) (by omega) (by simp)
  have hstarts := CountRows_starts_doc ⟨fmt, hh, d, q, sz⟩ hp (l :: ls) hh [] 0
    ((renderDoc q d (l :: ls)).length + 1) (renderDoc q d (l :: ls)) hdoc
    (fun e => ⟨e, rfl⟩) (by omega) (by simp)
  simp only [List.length_nil, Nat.zero_add] at hloop hstarts
  have hspan : span q d (l :: ls) = (renderDoc q d (l :: ls)).length
      + (if lastEndingMissing (l :: ls) = true then 1 else 0) :=
    span_eq_length ⟨fmt, hh, d, q, sz⟩ (l :: ls) hh hdoc
  obtain ⟨t, ht, _, hrows, _, _, hcells⟩ := CSV_Parser_doc sz fmt hh d q l ls hp hdoc
  have hhead := headerLoop_doc ⟨fmt, hh, d, q, sz⟩ hp (renderDoc q d (l :: ls)) []
    t.rows_count hh l ls hdoc (by simp)
  simp only [List.length_nil, Nat.zero_add] at hhead
  have hhs := walkStarts_doc_line
    (fun _ sfx => (ParseStringValue q sfx (delim_chars d)).2) ⟨fmt, hh, d, q, sz⟩ hh
    (renderDoc q d (l :: ls)) [] l ls hp hdoc hdoc.head.1.measured_string (by simp)
  simp only [List.length_nil] at hhs
  have hcellsome : ∀ (rows : List Line), DocOK ⟨fmt, hh, d, q, sz⟩ false rows →
      t.cells = writeRows fmt (rows.map Line.texts) 0 (fun _ _ => none) →
      ∀ (j r : Nat) (ty : Char), fmt[j]? = some ty →
        (ty = 's' ∨ ty = 'f' ∨ ty = 'L' ∨ ty = 'd' ∨ ty = 'c' ∨ ty = 'x') →
        ((t.cells j r).isSome = true ↔ r < rows.length) := by
    intro rows hrdoc hc j r ty hj hty
    rw [hc, writeRows_none]
    have := cellOf_isSome fmt (rows.map Line.texts) j r ty ?_ hj hty
    · simpa using this
    · intro vs hvs
      obtain ⟨l0, hl0, rfl⟩ := List.mem_map.mp hvs
      exact hrdoc.fields_length l0 hl0
  refine ⟨t, (l :: ls).length, span q d (l :: ls), ht, hloop, ?_, ?_, ?_, ?_, hspan⟩
  · rw [hrows]
  · rw [hstarts]
    cases hh with
    | false =>
      have hfs := fillStarts_doc ⟨fmt, false, d, q, sz⟩ hp (renderDoc q d (l :: ls)) (l :: ls) []
        hdoc (by simp)
      simp only [List.length_nil] at hfs
      simp only [constructorStarts, Bool.false_eq_true, if_false, hrows, Int.sub_zero,
        Int.toNat_ofNat, hfs]
    | true =>
      have hr : t.rows_count.toNat = ls.length := by
        rw [hrows]; simp
      simp only [constructorStarts, if_true, headerStarts, hhs, hhead, hr, docStarts,
        Nat.zero_add]
      congr 1
      by_cases he : l.ending = []
      · have hls : ls = [] := by
          cases ls with
          | nil => rfl
          | cons l2 ls => exact absurd he hdoc.ending_ne_nil
        subst hls
        simp [fillStarts, docStarts]
      · have hsp := span_single_of_ending q d l he
        have hfs := fillStarts_doc ⟨fmt, true, d, q, sz⟩ hp (renderDoc q d (l :: ls)) ls
          (l.render q d) hdoc.tail (by simp [renderDoc])
        rw [hsp]
        exact hfs
  · intro j r ty hj hty
    cases hh with
    | false =>
      have := hcellsome (l :: ls) hdoc (by simpa using hcells) j r ty hj hty
      rw [this, hrows]
      simp only [List.length_cons, Bool.false_eq_true, if_false]
      omega
    | true =>
      have := hcellsome ls hdoc.tail (by simpa using hcells) j r ty hj hty
      rw [this, hrows]
      simp only [List.length_cons, if_true]
      omega
  · cases hh with
    | false =>
      have hfill := fillRows_doc ⟨fmt, false, d, q, sz⟩ hp (renderDoc q d (l :: ls)) (l :: ls) []
        0 (fun _ _ => none) hdoc (by simp)
      simp only [List.length_nil, Nat.zero_add] at hfill
      simp only [Bool.false_eq_true, if_false, hrows, Int.sub_zero, Int.toNat_ofNat, hfill]
    | true =>
      have hr : t.rows_count.toNat = ls.length := by
        rw [hrows]; simp
      simp only [if_true, hhead, hr]
      by_cases he : l.ending = []
      · have hls : ls = [] := by
          cases ls with
          | nil => rfl
          | cons l2 ls => exact absurd he hdoc.ending_ne_nil
        subst hls
        simp [fillRows]
      · have hsp := span_single_of_ending q d l he
        have hfill := fillRows_doc ⟨fmt, true, d, q, sz⟩ hp (renderDoc q d (l :: ls)) ls
          (l.render q d) 0 (fun _ _ => none) hdoc.tail (by simp [renderDoc])
        rw [hsp, hfill, span_cons q d l ls, hsp]

/-! ## Blank lines -/

theorem strcspn_stop (u r r1 delims : List Char) (x : Char) (hx : x ∈ delims) :
    strcspn (u ++ x :: r) delims = strcspn (u ++ x :: r1) delims ∧
      strcspn (u ++ x :: r) delims ≤ u.length := by
  induction u with
  | nil => simp [strcspn, hx]
  | cons c cs ih =>
    by_cases h : c = NUL ∨ c ∈ delims
    · simp [strcspn, h]
    · simp only [List.cons_append, strcspn, h, if_false, List.length_cons, List.append_eq]
      exact ⟨congrArg (· + 1) ih.1, by omega⟩

theorem take_append_stop (u r r1 : List Char) (n : Nat) (h : n ≤ u.length) :
    (u ++ r).take n = (u ++ r1).take n := by
  rw [List.take_append_of_le_length h, List.take_append_of_le_length h]

theorem peek_zero_not_quote (q x : Char) (u r : List Char) (hu : q ∉ u) (hxq : x ≠ q) :
    peek (u ++ x :: r) 0 ≠ q := by
  cases u with
  | nil => simpa using hxq
  | cons c cs =>
    simp only [List.cons_append, peek_cons_zero]
    exact fun e => hu (by simp [e])

theorem StopsAt_ParseStringValue (q x d : Char) (hx : x = CR ∨ x = LF) (hxq : x ≠ q) :
    StopsAt q x (fun sfx => ParseStringValue q sfx (delim_chars d)) := by
  intro u r r1 hu
  have hmem : x ∈ delim_chars d := by
    rcases hx with rfl | rfl <;> simp [delim_chars]
  obtain ⟨h1, h2⟩ := strcspn_stop u r r1 (delim_chars d) x hmem
  have hq1 := peek_zero_not_quote q x u r hu hxq
  have hq2 := peek_zero_not_quote q x u r1 hu hxq
  simp only [ParseStringValue_unquoted q _ _ hq1, ParseStringValue_unquoted q _ _ hq2]
  rw [← h1, take_append_stop u (x :: r) (x :: r1) _ h2]
  exact ⟨rfl, h2⟩

theorem StopsAt_fillVal (p : Config) (ty x : Char) (hx : x = CR ∨ x = LF)
    (hxq : x ≠ p.quote_char) : StopsAt p.quote_char x (fun sfx => fillVal p ty sfx) := by
  by_cases hs : ty = 's'
  · have := StopsAt_ParseStringValue p.quote_char x p.delimiter hx hxq
    intro u r r1 hu
    simpa [fillVal, hs] using this u r r1 hu
  · intro u r r1 hu
    have hmem : x ∈ delim_chars p.delimiter := by
      rcases hx with rfl | rfl <;> simp [delim_chars]
    obtain ⟨h1, h2⟩ := strcspn_stop u r r1 (delim_chars p.delimiter) x hmem
    simp only [fillVal, ne_eq, hs, not_false_eq_true, if_true, strndup]
    rw [← h1, take_append_stop u (x :: r) (x :: r1) _ h2]
    exact ⟨rfl, h2⟩

theorem StopsAt_count (p : Config) (ty x : Char) (count : Nat) (hx : x = CR ∨ x = LF)
    (hxq : x ≠ p.quote_char) :
    StopsAt p.quote_char x (fun sfx => ([], CountRows.len p ty count sfx)) := by
  intro u r r1 hu
  by_cases hs : ty = 's' ∨ (p.has_header = true ∧ count = 0)
  · obtain ⟨h1, h2⟩ := StopsAt_ParseStringValue p.quote_char x p.delimiter hx hxq u r r1 hu
    have h3 : ParseStringValue p.quote_char (u ++ x :: r) (delim_chars p.delimiter)
        = ParseStringValue p.quote_char (u ++ x :: r1) (delim_chars p.delimiter) := h1
    simp only [CountRows.len, hs, if_true]
    exact ⟨by rw [h3], h2⟩
  · have hmem : x ∈ delim_chars p.delimiter := by
      rcases hx with rfl | rfl <;> simp [delim_chars]
    obtain ⟨h1, h2⟩ := strcspn_stop u r r1 (delim_chars p.delimiter) x hmem
    simp only [CountRows.len, hs, if_false]
    exact ⟨by rw [h1], h2⟩

theorem drop_inserted (a b : List Char) (x y : Char) (s : Nat) (h : a.length < s) :
    (a ++ x :: y :: b).drop (s + 1) = (a ++ x :: b).drop s := by
  obtain ⟨k, rfl⟩ : ∃ k, s = a.length + 1 + k := ⟨s - a.length - 1, by omega⟩
  have e1 : a.length + 1 + k + 1 = a.length + (k + 2) := by omega
  have e2 : a.length + 1 + k = a.length + (k + 1) := by omega
  rw [e1, e2, List.drop_append, List.drop_append]
  rfl

theorem peek_inserted_le (a b : List Char) (x y : Char) (s : Nat) (h : s ≤ a.length) :
    peek (a ++ x :: y :: b) s = peek (a ++ x :: b) s := by
  rcases Nat.lt_or_ge s a.length with hlt | hge
  · rw [peek_append_left _ _ _ hlt, peek_append_left _ _ _ hlt]
  · have e : s = a.length + 0 := by omega
    rw [e, peek_append_right, peek_append_right]
    simp

theorem peek_inserted_gt (a b : List Char) (x y : Char) (s : Nat) (h : a.length < s) :
    peek (a ++ x :: y :: b) (s + 1) = peek (a ++ x :: b) s := by
  have h1 := peek_drop (a ++ x :: y :: b) (s + 1) 0
  have h2 := peek_drop (a ++ x :: b) s 0
  rw [drop_inserted a b x y s h] at h1
  simp only [Nat.add_zero] at h1 h2
  rw [← h1, ← h2]

/-- The line-ending run in front of the inserted byte: either it stops before `x` in both
inputs, or it passes `x` and is one byte longer in the input with the inserted byte. -/
theorem eolRun_inserted (w b : List Char) (x y : Char) (hx : x = CR ∨ x = LF)
    (hy : y = CR ∨ y = LF) :
    (eolRun (w ++ x :: b) < w.length ∧ eolRun (w ++ x :: y :: b) = eolRun (w ++ x :: b)) ∨
    (w.length < eolRun (w ++ x :: b) ∧
      eolRun (w ++ x :: y :: b) = eolRun (w ++ x :: b) + 1) := by
  have hx1 : x = LF ∨ x = CR := hx.symm
  have hy1 : y = LF ∨ y = CR := hy.symm
  induction w with
  | nil =>
    right
    simp [eolRun, hx1, hy1]
  | cons c cs ih =>
    by_cases hc : c = LF ∨ c = CR
    · simp only [List.cons_append, eolRun, hc, if_true, List.length_cons, List.append_eq]
      rcases ih with ⟨h1, h2⟩ | ⟨h1, h2⟩
      · left; exact ⟨by omega, by omega⟩
      · right; exact ⟨by omega, by omega⟩
    · left
      simp [eolRun, hc]

/-- One field step of the two runs: the scanner returns the same result, and the cursors
stay related. -/
theorem scan_shifted (q x y : Char) (a b : List Char) (g : List Char → List Char × Nat)
    (hg : StopsAt q x g) (hq : q ∉ a) (hx : x = CR ∨ x = LF) (hy : y = CR ∨ y = LF)
    (s s1 : Nat) (hs : Shifted a.length s s1) :
    g ((a ++ x :: y :: b).drop s1) = g ((a ++ x :: b).drop s) ∧
    Shifted a.length (advance (a ++ x :: b) s (g ((a ++ x :: b).drop s)).2)
      (advance (a ++ x :: y :: b) s1 (g ((a ++ x :: b).drop s)).2) := by
  rcases hs with ⟨hle, h⟩ | ⟨hgt, h⟩ <;> subst s1
  · have hd1 : (a ++ x :: b).drop s = a.drop s ++ x :: b := List.drop_append_of_le_length hle
    have hd2 : (a ++ x :: y :: b).drop s = a.drop s ++ x :: y :: b :=
      List.drop_append_of_le_length hle
    have hqu : q ∉ a.drop s := fun h => hq (List.mem_of_mem_drop h)
    obtain ⟨he, hlen⟩ := hg (a.drop s) b (y :: b) hqu
    rw [hd1, hd2]
    refine ⟨he.symm, ?_⟩
    have hlen2 : (g (a.drop s ++ x :: b)).2 ≤ a.length - s := by simpa using hlen
    generalize (g (a.drop s ++ x :: b)).2 = len at hlen2
    unfold advance
    rcases Nat.lt_or_ge (s + len) a.length with hk | hk
    · have hk1 : s + len + 1 ≤ a.length := by omega
      have e1 : (a ++ x :: b).drop (s + len + 1) = a.drop (s + len + 1) ++ x :: b :=
        List.drop_append_of_le_length hk1
      have e2 : (a ++ x :: y :: b).drop (s + len + 1) = a.drop (s + len + 1) ++ x :: y :: b :=
        List.drop_append_of_le_length hk1
      have hwl : (a.drop (s + len + 1)).length = a.length - (s + len + 1) := by simp
      rw [e1, e2]
      rcases eolRun_inserted (a.drop (s + len + 1)) b x y hx hy with ⟨h1, h2⟩ | ⟨h1, h2⟩
      · left; rw [h2]; exact ⟨by omega, rfl⟩
      · right; rw [h2]; exact ⟨by omega, by omega⟩
    · have hk1 : s + len = a.length := by omega
      have e1 : (a ++ x :: b).drop (s + len + 1) = b := by
        rw [hk1]
        simp
      have e2 : (a ++ x :: y :: b).drop (s + len + 1) = y :: b := by
        rw [hk1]
        simp
      have hy1 : y = LF ∨ y = CR := hy.symm
      rw [e1, e2]
      right
      simp only [eolRun, hy1, if_true]
      exact ⟨by omega, by omega⟩
  · have hd : (a ++ x :: y :: b).drop (s + 1) = (a ++ x :: b).drop s :=
      drop_inserted a b x y s hgt
    rw [hd]
    refine ⟨rfl, ?_⟩
    generalize (g ((a ++ x :: b).drop s)).2 = len
    unfold advance
    have e : s + 1 + len + 1 = (s + len + 1) + 1 := by omega
    rw [e, drop_inserted a b x y (s + len + 1) (by omega)]
    right
    exact ⟨by omega, by omega⟩

theorem walk_shifted (q x y : Char) (a b : List Char) (g : Char → List Char → List Char × Nat)
    (hg : ∀ ty, StopsAt q x (g ty)) (hq : q ∉ a) (hx : x = CR ∨ x = LF)
    (hy : y = CR ∨ y = LF) :
    ∀ (tys : List Char) (s s1 : Nat), Shifted a.length s s1 →
      Shifted a.length (walk (fun ty sfx => (g ty sfx).2) (a ++ x :: b) tys s)
        (walk (fun ty sfx => (g ty sfx).2) (a ++ x :: y :: b) tys s1) := by
  intro tys
  induction tys with
  | nil => intro s s1 hs; exact hs
  | cons ty tys ih =>
    intro s s1 hs
    obtain ⟨he, hadv⟩ := scan_shifted q x y a b (g ty) (hg ty) hq hx hy s s1 hs
    simp only [walk, he]
    exact ih _ _ hadv

theorem headerLoop_shifted (p : Config) (rows : Int) (x y : Char) (a b : List Char)
    (hq : p.quote_char ∉ a) (hx : x = CR ∨ x = LF) (hy : y = CR ∨ y = LF)
    (hxq : x ≠ p.quote_char) :
    ∀ (tys : List Char) (col s s1 : Nat), Shifted a.length s s1 →
      (headerLoop p (a ++ x :: y :: b) rows tys col s1).1
          = (headerLoop p (a ++ x :: b) rows tys col s).1 ∧
      Shifted a.length (headerLoop p (a ++ x :: b) rows tys col s).2.2
        (headerLoop p (a ++ x :: y :: b) rows tys col s1).2.2 := by
  intro tys
  induction tys with
  | nil => intro col s s1 hs; exact ⟨rfl, hs⟩
  | cons ty tys ih =>
    intro col s s1 hs
    obtain ⟨he, hadv⟩ := scan_shifted p.quote_char x y a b
      (fun sfx => ParseStringValue p.quote_char sfx (delim_chars p.delimiter))
      (StopsAt_ParseStringValue p.quote_char x p.delimiter hx hxq) hq hx hy s s1 hs
    obtain ⟨h1, h2⟩ := ih (col + 1) _ _ hadv
    simp only [headerLoop, he, h1]
    exact ⟨trivial, h2⟩

theorem fillCols_shifted (p : Config) (row : Nat) (x y : Char) (a b : List Char)
    (hq : p.quote_char ∉ a) (hx : x = CR ∨ x = LF) (hy : y = CR ∨ y = LF)
    (hxq : x ≠ p.quote_char) :
    ∀ (tys : List Char) (col s s1 : Nat) (cells : Cells), Shifted a.length s s1 →
      (fillCols p (a ++ x :: y :: b) row tys col s1 cells).1
          = (fillCols p (a ++ x :: b) row tys col s cells).1 ∧
      Shifted a.length (fillCols p (a ++ x :: b) row tys col s cells).2
        (fillCols p (a ++ x :: y :: b) row tys col s1 cells).2 := by
  intro tys
  induction tys with
  | nil => intro col s s1 cells hs; exact ⟨rfl, hs⟩
  | cons ty tys ih =>
    intro col s s1 cells hs
    obtain ⟨he, hadv⟩ := scan_shifted p.quote_char x y a b (fun sfx => fillVal p ty sfx)
      (StopsAt_fillVal p ty x hx hxq) hq hx hy s s1 hs
    simp only [fillCols, he]
    exact ih (col + 1) _ _ _ hadv

theorem fillRows_shifted (p : Config) (x y : Char) (a b : List Char)
    (hq : p.quote_char ∉ a) (hx : x = CR ∨ x = LF) (hy : y = CR ∨ y = LF)
    (hxq : x ≠ p.quote_char) :
    ∀ (n row s s1 : Nat) (cells : Cells), Shifted a.length s s1 →
      (fillRows p (a ++ x :: y :: b) n row s1 cells).1
          = (fillRows p (a ++ x :: b) n row s cells).1 := by
  intro n
  induction n with
  | zero => intro row s s1 cells _; rfl
  | succ n ih =>
    intro row s s1 cells hs
    obtain ⟨h1, h2⟩ := fillCols_shifted p row x y a b hq hx hy hxq p.types 0 s s1 cells hs
    simp only [fillRows, h1]
    exact ih _ _ _ _ h2

theorem peek_shifted (a b : List Char) (x y : Char) (s s1 : Nat)
    (hs : Shifted a.length s s1) : peek (a ++ x :: y :: b) s1 = peek (a ++ x :: b) s := by
  rcases hs with ⟨hle, h⟩ | ⟨hgt, h⟩ <;> subst s1
  · exact peek_inserted_le a b x y s hle
  · exact peek_inserted_gt a b x y s hgt

theorem peek_prev_shifted (a b : List Char) (x y : Char) (hx : x = CR ∨ x = LF)
    (hy : y = CR ∨ y = LF) (s s1 : Nat) (hs : Shifted a.length s s1) (h0 : s ≠ 0) :
    (peek (a ++ x :: y :: b) (s1 - 1) = NUL ↔ peek (a ++ x :: b) (s - 1) = NUL) := by
  have hxn : x ≠ NUL := by rcases hx with rfl | rfl <;> decide
  have hyn : y ≠ NUL := by rcases hy with rfl | rfl <;> decide
  rcases hs with ⟨hle, h⟩ | ⟨hgt, h⟩ <;> subst s1
  · rw [peek_inserted_le a b x y (s - 1) (by omega)]
  · rcases Nat.lt_or_ge (a.length + 1) s with h2 | h2
    · have e : s + 1 - 1 = (s - 1) + 1 := by omega
      rw [e, peek_inserted_gt a b x y (s - 1) (by omega)]
    · have e : s = a.length + 1 := by omega
      subst e
      have p1 : peek (a ++ x :: y :: b) (a.length + 1 + 1 - 1) = y := by
        have := peek_append_right a (x :: y :: b) 1
        simpa using this
      have p2 : peek (a ++ x :: b) (a.length + 1 - 1) = x := by
        have := peek_append_right a (x :: b) 0
        simpa using this
      rw [p1, p2]
      simp [hxn, hyn]

theorem CountRows_loop_shifted (p : Config) (x y : Char) (a b : List Char)
    (hq : p.quote_char ∉ a) (hx : x = CR ∨ x = LF) (hy : y = CR ∨ y = LF)
    (hxq : x ≠ p.quote_char) :
    ∀ (fuel s s1 count : Nat), Shifted a.length s s1 →
      (CountRows.loop p (a ++ x :: y :: b) fuel s1 count).map Prod.fst
        = (CountRows.loop p (a ++ x :: b) fuel s count).map Prod.fst := by
  intro fuel
  induction fuel with
  | zero => intro s s1 count _; rfl
  | succ f ih =>
    intro s s1 count hs
    have hpk := peek_shifted a b x y s s1 hs
    have hw : Shifted a.length (CountRows.cols p (a ++ x :: b) count p.types s)
        (CountRows.cols p (a ++ x :: y :: b) count p.types s1) := by
      rw [CountRows_cols_eq_walk, CountRows_cols_eq_walk]
      exact walk_shifted p.quote_char x y a b
        (fun ty sfx => ([], CountRows.len p ty count sfx))
        (fun ty => StopsAt_count p ty x count hx hxq) hq hx hy p.types s s1 hs
    rw [CountRows.loop, CountRows.loop, hpk]
    by_cases h0 : peek (a ++ x :: b) s = NUL
    · simp [h0]
    · simp only [h0, if_false]
      have hz : CountRows.cols p (a ++ x :: y :: b) count p.types s1 = 0 ↔
          CountRows.cols p (a ++ x :: b) count p.types s = 0 := by
        rcases hw with ⟨_, h⟩ | ⟨_, h⟩ <;> omega
      by_cases h1 : CountRows.cols p (a ++ x :: b) count p.types s = 0
      · simp [h1, hz.mpr h1]
      · have h1' : CountRows.cols p (a ++ x :: y :: b) count p.types s1 ≠ 0 :=
          fun e => h1 (hz.mp e)
        have hprev := peek_prev_shifted a b x y hx hy _ _ hw h1
        simp only [h1, h1', if_false]
        by_cases h2 : peek (a ++ x :: b) (CountRows.cols p (a ++ x :: b) count p.types s - 1)
            = NUL
        · simp [h2, hprev.mpr h2]
        · have h2' : ¬ peek (a ++ x :: y :: b)
              (CountRows.cols p (a ++ x :: y :: b) count p.types s1 - 1) = NUL :=
            fun e => h2 (hprev.mp e)
          simp only [h2, h2', if_false]
          exact ih _ _ _ hw

theorem CountRows_loop_mono (p : Config) (mem : List Char) :
    ∀ (fuel s count : Nat) (r : Nat × Nat), CountRows.loop p mem fuel s count = some r →
      CountRows.loop p mem (fuel + 1) s count = some r := by
  intro fuel
  induction fuel with
  | zero => intro s count r h; simp [CountRows.loop] at h
  | succ f ih =>
    intro s count r h
    rw [CountRows.loop] at h ⊢
    by_cases h0 : peek mem s = NUL
    · simpa [h0] using h
    · simp only [h0, if_false] at h ⊢
      by_cases h1 : CountRows.cols p mem count p.types s = 0
      · simp [h1] at h
      · simp only [h1, if_false] at h ⊢
        by_cases h2 : peek mem (CountRows.cols p mem count p.types s - 1) = NUL
        · simpa [h2] using h
        · simp only [h2, if_false] at h ⊢
          exact ih _ _ r h

theorem CountRows_inserted (p : Config) (hp : p.types ≠ []) (x y : Char) (a b : List Char)
    (hq : p.quote_char ∉ a) (hx : x = CR ∨ x = LF) (hy : y = CR ∨ y = LF)
    (hxq : x ≠ p.quote_char) :
    CountRows p (a ++ x :: y :: b) = CountRows p (a ++ x :: b) := by
  obtain ⟨r, hr⟩ := CountRows_loop_total p hp (a ++ x :: b) ((a ++ x :: b).length + 1) 0 0
    (by omega) (by omega)
  have hr2 := CountRows_loop_mono p _ _ 0 0 r hr
  have hsim := CountRows_loop_shifted p x y a b hq hx hy hxq ((a ++ x :: b).length + 1 + 1) 0 0 0
    (Or.inl ⟨Nat.zero_le _, rfl⟩)
  rw [hr2] at hsim
  have hlen : (a ++ x :: y :: b).length + 1 = (a ++ x :: b).length + 1 + 1 := by
    simp only [List.length_append, List.length_cons]
    omega
  cases h1 : CountRows.loop p (a ++ x :: y :: b) ((a ++ x :: b).length + 1 + 1) 0 0 with
  | none =>
    rw [h1] at hsim
    cases hsim
  | some r1 =>
    rw [h1] at hsim
    have hfst : r1.1 = r.1 := Option.some.inj hsim
    unfold CountRows
    rw [hlen, h1, hr]
    simp only [Option.map_some', hfst]

/-- C12: for every input without quote character and every format with at least one
column, inserting one more CR or LF right behind a CR or LF of the input changes neither
the result of `CountRows` nor the row count, the labels, the pointers and the cells of the
table the constructor builds. -/
theorem C12_blank_lines_absorbed (sz : Nat) (fmt : List Char) (hh : Bool) (d q x y : Char)
    (a b : List Char) (hp : fmt ≠ []) (hx : x = CR ∨ x = LF) (hy : y = CR ∨ y = LF)
    (hq : q ∉ a ++ x :: b) :
    CountRows ⟨fmt, hh, d, q, sz⟩ (a ++ x :: y :: b)
      = CountRows ⟨fmt, hh, d, q, sz⟩ (a ++ x :: b) ∧
    ∃ t t1, CSV_Parser sz (a ++ x :: b) fmt hh d q = some t ∧
      CSV_Parser sz (a ++ x :: y :: b) fmt hh d q = some t1 ∧
      t1.rows_count = t.rows_count ∧ t1.keys = t.keys ∧ t1.values = t.values ∧
      t1.cells = t.cells := by
  have hqa : q ∉ a := fun h => hq (by simp [h])
  have hxq : x ≠ q := fun e => hq (by simp [e])
  have hcount := CountRows_inserted ⟨fmt, hh, d, q, sz⟩ hp x y a b hqa hx hy hxq
  obtain ⟨t, rows, ht, hrows, _, hr, hkeys, hvals, hcells⟩ :=
    CSV_Parser_total sz (a ++ x :: b) fmt hh d q hp
  obtain ⟨t1, rows1, ht1, hrows1, _, hr1, hkeys1, hvals1, hcells1⟩ :=
    CSV_Parser_total sz (a ++ x :: y :: b) fmt hh d q hp
  have hrr : rows1 = rows := by
    rw [hcount, hrows] at hrows1
    exact (Option.some.inj hrows1).symm
  subst hrr
  obtain ⟨hk, hcur⟩ := headerLoop_shifted ⟨fmt, hh, d, q, sz⟩ rows1 x y a b hqa hx hy hxq
    fmt 0 0 0 (Or.inl ⟨Nat.zero_le _, rfl⟩)
  refine ⟨hcount, t, t1, ht, ht1, by rw [hr, hr1], by rw [hkeys, hkeys1, hk],
    by rw [hvals, hvals1], ?_⟩
  rw [hcells, hcells1]
  apply fillRows_shifted ⟨fmt, hh, d, q, sz⟩ x y a b hqa hx hy hxq
  cases hh with
  | false => exact Or.inl ⟨Nat.zero_le _, rfl⟩
  | true => simpa using hcur

/-- Witness of C12: a blank line between the two data lines of `a,b / 1,2 / 3,4`. -/
theorem C12_blank_lines_absorbed_witness :
    CountRows ⟨"LL".toList, true, ',', '"', 4⟩ "a,b\n1,2\n\n3,4\n".toList
      = CountRows ⟨"LL".toList, true, ',', '"', 4⟩ "a,b\n1,2\n3,4\n".toList ∧
    CountRows ⟨"LL".toList, true, ',', '"', 4⟩ "a,b\n1,2\n\n3,4\n".toList = some 2 :=
  ⟨(C12_blank_lines_absorbed 4 "LL".toList true ',' '"' LF LF "a,b\n1,2".toList "3,4\n".toList
      (by decide) (Or.inr rfl) (Or.inr rfl) (by decide)).1,
   by decide⟩

/-! ## Empty fields -/

theorem clean_strcspn (q d : Char) (t : List Char) (h : Clean q d t) :
    ∀ c ∈ t, c ≠ NUL ∧ c ∉ delim_chars d := by
  intro c hc
  have := h c hc
  simp [delim_chars, this]

theorem token_strcspn (q d : Char) (tok : List Char × Char) (rest : List Char)
    (h : TokenAt q d tok) :
    strcspn (tok.1 ++ tok.2 :: rest) (delim_chars d) = tok.1.length := by
  apply strcspn_append _ _ _ (clean_strcspn q d tok.1 h.1)
  refine Or.inr ⟨tok.2, rest, rfl, Or.inr ?_⟩
  rcases h.2.1 with e | e <;> simp [delim_chars, e]

theorem token_peek (q d : Char) (hdq : d ≠ q) (tok : List Char × Char) (rest : List Char)
    (h : TokenAt q d tok) : peek (tok.1 ++ tok.2 :: rest) 0 ≠ q := by
  cases ht : tok.1 with
  | nil =>
    rw [h.2.2 ht]
    simpa using hdq
  | cons c cs =>
    have := h.1 c (by simp [ht])
    simpa using this.2.2.2.2

theorem token_head (q d : Char) (hd : d ≠ NUL ∧ d ≠ CR ∧ d ≠ LF) (tok : List Char × Char)
    (rest : List Char) (h : TokenAt q d tok) :
    ∃ c cs, tok.1 ++ tok.2 :: rest = c :: cs ∧ c ≠ NUL ∧ c ≠ CR ∧ c ≠ LF := by
  cases ht : tok.1 with
  | nil =>
    refine ⟨tok.2, rest, rfl, ?_⟩
    rw [h.2.2 ht]
    exact hd
  | cons c cs =>
    have := h.1 c (by simp [ht])
    exact ⟨c, cs ++ tok.2 :: rest, rfl, this.1, this.2.1, this.2.2.1⟩

theorem token_ParseStringValue (q d : Char) (hdq : d ≠ q) (tok : List Char × Char)
    (rest : List Char) (h : TokenAt q d tok) :
    ParseStringValue q (tok.1 ++ tok.2 :: rest) (delim_chars d) = (tok.1, tok.1.length) := by
  rw [ParseStringValue_unquoted q _ _ (token_peek q d hdq tok rest h),
    token_strcspn q d tok rest h]
  simp

theorem RemoveEnclosingDoubleQuotes_nil (q : Char) : RemoveEnclosingDoubleQuotes q [] = [] := by
  by_cases h : NUL = q
  · simp [RemoveEnclosingDoubleQuotes, RemoveEnclosingDoubleQuotes.shift, cstr, h.symm]
  · simp [RemoveEnclosingDoubleQuotes, cstr, h]

theorem token_fillVal (p : Config) (hdq : p.delimiter ≠ p.quote_char) (ty : Char)
    (tok : List Char × Char) (rest : List Char) (h : TokenAt p.quote_char p.delimiter tok) :
    fillVal p ty (tok.1 ++ tok.2 :: rest) = (tok.1, tok.1.length) := by
  by_cases hs : ty = 's'
  · simp only [fillVal, hs, ne_eq, not_true_eq_false, if_false]
    exact token_ParseStringValue _ _ hdq tok rest h
  · have hn : NUL ∉ tok.1 := fun hm => (h.1 NUL hm).1 rfl
    simp only [fillVal, ne_eq, hs, not_false_eq_true, if_true, token_strcspn _ _ tok rest h,
      strndup, List.take_left']
    rw [cstr_of_not_mem _ hn]
    cases ht : tok.1 with
    | nil => rw [RemoveEnclosingDoubleQuotes_nil]
    | cons c cs =>
      rw [← ht, RemoveEnclosingDoubleQuotes_not_quoted _ _ hn]
      have := h.1 c (by simp [ht])
      rw [ht]
      simpa using this.2.2.2.2

theorem token_count (p : Config) (hdq : p.delimiter ≠ p.quote_char) (ty : Char) (count : Nat)
    (tok : List Char × Char) (rest : List Char) (h : TokenAt p.quote_char p.delimiter tok) :
    CountRows.len p ty count (tok.1 ++ tok.2 :: rest) = tok.1.length := by
  by_cases hs : ty = 's' ∨ (p.has_header = true ∧ count = 0)
  · simp only [CountRows.len, hs, if_true]
    rw [token_ParseStringValue _ _ hdq tok rest h]
  · simp only [CountRows.len, hs, if_false]
    exact token_strcspn _ _ tok rest h

theorem eolRun_of_head (l : List Char)
    (h : l = [] ∨ ∃ c cs, l = c :: cs ∧ c ≠ CR ∧ c ≠ LF) : eolRun l = 0 := by
  rcases h with rfl | ⟨c, cs, rfl, h1, h2⟩
  · rfl
  · simp [eolRun, h1, h2]

theorem renderToks_head (q d : Char) (hd : d ≠ NUL ∧ d ≠ CR ∧ d ≠ LF)
    (toks : List (List Char × Char)) (rest : List Char) (h : ∀ tok ∈ toks, TokenAt q d tok)
    (hrest : rest = [] ∨ ∃ c cs, rest = c :: cs ∧ c ≠ CR ∧ c ≠ LF) :
    renderToks toks ++ rest = [] ∨
      ∃ c cs, renderToks toks ++ rest = c :: cs ∧ c ≠ CR ∧ c ≠ LF := by
  cases toks with
  | nil => simpa [renderToks] using hrest
  | cons tok toks =>
    right
    obtain ⟨c, cs, he, _, h1, h2⟩ := token_head q d hd tok (renderToks toks ++ rest)
      (h tok (by simp))
    exact ⟨c, cs, by simpa [renderToks] using he, h1, h2⟩

/-- A column loop over a sequence of fields with their ending bytes: the cursor moves over
all of them. -/
theorem walk_toks (lenAt : Char → List Char → Nat) (q d : Char)
    (hd : d ≠ NUL ∧ d ≠ CR ∧ d ≠ LF) (mem : List Char)
    (hlen : ∀ (ty : Char) (tok : List Char × Char) (rest : List Char), TokenAt q d tok →
      lenAt ty (tok.1 ++ tok.2 :: rest) = tok.1.length) :
    ∀ (toks : List (List Char × Char)) (tys : List Char) (pre rest : List Char),
      toks.length = tys.length → (∀ tok ∈ toks, TokenAt q d tok) →
      mem = pre ++ (renderToks toks ++ rest) →
      (rest = [] ∨ ∃ c cs, rest = c :: cs ∧ c ≠ CR ∧ c ≠ LF) →
      walk lenAt mem tys pre.length = pre.length + (renderToks toks).length := by
  intro toks
  induction toks with
  | nil =>
    intro tys pre rest hl _ _ _
    cases tys with
    | nil => simp [walk, renderToks]
    | cons ty tys => simp at hl
  | cons tok toks ih =>
    intro tys pre rest hl htok hmem hrest
    cases tys with
    | nil => simp at hl
    | cons ty tys =>
      have hmem1 : mem = pre ++ (tok.1 ++ (tok.2 :: (renderToks toks ++ rest))) := by
        rw [hmem]; simp [renderToks]
      have hd1 : mem.drop pre.length = tok.1 ++ tok.2 :: (renderToks toks ++ rest) := by
        rw [hmem1]; exact List.drop_left _ _
      have hd2 : mem.drop (pre.length + tok.1.length + 1) = renderToks toks ++ rest := by
        rw [hmem1, ← List.drop_drop, drop_pre_append pre tok.1 _ _ rfl]
        rfl
      have he := eolRun_of_head _ (renderToks_head q d hd toks rest
        (fun t ht => htok t (by simp [ht])) hrest)
      have hmem2 : mem = (pre ++ (tok.1 ++ [tok.2])) ++ (renderToks toks ++ rest) := by
        rw [hmem1]; simp
      have hstep := ih tys (pre ++ (tok.1 ++ [tok.2])) rest (by simpa using hl)
        (fun t ht => htok t (by simp [ht])) hmem2 hrest
      have hl2 : (pre ++ (tok.1 ++ [tok.2])).length = pre.length + tok.1.length + 1 := by
        simp; omega
      rw [hl2] at hstep
      rw [walk]
      simp only [advance, hd1, hlen ty tok _ (htok tok (by simp)), hd2, he, Nat.add_zero,
        hstep, renderToks, List.length_append, List.length_cons]
      omega

/-- The fill pass over a sequence of fields with their ending bytes saves every text in
its column. -/
theorem fillCols_toks (p : Config) (hd : p.delimiter ≠ NUL ∧ p.delimiter ≠ CR ∧ p.delimiter ≠ LF)
    (hdq : p.delimiter ≠ p.quote_char) (mem : List Char) (row : Nat) :
    ∀ (toks : List (List Char × Char)) (tys : List Char) (pre rest : List Char) (col : Nat)
      (cells : Cells),
      toks.length = tys.length → (∀ tok ∈ toks, TokenAt p.quote_char p.delimiter tok) →
      mem = pre ++ (renderToks toks ++ rest) →
      (rest = [] ∨ ∃ c cs, rest = c :: cs ∧ c ≠ CR ∧ c ≠ LF) →
      (fillCols p mem row tys col pre.length cells).1
        = writeRow row tys (toks.map Prod.fst) col cells := by
  intro toks
  induction toks with
  | nil =>
    intro tys pre rest col cells hl _ _ _
    cases tys with
    | nil => simp [fillCols, writeRow]
    | cons ty tys => simp at hl
  | cons tok toks ih =>
    intro tys pre rest col cells hl htok hmem hrest
    cases tys with
    | nil => simp at hl
    | cons ty tys =>
      have hmem1 : mem = pre ++ (tok.1 ++ (tok.2 :: (renderToks toks ++ rest))) := by
        rw [hmem]; simp [renderToks]
      have hd1 : mem.drop pre.length = tok.1 ++ tok.2 :: (renderToks toks ++ rest) := by
        rw [hmem1]; exact List.drop_left _ _
      have hd2 : mem.drop (pre.length + tok.1.length + 1) = renderToks toks ++ rest := by
        rw [hmem1, ← List.drop_drop, drop_pre_append pre tok.1 _ _ rfl]
        rfl
      have he := eolRun_of_head _ (renderToks_head p.quote_char p.delimiter hd toks rest
        (fun t ht => htok t (by simp [ht])) hrest)
      have hmem2 : mem = (pre ++ (tok.1 ++ [tok.2])) ++ (renderToks toks ++ rest) := by
        rw [hmem1]; simp
      have hstep := ih tys (pre ++ (tok.1 ++ [tok.2])) rest (col + 1)
        (SaveNewValue cells tok.1 ty row col) (by simpa using hl)
        (fun t ht => htok t (by simp [ht])) hmem2 hrest
      have hl2 : (pre ++ (tok.1 ++ [tok.2])).length = pre.length + tok.1.length + 1 := by
        simp; omega
      rw [hl2] at hstep
      have hv := token_fillVal p hdq ty tok (renderToks toks ++ rest) (htok tok (by simp))
      rw [fillCols]
      simp only [hd1, hv, advance, hd2, he, Nat.add_zero, hstep, List.map_cons, writeRow]

theorem rowTokens_length (d : Char) :
    ∀ row : List (List Char), (rowTokens d row).length = row.length
  | [] => rfl
  | [_] => rfl
  | _ :: t2 :: ts => by simp [rowTokens, rowTokens_length d (t2 :: ts)]

theorem rowTokens_texts (d : Char) :
    ∀ row : List (List Char), (rowTokens d row).map Prod.fst = row
  | [] => rfl
  | [_] => rfl
  | _ :: t2 :: ts => by simp [rowTokens, rowTokens_texts d (t2 :: ts)]

theorem rowTokens_ok (q d : Char) :
    ∀ row : List (List Char), (∀ t ∈ row, Clean q d t) → row.getLast? ≠ some [] →
      ∀ tok ∈ rowTokens d row, TokenAt q d tok
  | [], _, _ => by simp [rowTokens]
  | [t], hc, hl => by
    intro tok htok
    simp only [rowTokens, List.mem_singleton] at htok
    subst htok
    refine ⟨hc t (by simp), Or.inr rfl, fun e => ?_⟩
    exact absurd (by simp [show t = [] from e]) hl
  | t :: t2 :: ts, hc, hl => by
    intro tok htok
    simp only [rowTokens, List.mem_cons] at htok
    rcases htok with rfl | htok
    · exact ⟨hc t (by simp), Or.inl rfl, fun _ => rfl⟩
    · exact rowTokens_ok q d (t2 :: ts) (fun x hx => hc x (by simp [hx]))
        (by simpa [List.getLast?_cons_cons] using hl) tok htok

theorem rowTokens_ends_with_LF (d : Char) :
    ∀ row : List (List Char), row ≠ [] →
      ∃ body, renderToks (rowTokens d row) = body ++ [LF]
  | [], h => absurd rfl h
  | [t], _ => ⟨t, by simp [rowTokens, renderToks]⟩
  | t :: t2 :: ts, _ => by
    obtain ⟨body, hb⟩ := rowTokens_ends_with_LF d (t2 :: ts) (by simp)
    exact ⟨t ++ d :: body, by simp [rowTokens, renderToks, hb]⟩

theorem RowFits.tokens {q d : Char} {tys : List Char} {row : List (List Char)}
    (h : RowFits q d tys row) :
    (rowTokens d row).length = tys.length ∧ ∀ tok ∈ rowTokens d row, TokenAt q d tok :=
  ⟨by rw [rowTokens_length, h.1], rowTokens_ok q d row h.2.1 h.2.2⟩

theorem delimitedText_head (q d : Char) (hd : d ≠ NUL ∧ d ≠ CR ∧ d ≠ LF) (tys : List Char)
    (htys : tys ≠ []) (rows : List (List (List Char))) (h : ∀ row ∈ rows, RowFits q d tys row) :
    rows = [] ∨ ∃ c cs, delimitedText d rows = c :: cs ∧ c ≠ NUL ∧ c ≠ CR ∧ c ≠ LF := by
  cases rows with
  | nil => exact Or.inl rfl
  | cons row rows =>
    right
    obtain ⟨hl, hok⟩ := (h row (by simp)).tokens
    cases htok : rowTokens d row with
    | nil =>
      rw [htok] at hl
      exact absurd (List.length_eq_zero.mp hl.symm) htys
    | cons tok toks =>
      obtain ⟨c, cs, he, h0, h1, h2⟩ := token_head q d hd tok
        (renderToks toks ++ delimitedText d rows) (hok tok (by simp [htok]))
      exact ⟨c, cs, by simpa [delimitedText, htok, renderToks] using he, h0, h1, h2⟩

theorem delimitedText_rest (q d : Char) (hd : d ≠ NUL ∧ d ≠ CR ∧ d ≠ LF) (tys : List Char)
    (htys : tys ≠ []) (rows : List (List (List Char))) (h : ∀ row ∈ rows, RowFits q d tys row) :
    delimitedText d rows = [] ∨ ∃ c cs, delimitedText d rows = c :: cs ∧ c ≠ CR ∧ c ≠ LF := by
  rcases delimitedText_head q d hd tys htys rows h with rfl | ⟨c, cs, he, _, h1, h2⟩
  · exact Or.inl rfl
  · exact Or.inr ⟨c, cs, he, h1, h2⟩

/-- One line with possibly empty fields moves the cursor of a column loop over the line. -/
theorem walk_row (lenAt : Char → List Char → Nat) (p : Config)
    (hd : p.delimiter ≠ NUL ∧ p.delimiter ≠ CR ∧ p.delimiter ≠ LF) (hp : p.types ≠ [])
    (hlen : ∀ (ty : Char) (tok : List Char × Char) (rest : List Char),
      TokenAt p.quote_char p.delimiter tok → lenAt ty (tok.1 ++ tok.2 :: rest) = tok.1.length)
    (mem pre : List Char) (row : List (List Char)) (rows : List (List (List Char)))
    (h : ∀ r ∈ row :: rows, RowFits p.quote_char p.delimiter p.types r)
    (hmem : mem = pre ++ delimitedText p.delimiter (row :: rows)) :
    walk lenAt mem p.types pre.length
      = pre.length + (renderToks (rowTokens p.delimiter row)).length := by
  obtain ⟨hl, hok⟩ := (h row (by simp)).tokens
  exact walk_toks lenAt p.quote_char p.delimiter hd mem hlen (rowTokens p.delimiter row)
    p.types pre (delimitedText p.delimiter rows) hl hok (by rw [hmem]; rfl)
    (delimitedText_rest p.quote_char p.delimiter hd p.types hp rows
      (fun r hr => h r (by simp [hr])))

theorem peek_before_row_end (d : Char) (pre rest : List Char) (row : List (List Char))
    (hrow : row ≠ []) :
    peek (pre ++ (renderToks (rowTokens d row) ++ rest))
      (pre.length + (renderToks (rowTokens d row)).length - 1) = LF := by
  obtain ⟨body, hb⟩ := rowTokens_ends_with_LF d row hrow
  rw [hb]
  have e : pre.length + (body ++ [LF]).length - 1 = pre.length + (body.length + 0) := by
    simp
  rw [e, peek_append_right, List.append_assoc, peek_append_right]
  simp

/-- The outer loop of `CountRows` on lines with possibly empty fields. -/
theorem CountRows_loop_rows (p : Config)
    (hd : p.delimiter ≠ NUL ∧ p.delimiter ≠ CR ∧ p.delimiter ≠ LF)
    (hdq : p.delimiter ≠ p.quote_char) (hp : p.types ≠ []) :
    ∀ (rows : List (List (List Char))) (pre : List Char) (count fuel : Nat) (mem : List Char),
      (∀ r ∈ rows, RowFits p.quote_char p.delimiter p.types r) → rows.length < fuel →
      mem = pre ++ delimitedText p.delimiter rows →
      CountRows.loop p mem fuel pre.length count
        = some (count + rows.length, pre.length + (delimitedText p.delimiter rows).length) := by
  intro rows
  induction rows with
  | nil =>
    intro pre count fuel mem _ hfuel hmem
    obtain ⟨f, rfl⟩ : ∃ f, fuel = f + 1 := ⟨fuel - 1, by simp at hfuel; omega⟩
    have h0 : peek mem pre.length = NUL := by
      apply peek_of_length_le; simp [hmem, delimitedText]
    simp [CountRows.loop, h0, delimitedText]
  | cons row rows ih =>
    intro pre count fuel mem h hfuel hmem
    obtain ⟨f, rfl⟩ : ∃ f, fuel = f + 1 := ⟨fuel - 1, by simp at hfuel; omega⟩
    have hrow : row ≠ [] := by
      intro e
      have := (h row (by simp)).1
      rw [e] at this
      exact hp (List.length_eq_zero.mp this.symm)
    have hstart : peek mem pre.length ≠ NUL := by
      rcases delimitedText_head p.quote_char p.delimiter hd p.types hp (row :: rows) h with
        h1 | ⟨c, cs, h1, h0, _, _⟩
      · exact absurd h1 (by simp)
      · rw [hmem, h1]
        have := peek_append_right pre (c :: cs) 0
        simp only [Nat.add_zero, peek_cons_zero] at this
        rw [this]; exact h0
    have hwalk := walk_row (fun ty sfx => CountRows.len p ty count sfx) p hd hp
      (fun ty tok rest ht => token_count p hdq ty count tok rest ht) mem pre row rows h hmem
    obtain ⟨body, hb⟩ := rowTokens_ends_with_LF p.delimiter row hrow
    have hpos : 0 < (renderToks (rowTokens p.delimiter row)).length := by
      rw [hb]; simp
    have hprev : peek mem (pre.length + (renderToks (rowTokens p.delimiter row)).length - 1)
        ≠ NUL := by
      rw [hmem]
      show peek (pre ++ (renderToks (rowTokens p.delimiter row)
        ++ delimitedText p.delimiter rows)) _ ≠ NUL
      rw [peek_before_row_end p.delimiter pre _ row hrow]
      exact LF_ne_NUL
    have hne : pre.length + (renderToks (rowTokens p.delimiter row)).length ≠ 0 := by omega
    have hmem2 : mem = (pre ++ renderToks (rowTokens p.delimiter row))
        ++ delimitedText p.delimiter rows := by
      rw [hmem]; simp [delimitedText]
    have hrec := ih (pre ++ renderToks (rowTokens p.delimiter row)) (count + 1) f mem
      (fun r hr => h r (by simp [hr])) (by simp at hfuel; omega) hmem2
    rw [List.length_append] at hrec
    rw [CountRows.loop]
    simp only [hstart, if_false, CountRows_cols_eq_walk, hwalk, hne, hprev, hrec,
      Option.some.injEq, Prod.mk.injEq, delimitedText, List.length_append, List.length_cons]
    omega

/-- The row loop of the fill pass on lines with possibly empty fields. -/
theorem fillRows_rows (p : Config)
    (hd : p.delimiter ≠ NUL ∧ p.delimiter ≠ CR ∧ p.delimiter ≠ LF)
    (hdq : p.delimiter ≠ p.quote_char) (hp : p.types ≠ []) (mem : List Char) :
    ∀ (rows : List (List (List Char))) (pre : List Char) (row0 : Nat) (cells : Cells),
      (∀ r ∈ rows, RowFits p.quote_char p.delimiter p.types r) →
      mem = pre ++ delimitedText p.delimiter rows →
      (fillRows p mem rows.length row0 pre.length cells).1
        = writeRows p.types rows row0 cells := by
  intro rows
  induction rows with
  | nil => intro pre row0 cells _ _; simp [fillRows, writeRows]
  | cons row rows ih =>
    intro pre row0 cells h hmem
    obtain ⟨hl, hok⟩ := (h row (by simp)).tokens
    have hcur := fillCols_cursor p mem row0 p.types 0 pre.length cells
    rw [walk_row (fun ty sfx => (fillVal p ty sfx).2) p hd hp
      (fun ty tok rest ht => by
        show (fillVal p ty (tok.1 ++ tok.2 :: rest)).2 = _
        rw [token_fillVal p hdq ty tok rest ht]) mem pre row rows h hmem] at hcur
    have hval := fillCols_toks p hd hdq mem row0 (rowTokens p.delimiter row) p.types pre
      (delimitedText p.delimiter rows) 0 cells hl hok (by rw [hmem]; rfl)
      (delimitedText_rest p.quote_char p.delimiter hd p.types hp rows
        (fun r hr => h r (by simp [hr])))
    rw [rowTokens_texts] at hval
    have hmem2 : mem = (pre ++ renderToks (rowTokens p.delimiter row))
        ++ delimitedText p.delimiter rows := by
      rw [hmem]; simp [delimitedText]
    have hrec := ih (pre ++ renderToks (rowTokens p.delimiter row)) (row0 + 1)
      (writeRow row0 p.types row 0 cells) (fun r hr => h r (by simp [hr])) hmem2
    rw [List.length_append] at hrec
    simp only [List.length_cons, fillRows, writeRows]
    rw [hcur, hval]
    exact hrec

theorem delimitedText_length (q d : Char) (tys : List Char) (htys : tys ≠ []) :
    ∀ rows : List (List (List Char)), (∀ row ∈ rows, RowFits q d tys row) →
      rows.length ≤ (delimitedText d rows).length
  | [], _ => by simp
  | row :: rows, h => by
    have hrow : row ≠ [] := by
      intro e
      have := (h row (by simp)).1
      rw [e] at this
      exact htys (List.length_eq_zero.mp this.symm)
    obtain ⟨body, hb⟩ := rowTokens_ends_with_LF d row hrow
    have ih := delimitedText_length q d tys htys rows (fun r hr => h r (by simp [hr]))
    simp only [delimitedText, List.length_append, List.length_cons, hb, List.length_nil]
    omega

/-- The table built from lines whose fields may be empty, except the last field of a line:
every field is stored at its own line and column. -/
theorem empty_fields_table (sz : Nat) (fmt : List Char) (hh : Bool) (d q : Char)
    (rows : List (List (List Char))) (hC : 1 ≤ fmt.length) (hR : 1 ≤ rows.length)
    (hd : d ≠ NUL ∧ d ≠ CR ∧ d ≠ LF) (hdq : d ≠ q)
    (hrows : ∀ row ∈ rows, RowFits q d fmt row) :
    ∃ t, CSV_Parser sz (delimitedText d rows) fmt hh d q = some t ∧
      t.rows_count = (rows.length : Int) - (if hh then 1 else 0) ∧
      ∀ j r, t.cells j r = cellOf fmt (rows.drop (if hh then 1 else 0)) j r := by
  have hp : fmt ≠ [] := by
    intro h; rw [h] at hC; simp at hC
  obtain ⟨t, n, ht, hn, _, hrc, _, _, hcells⟩ :=
    CSV_Parser_total sz (delimitedText d rows) fmt hh d q hp
  have hloop := CountRows_loop_rows ⟨fmt, hh, d, q, sz⟩ hd hdq hp rows [] 0
    ((delimitedText d rows).length + 1) (delimitedText d rows) hrows
    (by have := delimitedText_length q d fmt hp rows hrows; omega) rfl
  have hn2 : n = (rows.length : Int) - (if hh then 1 else 0) := by
    simp only [CountRows, List.length_nil] at hn hloop
    rw [hloop] at hn
    simp only [Option.map_some', Option.some.injEq, Nat.zero_add] at hn
    exact hn.symm
  refine ⟨t, ht, by rw [hrc, hn2], ?_⟩
  intro j r
  rw [hcells, ← writeRows_none]
  cases rows with
  | nil => simp at hR
  | cons row rest =>
    cases hh with
    | false =>
      have hf := fillRows_rows ⟨fmt, false, d, q, sz⟩ hd hdq hp (delimitedText d (row :: rest))
        (row :: rest) [] 0 (fun _ _ => none) hrows rfl
      have e : n.toNat = (row :: rest).length := by rw [hn2]; simp
      simp only [List.length_nil] at hf
      simp only [Bool.false_eq_true, if_false, List.drop_zero, e, hf]
    | true =>
      have hcur := headerLoop_cursor ⟨fmt, true, d, q, sz⟩ (delimitedText d (row :: rest)) n fmt
        0 0
      have hw := walk_row
        (fun _ sfx => (ParseStringValue q sfx (delim_chars d)).2) ⟨fmt, true, d, q, sz⟩ hd hp
        (fun ty tok rst htok => by
          show (ParseStringValue q (tok.1 ++ tok.2 :: rst) (delim_chars d)).2 = _
          rw [token_ParseStringValue q d hdq tok rst htok])
        (delimitedText d (row :: rest)) [] row rest hrows rfl
      simp only [List.length_nil, Nat.zero_add] at hw
      have hs : (headerLoop ⟨fmt, true, d, q, sz⟩ (delimitedText d (row :: rest)) n fmt 0 0).2.2
          = (renderToks (rowTokens d row)).length := by
        rw [hcur]; exact hw
      have hf := fillRows_rows ⟨fmt, true, d, q, sz⟩ hd hdq hp (delimitedText d (row :: rest))
        rest (renderToks (rowTokens d row)) 0 (fun _ _ => none)
        (fun r hr => hrows r (by simp [hr])) rfl
      have e : n.toNat = rest.length := by
        rw [hn2]; simp
      simp only [if_true, List.drop_succ_cons, List.drop_zero, e, hs, hf]

/-- Claim C18 (the code at the failing inputs): an empty last field of a line is not stored
at its own position. After the delimiter the cursor also skips the line ending, so the next
field is taken from the following line. On `a,b / 1, / 3,4` with format `LL` and a header the
row count is 2, column 0 holds `[1, 4]` and column 1 holds `[3, 0]`, where the claim asks for
`[1, 3]` and `[0, 4]`. On `a,b / 1, / 3,` (every read inside the input) the row count is 1
where the claim asks for 2, and the only row holds 1 and 3. -/
theorem C18_empty_last_field_absorbed :
    (CSV_Parser 4 "a,b\n1,\n3,4\n".toList "LL".toList true ',' '"').map
        (fun t => (t.rows_count, [t.cells 0 0, t.cells 0 1], [t.cells 1 0, t.cells 1 1]))
      = some (2, [some (Value.i32 1), some (Value.i32 4)],
          [some (Value.i32 3), some (Value.i32 0)]) ∧
    (CSV_Parser 4 "a,b\n1,\n3,\n".toList "LL".toList true ',' '"').map
        (fun t => (t.rows_count, [t.cells 0 0, t.cells 0 1], [t.cells 1 0, t.cells 1 1]))
      = some (1, [some (Value.i32 1), none], [some (Value.i32 3), none]) := by
  decide

/-! ## Documents whose lines all have their ending, with any memory behind the terminator -/

theorem rest_of_peek_nul (rest : List Char) (h : peek rest 0 = NUL) :
    rest = [] ∨ ∃ c cs, rest = c :: cs ∧ c ≠ CR ∧ c ≠ LF := by
  cases rest with
  | nil => exact Or.inl rfl
  | cons c cs =>
    rw [peek_cons_zero] at h
    exact Or.inr ⟨c, cs, rfl, by rw [h]; decide, by rw [h]; decide⟩

/-- What follows a line of a document: nothing, or a byte that is neither CR nor LF. -/
theorem renderDoc_rest (p : Config) (ls : List Line) (rest : List Char) (hp : p.types ≠ [])
    (h : DocOK p false ls)
    (hrest : rest = [] ∨ ∃ c cs, rest = c :: cs ∧ c ≠ CR ∧ c ≠ LF) :
    (renderDoc p.quote_char p.delimiter ls ++ rest) = [] ∨
      ∃ c cs, (renderDoc p.quote_char p.delimiter ls ++ rest) = c :: cs ∧ c ≠ CR ∧ c ≠ LF := by
  rcases renderDoc_head p false ls hp h with h0 | ⟨c, cs, h0, _, h1, h2⟩
  · subst h0
    simpa [renderDoc] using hrest
  · right
    exact ⟨c, cs ++ rest, by rw [h0]; rfl, h1, h2⟩

/-- One line with its ending moves the cursor of a column loop to the start of the next
line, whatever follows the document. -/
theorem walk_ended_line (lenAt : Char → List Char → Nat) (p : Config) (hdr : Bool)
    (mem pre rest : List Char) (l : Line) (ls : List Line) (hp : p.types ≠ [])
    (hdoc : DocOK p hdr (l :: ls)) (he : l.ending ≠ [])
    (hm : Measured lenAt p.quote_char p.delimiter l.fields p.types)
    (hrest : rest = [] ∨ ∃ c cs, rest = c :: cs ∧ c ≠ CR ∧ c ≠ LF)
    (hmem : mem = pre ++ (renderDoc p.quote_char p.delimiter (l :: ls) ++ rest)) :
    walk lenAt mem p.types pre.length
      = pre.length + (l.render p.quote_char p.delimiter).length := by
  have hl := hdoc.head
  obtain ⟨x, run, hx⟩ := List.exists_cons_of_ne_nil he
  cases hf : l.fields with
  | nil =>
    rw [hf] at hm
    cases hty : p.types with
    | nil => exact absurd hty hp
    | cons ty tys => rw [hty] at hm; exact absurd hm (by simp [Measured])
  | cons f fs =>
    cases hty : p.types with
    | nil => exact absurd hty hp
    | cons ty tys =>
      rw [hf, hty] at hm
      have hmem1 : mem = pre ++ (renderFields p.quote_char p.delimiter (f :: fs)
          ++ (x :: (run ++ (renderDoc p.quote_char p.delimiter ls ++ rest)))) := by
        rw [hmem]; simp [renderDoc, Line.render, hf, hx]
      have hw := walk_line lenAt p.quote_char p.delimiter mem fs f tys ty pre _ hm hmem1
        (Or.inr ⟨x, _, rfl, hl.2 x (by simp [hx])⟩)
      rw [hw]
      have hrun : eolRun (run ++ (renderDoc p.quote_char p.delimiter ls ++ rest))
          = run.length :=
        eolRun_run run _ (fun c hc => hl.2 c (by simp [hx, hc]))
          (renderDoc_rest p ls rest hp hdoc.tail hrest)
      simp only [List.drop_succ_cons, List.drop_zero, hrun, Line.render, hf, hx,
        List.length_append, List.length_cons]
      omega

/-- The outer loop of `CountRows` on a document whose lines all have their ending: one
row per line, and the loop stops with the cursor on the terminator, whatever lies behind
the terminator. -/
theorem CountRows_loop_ended (p : Config) (hp : p.types ≠ []) :
    ∀ (ls : List Line) (hdr : Bool) (pre : List Char) (count fuel : Nat)
      (mem rest : List Char),
      DocOK p hdr ls → (∀ l ∈ ls, l.ending ≠ []) →
      (hdr = true → p.has_header = true ∧ count = 0) → ls.length < fuel →
      peek rest 0 = NUL → mem = pre ++ (renderDoc p.quote_char p.delimiter ls ++ rest) →
      CountRows.loop p mem fuel pre.length count
        = some (count + ls.length,
            pre.length + (renderDoc p.quote_char p.delimiter ls).length) := by
  intro ls
  induction ls with
  | nil =>
    intro hdr pre count fuel mem rest _ _ _ hfuel hrest hmem
    obtain ⟨f, rfl⟩ : ∃ f, fuel = f + 1 := ⟨fuel - 1, by simp at hfuel; omega⟩
    have h0 : peek mem pre.length = NUL := by
      have := peek_append_right pre rest 0
      rw [hmem]
      simpa [renderDoc, hrest] using this
    simp [CountRows.loop, h0, renderDoc]
  | cons l ls ih =>
    intro hdr pre count fuel mem rest hdoc hend hh hfuel hrest hmem
    obtain ⟨f, rfl⟩ : ∃ f, fuel = f + 1 := ⟨fuel - 1, by simp at hfuel; omega⟩
    have he : l.ending ≠ [] := hend l (by simp)
    have hstart : peek mem pre.length ≠ NUL := by
      rcases renderDoc_head p hdr (l :: ls) hp hdoc with h | ⟨c, cs, h, h0, _, _⟩
      · exact absurd h (by simp)
      · rw [hmem, h]
        have := peek_append_right pre (c :: cs ++ rest) 0
        simp only [Nat.add_zero, List.cons_append, peek_cons_zero] at this
        rw [List.cons_append, this]; exact h0
    have hwalk := walk_ended_line (fun ty sfx => CountRows.len p ty count sfx) p hdr mem pre
      rest l ls hp hdoc he (hdoc.head.1.measured_count count hh) (rest_of_peek_nul rest hrest)
      hmem
    have hmem2 : mem = (pre ++ l.render p.quote_char p.delimiter)
        ++ (renderDoc p.quote_char p.delimiter ls ++ rest) := by
      rw [hmem]; simp [renderDoc]
    have hnz : peek mem (pre.length + (l.render p.quote_char p.delimiter).length - 1)
        ≠ NUL := by
      have hm3 : mem = pre ++ (l.render p.quote_char p.delimiter
          ++ (renderDoc p.quote_char p.delimiter ls ++ rest)) := by
        rw [hmem]; simp [renderDoc]
      rw [hm3]
      exact peek_before_line_end _ _ pre _ l he hdoc.head.2
    have hne : pre.length + (l.render p.quote_char p.delimiter).length ≠ 0 := by
      have : 0 < l.ending.length := List.length_pos.mpr he
      simp only [Line.render, List.length_append]; omega
    have hrec := ih false (pre ++ l.render p.quote_char p.delimiter) (count + 1) f mem rest
      hdoc.tail (fun x hx => hend x (by simp [hx])) (by simp) (by simp at hfuel; omega)
      hrest hmem2
    rw [List.length_append] at hrec
    rw [CountRows.loop]
    simp only [hstart, if_false, CountRows_cols_eq_walk, hwalk, hne, hnz, hrec,
      Option.some.injEq, Prod.mk.injEq, renderDoc, List.length_append, List.length_cons]
    omega

/-- The column loop of the fill pass on one line with its ending, whatever follows the
document. -/
theorem fillCols_ended_line (p : Config) (hp : p.types ≠ []) (mem pre rest : List Char)
    (l : Line) (ls : List Line) (row : Nat) (cells : Cells) (hdoc : DocOK p false (l :: ls))
    (he : l.ending ≠ [])
    (hrest : rest = [] ∨ ∃ c cs, rest = c :: cs ∧ c ≠ CR ∧ c ≠ LF)
    (hmem : mem = pre ++ (renderDoc p.quote_char p.delimiter (l :: ls) ++ rest)) :
    fillCols p mem row p.types 0 pre.length cells
      = (writeRow row p.types l.texts 0 cells,
         pre.length + (l.render p.quote_char p.delimiter).length) := by
  have hcur := fillCols_cursor p mem row p.types 0 pre.length cells
  rw [walk_ended_line _ p false mem pre rest l ls hp hdoc he hdoc.head.1.measured_fill hrest
    hmem] at hcur
  have hfit := hdoc.head.1
  obtain ⟨x, run, hx⟩ := List.exists_cons_of_ne_nil he
  cases hty : p.types with
  | nil => exact absurd hty hp
  | cons ty tys =>
    rw [hty] at hfit hcur
    obtain ⟨f, fs, hf⟩ := hfit.cons_of_types
    rw [hf] at hfit
    have hmem1 : mem = pre ++ (renderFields p.quote_char p.delimiter (f :: fs)
        ++ (x :: (run ++ (renderDoc p.quote_char p.delimiter ls ++ rest)))) := by
      rw [hmem]; simp [renderDoc, Line.render, hf, hx]
    have h1 := fillCols_line p mem row fs f tys ty pre _ 0 cells hfit hmem1
      (Or.inr ⟨x, _, rfl, hdoc.head.2 x (by simp [hx])⟩)
    apply Prod.ext
    · simp only [h1, Line.texts, hf]
    · exact hcur

/-- The row loop of the fill pass on a document whose lines all have their ending: the
cells of every line are written and the cursor ends behind the last line ending. -/
theorem fillRows_ended (p : Config) (hp : p.types ≠ []) (mem rest : List Char)
    (hrest : rest = [] ∨ ∃ c cs, rest = c :: cs ∧ c ≠ CR ∧ c ≠ LF) :
    ∀ (ls : List Line) (pre : List Char) (row : Nat) (cells : Cells),
      DocOK p false ls → (∀ l ∈ ls, l.ending ≠ []) →
      mem = pre ++ (renderDoc p.quote_char p.delimiter ls ++ rest) →
      fillRows p mem ls.length row pre.length cells
        = (writeRows p.types (ls.map Line.texts) row cells,
           pre.length + (renderDoc p.quote_char p.delimiter ls).length) := by
  intro ls
  induction ls with
  | nil => intro pre row cells _ _ _; simp [fillRows, writeRows, renderDoc]
  | cons l ls ih =>
    intro pre row cells hdoc hend hmem
    have hline := fillCols_ended_line p hp mem pre rest l ls row cells hdoc
      (hend l (by simp)) hrest hmem
    have hmem2 : mem = (pre ++ l.render p.quote_char p.delimiter)
        ++ (renderDoc p.quote_char p.delimiter ls ++ rest) := by
      rw [hmem]; simp [renderDoc]
    have hrec := ih (pre ++ l.render p.quote_char p.delimiter) (row + 1)
      (writeRow row p.types l.texts 0 cells) hdoc.tail (fun x hx => hend x (by simp [hx]))
      hmem2
    rw [List.length_append] at hrec
    simp only [List.length_cons, fillRows, hline, List.map_cons, writeRows, hrec, renderDoc,
      List.length_append, Prod.mk.injEq, true_and]
    omega

/-- The header loop on the first line of a document, when that line has its ending. -/
theorem headerLoop_ended (p : Config) (hp : p.types ≠ []) (mem pre rest : List Char)
    (rows : Int) (hdr : Bool) (l : Line) (ls : List Line) (hdoc : DocOK p hdr (l :: ls))
    (he : l.ending ≠ [])
    (hrest : rest = [] ∨ ∃ c cs, rest = c :: cs ∧ c ≠ CR ∧ c ≠ LF)
    (hmem : mem = pre ++ (renderDoc p.quote_char p.delimiter (l :: ls) ++ rest)) :
    headerLoop p mem rows p.types 0 pre.length
      = (labels p p.types l.fields, blocks p rows p.types 0,
         pre.length + (l.render p.quote_char p.delimiter).length) := by
  have hcur := headerLoop_cursor p mem rows p.types 0 pre.length
  rw [walk_ended_line _ p hdr mem pre rest l ls hp hdoc he hdoc.head.1.measured_string hrest
    hmem] at hcur
  have hval := headerLoop_values p mem rows p.types 0 pre.length
  have hfit := hdoc.head.1
  obtain ⟨x, run, hx⟩ := List.exists_cons_of_ne_nil he
  cases hty : p.types with
  | nil => exact absurd hty hp
  | cons ty tys =>
    rw [hty] at hfit hcur hval
    obtain ⟨f, fs, hf⟩ := hfit.cons_of_types
    rw [hf] at hfit
    have hmem1 : mem = pre ++ (renderFields p.quote_char p.delimiter (f :: fs)
        ++ (x :: (run ++ (renderDoc p.quote_char p.delimiter ls ++ rest)))) := by
      rw [hmem]; simp [renderDoc, Line.render, hf, hx]
    have h1 := headerLoop_line p mem rows hdr fs f tys ty pre _ 0 hfit hmem1
      (Or.inr ⟨x, _, rfl, hdoc.head.2 x (by simp [hx])⟩)
    apply Prod.ext
    · simp only [h1, hf]
    · apply Prod.ext
      · exact hval
      · exact hcur

/-- The row counter on a document whose lines all have their ending: `R - has_header`,
whatever lies behind the terminator. -/
theorem CountRows_ended_doc (p : Config) (hp : p.types ≠ []) (ls : List Line)
    (junk : List Char) (hdoc : DocOK p p.has_header ls) (hend : ∀ l ∈ ls, l.ending ≠ []) :
    CountRows.loop p (renderDoc p.quote_char p.delimiter ls ++ NUL :: junk)
        ((renderDoc p.quote_char p.delimiter ls ++ NUL :: junk).length + 1) 0 0
      = some (ls.length, (renderDoc p.quote_char p.delimiter ls).length) ∧
    CountRows p (renderDoc p.quote_char p.delimiter ls ++ NUL :: junk)
      = some ((ls.length : Int) - (if p.has_header then 1 else 0)) := by
  have hlen := length_le_renderDoc p hp ls _ hdoc
  have h := CountRows_loop_ended p hp ls p.has_header [] 0
    ((renderDoc p.quote_char p.delimiter ls ++ NUL :: junk).length + 1)
    (renderDoc p.quote_char p.delimiter ls ++ NUL :: junk) (NUL :: junk) hdoc hend
    (fun e => ⟨e, rfl⟩) (by simp only [List.length_append]; omega) rfl (by simp)
  simp only [List.length_nil, Nat.zero_add] at h
  refine ⟨h, ?_⟩
  unfold CountRows
  rw [h]
  rfl

/-- The table the constructor builds from a document whose lines all have their ending,
whatever lies behind the terminator: `R - has_header` rows, the labels of the first line,
the texts of the data lines converted cell by cell, and the cursor of the fill pass ends
on the terminator. -/
theorem CSV_Parser_ended_doc (sz : Nat) (fmt : List Char) (hh : Bool) (d q : Char) (l : Line)
    (ls : List Line) (junk : List Char) (hp : fmt ≠ [])
    (hdoc : DocOK ⟨fmt, hh, d, q, sz⟩ hh (l :: ls)) (hend : ∀ x ∈ l :: ls, x.ending ≠ []) :
    ∃ t, CSV_Parser sz (renderDoc q d (l :: ls) ++ NUL :: junk) fmt hh d q = some t ∧
      t.rows_count = ((l :: ls).length : Int) - (if hh then 1 else 0) ∧
      t.keys = labels ⟨fmt, hh, d, q, sz⟩ fmt l.fields ∧
      t.cells = writeRows fmt ((if hh then ls else l :: ls).map Line.texts) 0
        (fun _ _ => none) ∧
      (fillRows ⟨fmt, hh, d, q, sz⟩ (renderDoc q d (l :: ls) ++ NUL :: junk)
          t.rows_count.toNat 0
          (if hh then
            (headerLoop ⟨fmt, hh, d, q, sz⟩ (renderDoc q d (l :: ls) ++ NUL :: junk)
              t.rows_count fmt 0 0).2.2
           else 0)
          (fun _ _ => none)).2 = (renderDoc q d (l :: ls)).length := by
  have hrest : (NUL :: junk) = [] ∨ ∃ c cs, (NUL :: junk) = c :: cs ∧ c ≠ CR ∧ c ≠ LF :=
    rest_of_peek_nul (NUL :: junk) rfl
  obtain ⟨t, n, ht, hn, _, hrc, hkeys, _, hcells⟩ :=
    CSV_Parser_total sz (renderDoc q d (l :: ls) ++ NUL :: junk) fmt hh d q hp
  have hcount := (CountRows_ended_doc ⟨fmt, hh, d, q, sz⟩ hp (l :: ls) junk hdoc hend).2
  have hn2 : n = ((l :: ls).length : Int) - (if hh then 1 else 0) := by
    rw [hcount] at hn
    exact (Option.some.inj hn).symm
  have hhead := headerLoop_ended ⟨fmt, hh, d, q, sz⟩ hp
    (renderDoc q d (l :: ls) ++ NUL :: junk) [] (NUL :: junk) n hh l ls hdoc
    (hend l (by simp)) hrest (by simp)
  simp only [List.length_nil, Nat.zero_add] at hhead
  subst hrc
  refine ⟨t, ht, hn2, by rw [hkeys, hhead], ?_⟩
  cases hh with
  | false =>
    have hf := fillRows_ended ⟨fmt, false, d, q, sz⟩ hp
      (renderDoc q d (l :: ls) ++ NUL :: junk) (NUL :: junk) hrest (l :: ls) [] 0
      (fun _ _ => none) hdoc hend (by simp)
    have e : t.rows_count.toNat = (l :: ls).length := by rw [hn2]; simp
    simp only [List.length_nil, Nat.zero_add] at hf
    simp only [Bool.false_eq_true, if_false, hcells, e, hf, and_self]
  | true =>
    have hmem : renderDoc q d (l :: ls) ++ NUL :: junk
        = l.render q d ++ (renderDoc q d ls ++ NUL :: junk) := by
      simp [renderDoc]
    have hf := fillRows_ended ⟨fmt, true, d, q, sz⟩ hp
      (renderDoc q d (l :: ls) ++ NUL :: junk) (NUL :: junk) hrest ls (l.render q d) 0
      (fun _ _ => none) hdoc.tail (fun x hx => hend x (by simp [hx])) hmem
    have e : t.rows_count.toNat = ls.length := by rw [hn2]; simp
    have hlen : (renderDoc q d (l :: ls)).length
        = (l.render q d).length + (renderDoc q d ls).length := by
      simp [renderDoc]
    rw [hcells, hlen]
    simp only [if_true, e, hhead, hf, and_self]

/-- The row counter on a plain document whose lines all have their ending returns
`R - has_header`, whatever lies behind the terminator. -/
theorem CountRows_plain_ended (p : Config) (lines : List (List (List Char) × List Char))
    (junk : List Char) (hC : 1 ≤ p.types.length) (hdoc : PlainDoc p lines)
    (hend : ∀ l ∈ lines, l.2 ≠ []) :
    CountRows p (plainText p lines ++ NUL :: junk)
      = some ((lines.length : Int) - (if p.has_header then 1 else 0)) := by
  have hp : p.types ≠ [] := by
    intro h; rw [h] at hC; simp at hC
  have hd := hdoc.docOK p lines p.has_header
  have he : ∀ l ∈ plainLines lines, l.ending ≠ [] := by
    intro l hl
    simp only [plainLines, List.mem_map] at hl
    obtain ⟨x, hx, rfl⟩ := hl
    exact hend x hx
  have h := (CountRows_ended_doc p hp (plainLines lines) junk hd he).2
  simpa [plainText, plainLines] using h

/-- C2 fails on the code: the input `5 / 6` has two lines and no final line ending. After
the last field the cursor steps over the terminator at offset 3 and the line-ending loop
reads the byte at offset 4. When the memory behind the terminator holds LF `7` LF, the
row counter goes on and returns 3 for the format `L` without header, where the input has
2 lines; with zero bytes behind the terminator it returns 2. Both memories hold the same
C string. -/
theorem C2_row_count_reads_behind_terminator :
    CountRows ⟨"L".toList, false, ',', '"', 4⟩
        ("5\n6".toList ++ NUL :: ("\n7\n".toList ++ [NUL])) = some 3 ∧
    CountRows ⟨"L".toList, false, ',', '"', 4⟩ ("5\n6".toList ++ [NUL, NUL]) = some 2 ∧
    cstr ("5\n6".toList ++ NUL :: ("\n7\n".toList ++ [NUL])) = "5\n6".toList ∧
    cstr ("5\n6".toList ++ [NUL, NUL]) = "5\n6".toList := by
  decide

/-- C11 fails on the code in its last clause: on the input `5 / 6` without final line
ending (format `L`, no header, terminator at offset 3) both passes end with the cursor at
offset 4, so the byte behind the terminator is read by the line-ending loop. When that
memory holds LF `7` LF both passes go on behind the terminator: the row counter stops at
offset 7 with 3 rows and the fill pass stores 7, a value that is not in the input, in
row 2. -/
theorem C11_passes_read_behind_terminator :
    CountRows.loop ⟨"L".toList, false, ',', '"', 4⟩ ("5\n6".toList ++ [NUL, NUL]) 6 0 0
      = some (2, 4) ∧
    (fillRows ⟨"L".toList, false, ',', '"', 4⟩ ("5\n6".toList ++ [NUL, NUL]) 2 0 0
      (fun _ _ => none)).2 = 4 ∧
    "5\n6".toList.length = 3 ∧
    CountRows.loop ⟨"L".toList, false, ',', '"', 4⟩
        ("5\n6".toList ++ NUL :: ("\n7\n".toList ++ [NUL])) 9 0 0 = some (3, 7) ∧
    (CSV_Parser 4 ("5\n6".toList ++ NUL :: ("\n7\n".toList ++ [NUL])) "L".toList false ','
        '"').map (fun t => (t.rows_count, t.cells 0 2))
      = some (3, some (Value.i32 7)) := by
  decide

/-- C20 fails on the code: the input `a` has one field and one byte, the format `LL` has
two columns. The second field of the first row is scanned behind the terminator at
offset 1 (the cursor after the first row is 5), and the exit test `*(s-1) == 0` does not
see the terminator. With the bytes `xy,1 / 2,3 / 4,5` behind the terminator the loop
counts 4 rows, more than the length of the input. -/
theorem C20_counts_rows_behind_terminator :
    CountRows ⟨"LL".toList, false, ',', '"', 4⟩
        ("a".toList ++ NUL :: ("xy,1\n2,3\n4,5\n".toList ++ [NUL, NUL])) = some 4 ∧
    cstr ("a".toList ++ NUL :: ("xy,1\n2,3\n4,5\n".toList ++ [NUL, NUL])) = "a".toList ∧
    "a".toList.length = 1 ∧
    CountRows.cols ⟨"LL".toList, false, ',', '"', 4⟩
        ("a".toList ++ NUL :: ("xy,1\n2,3\n4,5\n".toList ++ [NUL, NUL])) 0 "LL".toList 0
      = 5 := by
  decide

end CSV_Parser
